import Mathlib

/-!
Shallow embedding of the Qumulus CRDT node engine (src/node.rs): the data
model (`Vis`, `Value`, `Node`, `NodeTree`, `Update`, `External`,
`DelegatedMatch`) and the two central algorithms `merge` and `read`,
together with `Update.to_json`, `Update.filter` and `Node.expand`.

Modelling conventions:
- `u64` timestamps are `Nat` (the code only compares and copies them, so no
  wrap-around is involved).
- `BTreeMap<String, Node>` is an association list `List (String × Node)`;
  `listInsert` inserts in sorted key position replacing an existing binding,
  exactly as a `BTreeMap` insert behaves on its sorted representation.
- In-place mutation (`&mut`) is explicit state passing: `merge` returns the
  mutated node, the mutated diff, the optional `Update`, the accumulated
  `External` list, and the list of value-conflict diagnostics (the
  `println!` in the equal-timestamp branch is modelled as an emitted
  `Conflict` event).
- The recursion of `merge` is not structural (the propagate step re-merges a
  synthetic diff into every child), so `mergeF` takes explicit fuel; the
  wrapper `Node.merge` supplies `sizeN node + sizeN diff`, a bound on the
  recursion depth of the source function, which only ever recurses into
  strictly smaller node/diff pairs.
- `Path` (from path.rs, not part of the sources given) is modelled from the
  spec as a list of segments; `Path::slice(pos)` is `List.drop pos`.
- `Value` (from value.rs, not part of the sources given) is modelled from the
  spec as the tagged scalar union null/bool/int64/uint64/float64/string; the
  f64 payload is modelled as `Rat` (only equality of values matters to the
  algorithms here).
-/

/-- Tracks visibility of a node: (last-update, last-delete) timestamps. -/
structure Vis where
  updated : Nat
  deleted : Nat
deriving Repr, DecidableEq

/-- Modelled from the spec: the scalar value union of value.rs
(null / bool / int64 / uint64 / float64 / string), compared by equality. -/
inductive Value where
  | Null
  | Bool (b : Bool)
  | I64 (v : Int)
  | U64 (v : Nat)
  | F64 (v : Rat)
  | Str (s : String)
deriving Repr, DecidableEq

/-- The recursive CRDT tree node: visibility, value, optional ordered child
map, and the packed delegation word (`version` with the `active` flag in the
low bit). -/
inductive Node where
  | mk (vis : Vis) (value : Value) (keys : Option (List (String × Node))) (delegated : Nat)
deriving Repr

def Node.vis : Node → Vis
  | .mk v _ _ _ => v

def Node.value : Node → Value
  | .mk _ v _ _ => v

def Node.keys : Node → Option (List (String × Node))
  | .mk _ _ k _ => k

def Node.delegated : Node → Nat
  | .mk _ _ _ d => d

/-- `Default::default()` for `Node`. -/
def Node.default0 : Node := .mk ⟨0, 0⟩ .Null none 0

instance : Inhabited Node := ⟨Node.default0⟩

mutual

/-- Number of nodes in the tree (used as recursion fuel by the wrappers). -/
def Node.sizeN : Node → Nat
  | .mk _ _ none _ => 1
  | .mk _ _ (some ks) _ => 1 + sizeL ks

/-- Total node count of a child list. -/
def sizeL : List (String × Node) → Nat
  | [] => 0
  | (_, c) :: rest => c.sizeN + sizeL rest

end

/-- Node structure that includes ancestor visibility information. -/
structure NodeTree where
  node : Node
  vis : Vis
deriving Repr

/-- Tracks effective changes (includes visibility changes). -/
inductive Update where
  | mk (changed : Bool) (old : Option Value) (new : Option Value)
       (keys : Option (List (String × Update))) (delegated : Option Bool)
deriving Repr

def Update.changed : Update → Bool
  | .mk c _ _ _ _ => c

def Update.old : Update → Option Value
  | .mk _ o _ _ _ => o

def Update.new : Update → Option Value
  | .mk _ _ n _ _ => n

def Update.keys : Update → Option (List (String × Update))
  | .mk _ _ _ k _ => k

def Update.delegated : Update → Option Bool
  | .mk _ _ _ _ d => d

/-- `Default::default()` for `Update`. -/
def Update.default0 : Update := .mk false none none none none

/-- Cross-zone handoff message produced by `merge`: detached delegated
subtree with its effective visibility. -/
structure External where
  path : List String
  tree : NodeTree
  initial : Bool
deriving Repr

/-- Cross-zone handoff message produced by `read`: delegation point and the
unconsumed remainder of the query pattern. -/
structure DelegatedMatch where
  path : List String
  match_spec : List String
deriving Repr, DecidableEq

/-- Diagnostic event for an equal-timestamp value conflict (the `println!`
of the source, modelled as a structured event): path, existing value,
incoming value, timestamp. -/
structure Conflict where
  path : List String
  existing : Value
  incoming : Value
  timestamp : Nat
deriving Repr, DecidableEq

/-! ### Association list operations modelling `BTreeMap<String, _>` -/

/-- `BTreeMap::get`. -/
def listGet {α : Type} (k : String) : List (String × α) → Option α
  | [] => none
  | (k', v) :: rest => if k' = k then some v else listGet k rest

/-- `BTreeMap::insert` on the sorted association-list representation:
insert at sorted key position, replacing an existing binding. -/
def listInsert {α : Type} (k : String) (v : α) : List (String × α) → List (String × α)
  | [] => [(k, v)]
  | (k', v') :: rest =>
    if k < k' then (k, v) :: (k', v') :: rest
    else if k = k' then (k, v) :: rest
    else (k', v') :: listInsert k v rest

/-- Replace the binding of an existing key in place (the occupied-entry
write of the `Entry` API; position of the key is unchanged). -/
def listSet {α : Type} (k : String) (v : α) : List (String × α) → List (String × α)
  | [] => [(k, v)]
  | (k', v') :: rest => if k' = k then (k, v) :: rest else (k', v') :: listSet k v rest

/-! ### Vis operations -/

namespace Vis

/-- `Vis::new`. -/
def new (updated deleted : Nat) : Vis := ⟨updated, deleted⟩

/-- `Vis::update`. -/
def update (updated : Nat) : Vis := new updated 0

/-- `Vis::delete`. -/
def delete (deleted : Nat) : Vis := new 0 deleted

/-- `Vis::descend`: effective visibility given child visibility:
updated = min, deleted = max. -/
def descend (self child : Vis) : Vis :=
  ⟨if child.updated < self.updated then child.updated else self.updated,
   if child.deleted > self.deleted then child.deleted else self.deleted⟩

/-- `Vis::is_noop`: equal to the default value. -/
def is_noop (self : Vis) : Bool := self = (⟨0, 0⟩ : Vis)

/-- `Vis::is_visible`: updated strictly dominates deleted. -/
def is_visible (self : Vis) : Bool := self.updated > self.deleted

/-- `Vis::merge`: pairwise maximum (keep newest data on both fields). -/
def merge (self diff : Vis) : Vis :=
  ⟨if diff.updated > self.updated then diff.updated else self.updated,
   if diff.deleted > self.deleted then diff.deleted else self.deleted⟩

end Vis

/-! ### Simple Node operations -/

namespace Node

/-- `Node::delete`: a recursive delete at `timestamp`. -/
def delete (timestamp : Nat) : Node := .mk (Vis.delete timestamp) .Null none 0

/-- `Node::delegate`: delegation marker with the active bit set. -/
def delegate (timestamp : Nat) : Node := .mk ⟨0, 0⟩ .Null none (timestamp ||| 1)

/-- `Node::undelegate`: delegation marker with the active bit cleared
(`timestamp & !1`). -/
def undelegate (timestamp : Nat) : Node := .mk ⟨0, 0⟩ .Null none (timestamp - timestamp % 2)

/-- `Node::is_noop`: equal to the default node. -/
def is_noop (self : Node) : Bool :=
  self.vis = (⟨0, 0⟩ : Vis) && self.value = Value.Null &&
    self.keys.isNone && self.delegated = 0

/-- `Node::delegated(&mut self)`: the moved-out external part (everything but
the delegation word). -/
def delegatedPart (self : Node) : Node :=
  .mk self.vis self.value self.keys self.delegated

/-- The residue `Node::delegated` leaves behind: fields reset to default,
delegation word kept. -/
def delegatedResidue (self : Node) : Node :=
  .mk ⟨0, 0⟩ .Null none self.delegated

end Node

/-! ### Update helpers -/

namespace Update

/-- `Update::is_noop`: no change flag, no old/new value, no child updates
(the `delegated` field is not inspected). -/
def is_noop (self : Update) : Bool :=
  !self.changed && self.old.isNone && self.new.isNone && self.keys.isNone

/-- `Update::add_child` acting on the optional child map: ignore a `None`
child update, otherwise insert it under its key. -/
def addChild (keys : Option (List (String × Update))) (k : String) :
    Option Update → Option (List (String × Update))
  | none => keys
  | some u => some (listInsert k u (keys.getD []))

end Update

/-! ### merge -/

/-- Result of one `merge` call: the mutated node, the mutated diff, the
optional `Update`, and the accumulated `External` and `Conflict` lists. -/
structure MergeResult where
  node : Node
  diff : Node
  update : Option Update
  externals : List External
  conflicts : List Conflict

/-- Accumulator for the propagate loop over the node's existing children:
rebuilt child list, the threaded synthetic diff (which child merges mutate,
exactly as the `TODO: p_node is mutable and will get corrupted` comment
admits), child updates, and outputs. -/
structure PropAcc where
  children : List (String × Node)
  pdiff : Node
  ukeys : Option (List (String × Update))
  externals : List External
  conflicts : List Conflict

/-- Accumulator for the diff-driven key loop: the node's child map being
mutated, the rebuilt diff child list (entries mutated in place), child
updates, and outputs. -/
structure KeysAcc where
  nodeKeys : List (String × Node)
  diffKeys : List (String × Node)
  ukeys : Option (List (String × Update))
  externals : List External
  conflicts : List Conflict

/-- Step 2 of merge (value merge) outputs: the node's new value and updated
timestamp, the diff's retained updated timestamp and value, whether the
value changed, the raised propagate signal, and the conflict diagnostics. -/
structure Step2Out where
  nvalue1 : Value
  nupdated1 : Nat
  dupdated1 : Nat
  dvalue1 : Value
  valueChanged : Bool
  propagate : Option Node
  conflicts : List Conflict

/-- Merge value at node (step 2): a strictly newer diff timestamp adopts the
diff value and raises the propagate signal; a strictly older one is zeroed
out of the diff; equal timestamps with differing values emit the conflict
diagnostic and keep the existing value. -/
def mergeValueStep (stack : List String) (nvis : Vis) (nvalue : Value)
    (dvis : Vis) (dvalue : Value) : Step2Out :=
  if nvis.updated < dvis.updated then
    ⟨dvalue, dvis.updated, dvis.updated, dvalue,
     if nvalue = dvalue then false else true, some Node.default0, []⟩
  else if dvis.updated < nvis.updated then
    ⟨nvalue, nvis.updated, 0, Value.Null, false, none, []⟩
  else
    ⟨nvalue, nvis.updated, dvis.updated, dvalue, false, none,
     if nvalue = dvalue then [] else [⟨stack, nvalue, dvalue, dvis.updated⟩]⟩

/-- Step 3 of merge (deletion merge) outputs. -/
structure Step3Out where
  ndeleted1 : Nat
  nvalue2 : Value
  ddeleted1 : Nat
  propagate : Option Node

/-- Merge deletion (step 3): a strictly newer delete is adopted (clearing
the value to the tombstone when it dominates the updated timestamp) and
folded into the propagate signal; a stale one is zeroed out of the diff. -/
def mergeDeleteStep (nvis : Vis) (nupdated1 : Nat) (nvalue1 : Value)
    (dvis : Vis) (propagate0 : Option Node) : Step3Out :=
  if nvis.deleted < dvis.deleted then
    ⟨dvis.deleted,
     if nupdated1 < dvis.deleted then Value.Null else nvalue1,
     dvis.deleted,
     match propagate0 with
     | some (.mk pv pval pk pd) => some (.mk ⟨pv.updated, dvis.deleted⟩ pval pk pd)
     | none => some (Node.delete dvis.deleted)⟩
  else
    ⟨nvis.deleted, nvalue1, 0, propagate0⟩

/-- Map the (old-visible, new-visible) transition to the update's
(changed, old, new) fields (step 5). -/
def mergeVisStep (oldVis newVis valueChanged : Bool) (oldInit : Option Value)
    (nvalue2 : Value) : Bool × Option Value × Option Value :=
  match oldVis, newVis with
  | false, false => (false, none, none)
  | false, true => (true, oldInit, some nvalue2)
  | true, false => (true, oldInit, none)
  | true, true =>
    if valueChanged then (true, oldInit, some nvalue2) else (false, none, none)

/-- Step 8 of merge (delegation-status merge) outputs. -/
structure Step8Out where
  ndeleg1 : Nat
  ddeleg1 : Nat
  updDelegated : Option Bool
  initial : Bool

/-- Merge delegation status (step 8): a strictly newer delegation word wins;
when the active bit flips on a non-root node, record it in the update and
remember whether this is the initial transition into delegation. -/
def mergeDelegStep (stack : List String) (ndeleg ddeleg : Nat) : Step8Out :=
  if 0 < ddeleg ∧ ndeleg < ddeleg then
    if stack ≠ [] ∧ ddeleg % 2 ≠ ndeleg % 2 then
      ⟨ddeleg, ddeleg, some (decide (ddeleg % 2 = 1)), decide (ddeleg % 2 = 1)⟩
    else ⟨ddeleg, ddeleg, none, false⟩
  else ⟨ndeleg, 0, none, false⟩

/-- Step 9 of merge (delegated-data handling) outputs: the final node, the
final external list, and the update fields after a possible suppression. -/
structure Step9Out where
  node : Node
  externals : List External
  changed : Bool
  old : Option Value
  new : Option Value
  ukeys : Option (List (String × Update))

/-- Handle delegated data (step 9): once a non-root node is active-delegated
and carries payload (children, a non-null value, or the initial transition),
detach its value/children/visibility into an `External` and, unless this is
the initial transition, discard the update fields. -/
def mergeDelegDataStep (stack : List String) (nvisAfter : Vis) (nvalue2 : Value)
    (nkeys2 : Option (List (String × Node))) (ndeleg1 : Nat)
    (initialDelegation : Bool) (visNew : Vis) (exts1 : List External)
    (changed1 : Bool) (old1 new1 : Option Value)
    (ukeys1 : Option (List (String × Update))) : Step9Out :=
  if stack ≠ [] ∧ ndeleg1 % 2 = 1 ∧
      (nkeys2.isSome = true ∨ nvalue2 ≠ Value.Null ∨ initialDelegation = true) then
    let detached : Node := .mk nvisAfter nvalue2 nkeys2 ndeleg1
    let ext : External := ⟨stack, ⟨detached, visNew⟩, initialDelegation⟩
    -- let the delegated Zone notify listeners: discard the update unless
    -- this is the initial delegation
    if initialDelegation then
      ⟨.mk ⟨0, 0⟩ .Null none ndeleg1, exts1 ++ [ext], changed1, old1, new1, ukeys1⟩
    else
      ⟨.mk ⟨0, 0⟩ .Null none ndeleg1, exts1 ++ [ext], false, none, none, none⟩
  else
    ⟨.mk nvisAfter nvalue2 nkeys2 ndeleg1, exts1, changed1, old1, new1, ukeys1⟩

/-- One iteration of the propagate loop: fold the recursive merge result for
one child into the accumulator (the threaded synthetic diff is replaced by
the mutated one). -/
def propStepAcc (acc : PropAcc) (k : String) (r : MergeResult) : PropAcc :=
  ⟨acc.children ++ [(k, r.node)], r.diff, Update.addChild acc.ukeys k r.update,
   acc.externals ++ r.externals, acc.conflicts ++ r.conflicts⟩

/-- One iteration of the diff-key loop, occupied-entry case: replace the
existing child by the merged one. -/
def keysStepOcc (acc : KeysAcc) (k : String) (m : MergeResult) : KeysAcc :=
  ⟨listSet k m.node acc.nodeKeys, acc.diffKeys ++ [(k, m.diff)],
   Update.addChild acc.ukeys k m.update,
   acc.externals ++ m.externals, acc.conflicts ++ m.conflicts⟩

/-- One iteration of the diff-key loop, vacant-entry case: keep the freshly
created child only when the merge left it non-noop. -/
def keysStepVac (acc : KeysAcc) (k : String) (m : MergeResult) : KeysAcc :=
  ⟨if m.node.is_noop then acc.nodeKeys else listInsert k m.node acc.nodeKeys,
   acc.diffKeys ++ [(k, m.diff)],
   Update.addChild acc.ukeys k m.update,
   acc.externals ++ m.externals, acc.conflicts ++ m.conflicts⟩

/-- Internal merge implementation (the free function `merge` of node.rs),
with explicit fuel for the recursion; the wrapper `Node.merge` supplies
sufficient fuel. `stack` is the current path. Returns the mutated node, the
mutated diff, the optional `Update`, and the `External`/`Conflict` output
lists in emission order. -/
def mergeF : Nat → List String → Node → Node → Vis → Vis → MergeResult
  | 0, _, node, diff, _, _ => ⟨node, diff, none, [], []⟩
  | fuel + 1, stack, .mk nvis nvalue nkeys ndeleg, .mk dvis dvalue dkeys ddeleg,
      visOldP, visNewP =>
    -- "Previous" effective visibility of this node
    let visOld := visOldP.descend nvis
    -- update.old is pre-set to the current value when previously visible
    let oldInit : Option Value := if visOld.is_visible then some nvalue else none
    -- Merge value at node
    let s2 := mergeValueStep stack nvis nvalue dvis dvalue
    -- Merge deletion
    let s3 := mergeDeleteStep nvis s2.nupdated1 s2.nvalue1 dvis s2.propagate
    let nvisAfter : Vis := ⟨s2.nupdated1, s3.ndeleted1⟩
    -- "New" effective visibility of this node
    let visNew := visNewP.descend nvisAfter
    -- Map the visibility transition to the update fields
    let s5 := mergeVisStep visOld.is_visible visNew.is_visible s2.valueChanged
      oldInit s3.nvalue2
    -- Propagate uncloaks / deletes into every existing child
    let prop : PropAcc :=
      match s3.propagate, nkeys with
      | some p0, some ks =>
        ks.foldl
          (fun acc kc =>
            propStepAcc acc kc.1
              (mergeF fuel (stack ++ [kc.1]) kc.2 acc.pdiff visOld visNew))
          ⟨[], p0, none, [], s2.conflicts⟩
      | _, _ => ⟨[], Node.default0, none, [], s2.conflicts⟩
    let nkeys1 : Option (List (String × Node)) :=
      match s3.propagate, nkeys with
      | some _, some _ => some prop.children
      | _, _ => nkeys
    -- Merge keys driven by the diff
    let keysRes : Option (List (String × Node)) × Option (List (String × Node)) ×
        Option (List (String × Update)) × List External × List Conflict :=
      match dkeys with
      | none => (nkeys1, none, prop.ukeys, prop.externals, prop.conflicts)
      | some dks =>
        let r : KeysAcc :=
          dks.foldl
            (fun acc kd =>
              match listGet kd.1 acc.nodeKeys with
              | some child =>
                -- Existing node exists, so recursively merge
                keysStepOcc acc kd.1
                  (mergeF fuel (stack ++ [kd.1]) child kd.2 visOld visNew)
              | none =>
                -- No existing node, merge to empty node; keep it when non-noop
                keysStepVac acc kd.1
                  (mergeF fuel (stack ++ [kd.1]) Node.default0 kd.2 visOld visNew))
            ⟨(nkeys1).getD [], [], prop.ukeys, prop.externals, prop.conflicts⟩
        (some r.nodeKeys, some r.diffKeys, r.ukeys, r.externals, r.conflicts)
    -- Merge delegation (external) status of node
    let s8 := mergeDelegStep stack ndeleg ddeleg
    -- Handle delegated data
    let s9 := mergeDelegDataStep stack nvisAfter s3.nvalue2 keysRes.1 s8.ndeleg1
      s8.initial visNew keysRes.2.2.2.1 s5.1 s5.2.1 s5.2.2 keysRes.2.2.1
    let updFinal : Update := .mk s9.changed s9.old s9.new s9.ukeys s8.updDelegated
    ⟨s9.node, .mk ⟨s2.dupdated1, s3.ddeleted1⟩ s2.dvalue1 keysRes.2.1 s8.ddeleg1,
     if updFinal.is_noop then none else some updFinal,
     s9.externals, keysRes.2.2.2.2⟩

/-- `Node::merge`: the public entry point, starting from the empty path and
empty output lists. The fuel `sizeN self + sizeN diff` bounds the recursion
depth of the Rust function, which recurses only into strictly smaller
node/diff pairs. -/
def Node.merge (self diff : Node) (visOld visNew : Vis) : MergeResult :=
  mergeF (self.sizeN + diff.sizeN) [] self diff visOld visNew

/-- Result of `NodeTree::merge`: both mutated trees plus the outputs. -/
structure TreeMergeResult where
  self : NodeTree
  diff : NodeTree
  update : Option Update
  externals : List External
  conflicts : List Conflict

/-- `NodeTree::merge`: de-conflict the diff's ancestor visibility against the
stored one, delegate to `Node::merge` with (old stored vis, de-conflicted
diff vis) as the ancestor window, and store the de-conflicted vis. -/
def NodeTree.merge (self diff : NodeTree) : TreeMergeResult :=
  let dvis := diff.vis.merge self.vis
  let r := self.node.merge diff.node self.vis dvis
  ⟨⟨r.node, dvis⟩, ⟨r.diff, dvis⟩, r.update, r.externals, r.conflicts⟩

/-! ### read -/

/-- Accumulator for the fan-out loops of `read`. -/
structure ReadAcc where
  ukeys : Option (List (String × Update))
  dmatches : List DelegatedMatch

/-- Internal read implementation, with explicit fuel for the recursion; the
wrapper `Node.read` supplies sufficient fuel. `stack` tracks the current
path, `pos` the cursor into the pattern. Returns the optional `Update` and
the accumulated `DelegatedMatch` list. -/
def readF : Nat → List String → Node → Vis → List String → Nat →
    Option Update × List DelegatedMatch
  | 0, _, _, _, _, _ => (none, [])
  | fuel + 1, stack, node, visP, path, pos =>
    -- Effective visibility of this node
    let vis := visP.descend node.vis
    -- Delegated data: stop recursing, hand the rest of the pattern off
    if stack ≠ [] ∧ node.delegated % 2 = 1 then
      (some (.mk false none none none (some true)), [⟨stack, path.drop pos⟩])
    else
      let readSelf0 := path.length ≤ stack.length
      let inner : Bool × ReadAcc :=
        if pos < path.length then
          let part := path.getD pos ""
          match node.keys with
          | some ks =>
            if part = "*" then
              -- Match all
              (readSelf0,
               ks.foldl (fun acc kc =>
                 let r := readF fuel (stack ++ [kc.1]) kc.2 vis path (pos + 1)
                 ⟨Update.addChild acc.ukeys kc.1 r.1, acc.dmatches ++ r.2⟩) ⟨none, []⟩)
            else if part = "**" then
              -- Match all recursively (convert part to "*#")
              (readSelf0,
               ks.foldl (fun acc kc =>
                 let r := readF fuel (stack ++ [kc.1]) kc.2 vis ["*#"] 0
                 ⟨Update.addChild acc.ukeys kc.1 r.1, acc.dmatches ++ r.2⟩) ⟨none, []⟩)
            else if part = "*#" then
              -- Match all recursively, also fetch self; don't advance the cursor
              (true,
               ks.foldl (fun acc kc =>
                 let r := readF fuel (stack ++ [kc.1]) kc.2 vis path pos
                 ⟨Update.addChild acc.ukeys kc.1 r.1, acc.dmatches ++ r.2⟩) ⟨none, []⟩)
            else
              -- Match one
              match listGet part ks with
              | some child =>
                let r := readF fuel (stack ++ [part]) child vis path (pos + 1)
                (readSelf0, ⟨Update.addChild none part r.1, r.2⟩)
              | none => (readSelf0, ⟨none, []⟩)
          | none =>
            -- no children, but still check if self should be read
            (if part = "*#" then true else readSelf0, ⟨none, []⟩)
        else (readSelf0, ⟨none, []⟩)
      let readSelf := inner.1
      let acc := inner.2
      let upd : Update :=
        if readSelf ∧ vis.is_visible then
          .mk true none (some node.value) acc.ukeys none
        else
          .mk false none none acc.ukeys none
      (if upd.is_noop then none else some upd, acc.dmatches)

/-- `Node::read`: the public entry point. -/
def Node.read (self : Node) (vis : Vis) (path : List String) :
    Option Update × List DelegatedMatch :=
  readF self.sizeN [] self vis path 0

/-- `NodeTree::read`: read under the stored ancestor visibility. -/
def NodeTree.read (self : NodeTree) (path : List String) :
    Option Update × List DelegatedMatch :=
  self.node.read self.vis path

/-! ### JSON, Update projection and filtering -/

/-- Modelled from the spec boundary: a serde_json number (positive integer,
negative integer, or float), with `as_f64` converting to the float payload. -/
inductive JNum where
  | ofI64 (v : Int)
  | ofU64 (v : Nat)
  | ofF64 (v : Rat)
deriving Repr, DecidableEq

/-- `Number::as_f64` (modelled without float rounding: only the resulting
tag matters to the algorithms here). -/
def JNum.as_f64 : JNum → Rat
  | .ofI64 v => (v : Rat)
  | .ofU64 v => (v : Nat) 
  | .ofF64 v => v

/-- Modelled from the spec boundary: serde_json JSON values. -/
inductive JSON where
  | null
  | bool (b : Bool)
  | num (n : JNum)
  | str (s : String)
  | obj (fields : List (String × JSON))
  | arr (elems : List JSON)
deriving Repr

mutual

/-- Structural equality of JSON values (serde_json `PartialEq`). -/
def JSON.beq : JSON → JSON → Bool
  | .null, .null => true
  | .bool a, .bool b => a = b
  | .num a, .num b => a = b
  | .str a, .str b => a = b
  | .obj a, .obj b => JSON.beqFields a b
  | .arr a, .arr b => JSON.beqElems a b
  | _, _ => false

def JSON.beqFields : List (String × JSON) → List (String × JSON) → Bool
  | [], [] => true
  | (k₁, v₁) :: r₁, (k₂, v₂) :: r₂ => k₁ = k₂ && JSON.beq v₁ v₂ && JSON.beqFields r₁ r₂
  | _, _ => false

def JSON.beqElems : List JSON → List JSON → Bool
  | [], [] => true
  | v₁ :: r₁, v₂ :: r₂ => JSON.beq v₁ v₂ && JSON.beqElems r₁ r₂
  | _, _ => false

end

/-- The scalar slot of the 3-slot rendering: how `to_json` and `filter`
render `update.new`. -/
def valueJSON : Option Value → JSON
  | some Value.Null | none => .null
  | some (Value.Bool v) => .bool v
  | some (Value.I64 v) => .num (.ofI64 v)
  | some (Value.U64 v) => .num (.ofU64 v)
  | some (Value.F64 v) => .num (.ofF64 v)
  | some (Value.Str s) => .str s

mutual

/-- `Update::to_json`: the `[children-or-null, changed-flag-or-null,
scalar-or-null]` rendering; children still flagged delegated are omitted. -/
def Update.to_json : Update → JSON
  | .mk changed _ new keys _ =>
    let changedJ : JSON := match changed with
      | false => .null
      | true => .bool new.isSome
    let keysJ : JSON := match keys with
      | none => .null
      | some ks => .obj (Update.keysToJson ks)
    .arr [keysJ, changedJ, valueJSON new]

/-- Render a child map, omitting entries flagged `delegated = Some true`. -/
def Update.keysToJson : List (String × Update) → List (String × JSON)
  | [] => []
  | (k, u) :: rest =>
    match u.delegated with
    | some true => Update.keysToJson rest
    | _ => (k, u.to_json) :: Update.keysToJson rest

end

/-- `Update::filter`: the JSON slice of this update matching `path`
(`Null` when nothing matches). -/
def Update.filter (self : Update) : List String → JSON
  | [] =>
    -- update matches path so return changes if any
    if self.changed = false then .null
    else .arr [.null, .bool self.new.isSome, valueJSON self.new]
  | part :: rest =>
    if part = "**" ∨ part = "*#" then self.to_json
    else if part = "*" then
      match self.keys with
      | some ks =>
        .arr [.obj (ks.filterMap fun kv =>
          if (kv.2.delegated.getD false) = true then none
          else
            let v := kv.2.filter rest
            if v.beq .null then none
            else some (kv.1, v)), .null, .null]
      | none => .null
    else
      match self.keys with
      | some ks =>
        match listGet part ks with
        | some childUpdate =>
          let u := childUpdate.filter rest
          if u.beq .null then .null
          else .arr [.obj [(part, u)], .null, .null]
        | none => .null
      | none => .null

/-! ### Node expansion -/

/-- `Node::expand` with explicit fuel over the JSON structure; the wrapper
`Node.expand` supplies sufficient fuel. Every produced node carries
`Vis::update(timestamp)`; objects become child keys directly, array
elements become children keyed by their stringified index; numbers become
`Value::F64` via `as_f64`. -/
def expandF : Nat → JSON → Nat → Node
  | 0, _, _ => Node.default0
  | _ + 1, .null, t => .mk (Vis.update t) .Null none 0
  | _ + 1, .bool v, t => .mk (Vis.update t) (.Bool v) none 0
  | _ + 1, .num v, t => .mk (Vis.update t) (.F64 v.as_f64) none 0
  | _ + 1, .str s, t => .mk (Vis.update t) (.Str s) none 0
  | fuel + 1, .obj fields, t =>
    .mk (Vis.update t) .Null
      (some (fields.foldl (fun m kv => listInsert kv.1 (expandF fuel kv.2 t) m) [])) 0
  | fuel + 1, .arr elems, t =>
    .mk (Vis.update t) .Null
      (some ((elems.enum.map fun ie => (toString ie.1, ie.2)).foldl
        (fun m kv => listInsert kv.1 (expandF fuel kv.2 t) m) [])) 0

mutual

/-- Number of JSON nodes (fuel bound for `expandF`). -/
def JSON.sizeJ : JSON → Nat
  | .null | .bool _ | .num _ | .str _ => 1
  | .obj fields => 1 + JSON.sizeFields fields
  | .arr elems => 1 + JSON.sizeElems elems

def JSON.sizeFields : List (String × JSON) → Nat
  | [] => 0
  | (_, v) :: rest => v.sizeJ + JSON.sizeFields rest

def JSON.sizeElems : List JSON → Nat
  | [] => 0
  | v :: rest => v.sizeJ + JSON.sizeElems rest

end

/-- `Node::expand`. -/
def Node.expand (data : JSON) (timestamp : Nat) : Node :=
  expandF data.sizeJ data timestamp

/-! ### Observable state -/

/-- The stored value at a path of the tree (`None` when the path is
absent). Used to phrase claims about tree contents. -/
def Node.valueAt : Node → List String → Option Value
  | n, [] => some n.value
  | n, k :: rest =>
    match n.keys with
    | none => none
    | some ks =>
      match listGet k ks with
      | none => none
      | some c => c.valueAt rest

/-- The effective visibility accumulated along a path (`None` when the path
is absent): repeated `Vis::descend` from the ancestor window down. -/
def Node.visAt : Node → Vis → List String → Option Vis
  | n, vis, [] => some (vis.descend n.vis)
  | n, vis, k :: rest =>
    match n.keys with
    | none => none
    | some ks =>
      match listGet k ks with
      | none => none
      | some c => c.visAt (vis.descend n.vis) rest

/-- The externally observable value at a path: the stored value where the
effective visibility is visible, absent otherwise. -/
def Node.visibleAt (n : Node) (vis : Vis) (p : List String) : Option Value :=
  match n.visAt vis p with
  | none => none
  | some v => if v.is_visible then n.valueAt p else none

/-! ### Claim theorems -/

/-- C6: for every pair of `Vis` values `V` and `C`, `V.descend C` is exactly
`(min V.updated C.updated, max V.deleted C.deleted)`, and descend is
associative across repeated descents: descending `V` by `C` then by `D`
equals descending `V` by `C.descend D`. -/
theorem c6_descend_law :
    (∀ V C : Vis, V.descend C = ⟨min V.updated C.updated, max V.deleted C.deleted⟩) ∧
    (∀ V C D : Vis, (V.descend C).descend D = V.descend (C.descend D)) := by
  constructor
  · intro V C
    simp only [Vis.descend, Vis.mk.injEq]
    constructor <;> split_ifs <;> omega
  · intro V C D
    simp only [Vis.descend, Vis.mk.injEq]
    constructor <;> split_ifs <;> omega

/-- C8: `NodeTree.merge` first de-conflicts `diff.vis` against the stored
`self.vis` via `Vis.merge`, delegates to `Node.merge` with (stored vis
before the call, de-conflicted diff vis) as the ancestor window, and stores
the de-conflicted vis; consequently both fields of the stored ancestor
`Vis` are non-decreasing across the call. -/
theorem c8_nodetree_merge_window (self diff : NodeTree) :
    self.merge diff =
      ⟨⟨(self.node.merge diff.node self.vis (diff.vis.merge self.vis)).node,
        diff.vis.merge self.vis⟩,
       ⟨(self.node.merge diff.node self.vis (diff.vis.merge self.vis)).diff,
        diff.vis.merge self.vis⟩,
       (self.node.merge diff.node self.vis (diff.vis.merge self.vis)).update,
       (self.node.merge diff.node self.vis (diff.vis.merge self.vis)).externals,
       (self.node.merge diff.node self.vis (diff.vis.merge self.vis)).conflicts⟩ ∧
    self.vis.updated ≤ (self.merge diff).self.vis.updated ∧
    self.vis.deleted ≤ (self.merge diff).self.vis.deleted := by
  refine ⟨rfl, ?_, ?_⟩ <;>
    · simp only [NodeTree.merge, Vis.merge]
      split_ifs <;> omega

/-- C7: a read reaching a non-root node whose delegation state is active
stops recursing there: it emits exactly one `DelegatedMatch` whose path is
the path accumulated so far and whose `match_spec` is the unconsumed
remainder of the pattern, and returns an `Update` whose `delegated` field is
`some true` and whose other fields are empty. -/
theorem c7_read_delegated (fuel : Nat) (stack : List String) (node : Node)
    (vis : Vis) (path : List String) (pos : Nat)
    (hstack : stack ≠ []) (hdeleg : node.delegated % 2 = 1) :
    readF (fuel + 1) stack node vis path pos =
      (some (.mk false none none none (some true)), [⟨stack, path.drop pos⟩]) := by
  simp only [readF]
  rw [if_pos ⟨hstack, hdeleg⟩]

/-- Witness for C7 at a concrete delegated node. -/
theorem c7_read_delegated_witness :
    readF 1 ["a"] (.mk ⟨5, 0⟩ .Null none 3) ⟨9, 0⟩ ["a", "b", "c"] 1 =
      (some (.mk false none none none (some true)), [⟨["a"], ["b", "c"]⟩]) :=
  c7_read_delegated 0 ["a"] (.mk ⟨5, 0⟩ .Null none 3) ⟨9, 0⟩ ["a", "b", "c"] 1
    (by decide) (by decide)

/-! ### Helper lemmas on association lists -/

theorem listGet_mem {α : Type} {k : String} {m : List (String × α)} {c : α}
    (h : listGet k m = some c) : (k, c) ∈ m := by
  induction m with
  | nil => simp [listGet] at h
  | cons hd tl ih =>
    obtain ⟨k', v⟩ := hd
    simp only [listGet] at h
    split_ifs at h with he
    · cases h
      subst he
      exact List.mem_cons_self _ _
    · exact List.mem_cons_of_mem _ (ih h)

theorem listInsert_mem {α : Type} {k : String} {v : α} {m : List (String × α)}
    {x : String × α} (h : x ∈ listInsert k v m) : x = (k, v) ∨ x ∈ m := by
  induction m with
  | nil => simpa [listInsert] using h
  | cons hd tl ih =>
    obtain ⟨k', v'⟩ := hd
    simp only [listInsert] at h
    split_ifs at h with h1 h2
    · rcases List.mem_cons.mp h with h' | h'
      · exact Or.inl h'
      · exact Or.inr h'
    · rcases List.mem_cons.mp h with h' | h'
      · exact Or.inl h'
      · exact Or.inr (List.mem_cons_of_mem _ h')
    · rcases List.mem_cons.mp h with h' | h'
      · exact Or.inr (h' ▸ List.mem_cons_self _ _)
      · rcases ih h' with h'' | h''
        · exact Or.inl h''
        · exact Or.inr (List.mem_cons_of_mem _ h'')

theorem mem_foldl_listInsert {α : Type} (g : JSON → α) :
    ∀ (l : List (String × JSON)) (init : List (String × α)) (x : String × α),
      x ∈ l.foldl (fun m kv => listInsert kv.1 (g kv.2) m) init →
      (∃ kv ∈ l, x = (kv.1, g kv.2)) ∨ x ∈ init := by
  intro l
  induction l with
  | nil => intro init x h; exact Or.inr h
  | cons hd tl ih =>
    intro init x h
    simp only [List.foldl_cons] at h
    rcases ih _ x h with ⟨kv, hkv, hx⟩ | h'
    · exact Or.inl ⟨kv, List.mem_cons_of_mem _ hkv, hx⟩
    · rcases listInsert_mem h' with hx | hx
      · exact Or.inl ⟨hd, List.mem_cons_self _ _, hx⟩
      · exact Or.inr hx

/-- Every value reachable in a node produced by `expandF` is not an integer
value. -/
theorem expandF_no_int :
    ∀ (f : Nat) (j : JSON) (t : Nat) (p : List String) (v : Value),
      (expandF f j t).valueAt p = some v →
      (∀ i : Int, v ≠ .I64 i) ∧ (∀ u : Nat, v ≠ .U64 u) := by
  intro f
  induction f with
  | zero =>
    intro j t p v h
    cases p with
    | nil =>
      simp only [expandF, Node.default0, Node.valueAt, Node.value] at h
      cases h
      simp
    | cons k rest =>
      simp [expandF, Node.default0, Node.valueAt, Node.keys] at h
  | succ f ih =>
    intro j t p v h
    cases j with
    | null =>
      cases p with
      | nil => simp only [expandF, Node.valueAt, Node.value] at h; cases h; simp
      | cons k rest => simp [expandF, Node.valueAt, Node.keys] at h
    | bool b =>
      cases p with
      | nil => simp only [expandF, Node.valueAt, Node.value] at h; cases h; simp
      | cons k rest => simp [expandF, Node.valueAt, Node.keys] at h
    | num n =>
      cases p with
      | nil => simp only [expandF, Node.valueAt, Node.value] at h; cases h; simp
      | cons k rest => simp [expandF, Node.valueAt, Node.keys] at h
    | str s =>
      cases p with
      | nil => simp only [expandF, Node.valueAt, Node.value] at h; cases h; simp
      | cons k rest => simp [expandF, Node.valueAt, Node.keys] at h
    | obj fields =>
      cases p with
      | nil => simp only [expandF, Node.valueAt, Node.value] at h; cases h; simp
      | cons k rest =>
        simp only [expandF, Node.valueAt, Node.keys] at h
        rcases hg : listGet k (fields.foldl
            (fun m kv => listInsert kv.1 (expandF f kv.2 t) m) []) with _ | c
        · rw [hg] at h; cases h
        · rw [hg] at h
          rcases mem_foldl_listInsert (fun jj => expandF f jj t) fields [] _
              (listGet_mem hg) with ⟨kv, _, hx⟩ | hmem
          · have : c = expandF f kv.2 t := congrArg Prod.snd hx
            exact ih kv.2 t rest v (this ▸ h)
          · cases hmem
    | arr elems =>
      cases p with
      | nil => simp only [expandF, Node.valueAt, Node.value] at h; cases h; simp
      | cons k rest =>
        simp only [expandF, Node.valueAt, Node.keys] at h
        rcases hg : listGet k ((elems.enum.map fun ie => (toString ie.1, ie.2)).foldl
            (fun m kv => listInsert kv.1 (expandF f kv.2 t) m) []) with _ | c
        · rw [hg] at h; cases h
        · rw [hg] at h
          rcases mem_foldl_listInsert (fun jj => expandF f jj t)
              (elems.enum.map fun ie => (toString ie.1, ie.2)) [] _
              (listGet_mem hg) with ⟨kv, _, hx⟩ | hmem
          · have : c = expandF f kv.2 t := congrArg Prod.snd hx
            exact ih kv.2 t rest v (this ▸ h)
          · cases hmem

/-- C10: `Node.expand` converts every JSON number into `Value.F64`: no node
produced by `expand` ever carries `Value.I64` or `Value.U64`, at any path,
for any JSON input and timestamp — integer writes lose their integer type at
ingestion even though the `Value` union distinguishes them. -/
theorem c10_expand_only_f64 (j : JSON) (t : Nat) (p : List String) (v : Value)
    (h : (Node.expand j t).valueAt p = some v) :
    (∀ i : Int, v ≠ .I64 i) ∧ (∀ u : Nat, v ≠ .U64 u) :=
  expandF_no_int j.sizeJ j t p v h

/-- Witness for C10: expanding the integer write `5` at `t = 3` yields an
`F64` value at the root. -/
theorem c10_expand_only_f64_witness :
    (Node.expand (.num (.ofI64 5)) 3).valueAt [] = some (.F64 5) ∧
    ((∀ i : Int, Value.F64 5 ≠ .I64 i) ∧ (∀ u : Nat, Value.F64 5 ≠ .U64 u)) :=
  ⟨rfl, c10_expand_only_f64 (.num (.ofI64 5)) 3 [] (.F64 5) rfl⟩

/-- Folding the diff-key loop only ever appends to the conflicts list. -/
theorem foldl_conflicts_mono {α : Type} (f : KeysAcc → α → KeysAcc)
    (hf : ∀ acc x, ∃ l, (f acc x).conflicts = acc.conflicts ++ l) :
    ∀ (xs : List α) (acc : KeysAcc), ∃ l, (xs.foldl f acc).conflicts = acc.conflicts ++ l := by
  intro xs
  induction xs with
  | nil => intro acc; exact ⟨[], (List.append_nil _).symm⟩
  | cons hd tl ih =>
    intro acc
    obtain ⟨l₁, h₁⟩ := hf acc hd
    obtain ⟨l₂, h₂⟩ := ih (f acc hd)
    exact ⟨l₁ ++ l₂, by simp only [List.foldl_cons, h₂, h₁, List.append_assoc]⟩

/-- Membership in the conflicts list is preserved by folds that only ever
append to it. -/
theorem foldl_conflicts_mem {α : Type} (f : KeysAcc → α → KeysAcc)
    (hf : ∀ acc x, ∃ l, (f acc x).conflicts = acc.conflicts ++ l)
    (xs : List α) (acc : KeysAcc) {c : Conflict} (hc : c ∈ acc.conflicts) :
    c ∈ (xs.foldl f acc).conflicts := by
  obtain ⟨l, hl⟩ := foldl_conflicts_mono f hf xs acc
  rw [hl]
  exact List.mem_append_left _ hc

/-- C5 counterexample: the claim fails as stated. With equal updated
timestamps and differing values, (i) a diff that also carries a newer delete
tombstones the stored value (`Str "a"` becomes `Null`), and (ii) an
active-delegated node is stripped, resetting both its value and its updated
timestamp — so "the node's value and updated timestamp are unchanged" does
not hold of the whole merge call. -/
theorem c5_conflict_counterexample :
    (Node.merge (.mk ⟨5, 0⟩ (.Str "a") none 0) (.mk ⟨5, 9⟩ (.Str "b") none 0)
        ⟨100, 0⟩ ⟨100, 0⟩).node.value = Value.Null ∧
    Value.Null ≠ Value.Str "a" ∧
    (Node.merge (.mk ⟨5, 0⟩ .Null (some [("a", .mk ⟨5, 0⟩ (.Str "a") none 1)]) 0)
        (.mk ⟨5, 0⟩ .Null (some [("a", .mk ⟨5, 0⟩ (.Str "b") none 0)]) 0)
        ⟨100, 0⟩ ⟨100, 0⟩).node
      = .mk ⟨5, 0⟩ .Null (some [("a", .mk ⟨0, 0⟩ .Null none 1)]) 0 ∧
    (0 : Nat) ≠ 5 :=
  ⟨rfl, by decide, rfl, by decide⟩

/-- When the delegation words have equal parity the active bit cannot flip:
no delegated update, no initial transition, parity of the stored word is
unchanged. -/
theorem mergeDelegStep_noflip (stack : List String) (ndeleg ddeleg : Nat)
    (h : ddeleg % 2 = ndeleg % 2) :
    (mergeDelegStep stack ndeleg ddeleg).updDelegated = none ∧
    (mergeDelegStep stack ndeleg ddeleg).initial = false ∧
    (mergeDelegStep stack ndeleg ddeleg).ndeleg1 % 2 = ndeleg % 2 := by
  unfold mergeDelegStep
  split_ifs with hc hin
  · exact absurd hin.2 (by simp [h])
  · simp [h]
  · simp

/-- With an even (inactive) delegation word, step 9 never detaches. -/
theorem mergeDelegDataStep_even (stack : List String) (nvisAfter : Vis)
    (nvalue2 : Value) (nkeys2 : Option (List (String × Node))) (ndeleg1 : Nat)
    (initialDelegation : Bool) (visNew : Vis) (exts1 : List External)
    (changed1 : Bool) (old1 new1 : Option Value)
    (ukeys1 : Option (List (String × Update)))
    (h : ndeleg1 % 2 = 0) :
    mergeDelegDataStep stack nvisAfter nvalue2 nkeys2 ndeleg1 initialDelegation
        visNew exts1 changed1 old1 new1 ukeys1 =
      ⟨.mk nvisAfter nvalue2 nkeys2 ndeleg1, exts1, changed1, old1, new1, ukeys1⟩ := by
  unfold mergeDelegDataStep
  rw [if_neg]
  rintro ⟨-, hm, -⟩
  omega

/-- C5 (amended): for every node and diff with equal updated timestamps and
differing values, provided the diff does not also carry a newer delete and
neither side carries an active delegation flag, merge keeps the existing
stored value, leaves the updated timestamp unchanged, and surfaces the
conflict as a diagnostic event carrying the path, both values and the
timestamp; no error path exists (the function is total). -/
theorem c5_conflict_keeps_existing (fuel : Nat) (stack : List String)
    (nvis dvis : Vis) (nvalue dvalue : Value)
    (nkeys dkeys : Option (List (String × Node))) (ndeleg ddeleg : Nat)
    (visOld visNew : Vis)
    (hupd : nvis.updated = dvis.updated)
    (hval : nvalue ≠ dvalue)
    (hdel : dvis.deleted ≤ nvis.deleted)
    (hnd : ndeleg % 2 = 0) (hdd : ddeleg % 2 = 0) :
    (mergeF (fuel + 1) stack (.mk nvis nvalue nkeys ndeleg)
        (.mk dvis dvalue dkeys ddeleg) visOld visNew).node.value = nvalue ∧
    (mergeF (fuel + 1) stack (.mk nvis nvalue nkeys ndeleg)
        (.mk dvis dvalue dkeys ddeleg) visOld visNew).node.vis.updated = nvis.updated ∧
    (⟨stack, nvalue, dvalue, dvis.updated⟩ : Conflict) ∈
      (mergeF (fuel + 1) stack (.mk nvis nvalue nkeys ndeleg)
        (.mk dvis dvalue dkeys ddeleg) visOld visNew).conflicts := by
  have h1 : ¬ (nvis.updated < dvis.updated) := by omega
  have h2 : ¬ (dvis.updated < nvis.updated) := by omega
  have h3 : ¬ (nvis.deleted < dvis.deleted) := by omega
  have hs2 : mergeValueStep stack nvis nvalue dvis dvalue =
      ⟨nvalue, nvis.updated, dvis.updated, dvalue, false, none,
       [⟨stack, nvalue, dvalue, dvis.updated⟩]⟩ := by
    simp [mergeValueStep, h1, h2, hval]
  have hs3 : mergeDeleteStep nvis nvis.updated nvalue dvis none =
      ⟨nvis.deleted, nvalue, 0, none⟩ := by
    simp [mergeDeleteStep, h3]
  have hflip := mergeDelegStep_noflip stack ndeleg ddeleg (by omega)
  have hpar : (mergeDelegStep stack ndeleg ddeleg).ndeleg1 % 2 = 0 := by
    rw [hflip.2.2]; exact hnd
  simp only [mergeF, hs2, hs3]
  simp only [mergeDelegDataStep_even _ _ _ _ _ _ _ _ _ _ _ _ hpar]
  rcases dkeys with _ | dks
  · refine ⟨rfl, rfl, ?_⟩
    simp
  · refine ⟨rfl, rfl, ?_⟩
    refine foldl_conflicts_mem _
      (fun acc x => ?_) dks _ (by simp)
    rcases hg : listGet x.1 acc.nodeKeys with _ | c <;>
      simp [hg, keysStepOcc, keysStepVac]

/-- Witness for the amended C5 at a concrete equal-timestamp conflict. -/
theorem c5_conflict_keeps_existing_witness :
    (mergeF 1 [] (.mk ⟨5, 0⟩ (.Str "a") none 0) (.mk ⟨5, 0⟩ (.Str "b") none 0)
        ⟨9, 0⟩ ⟨9, 0⟩).node.value = Value.Str "a" ∧
    (mergeF 1 [] (.mk ⟨5, 0⟩ (.Str "a") none 0) (.mk ⟨5, 0⟩ (.Str "b") none 0)
        ⟨9, 0⟩ ⟨9, 0⟩).node.vis.updated = 5 ∧
    (⟨[], .Str "a", .Str "b", 5⟩ : Conflict) ∈
      (mergeF 1 [] (.mk ⟨5, 0⟩ (.Str "a") none 0) (.mk ⟨5, 0⟩ (.Str "b") none 0)
        ⟨9, 0⟩ ⟨9, 0⟩).conflicts :=
  c5_conflict_keeps_existing 0 [] ⟨5, 0⟩ ⟨5, 0⟩ (.Str "a") (.Str "b") none none 0 0
    ⟨9, 0⟩ ⟨9, 0⟩ rfl (by decide) (by decide) rfl rfl

/-- When the stored delegation word stays active (odd) and the diff cannot
flip it (it is older, or itself active), the delegation-status step records
no flip: no delegated update, not an initial transition, stored word still
active. -/
theorem mergeDelegStep_still_active (stack : List String) (ndeleg ddeleg : Nat)
    (hodd : ndeleg % 2 = 1) (hnoflip : ddeleg ≤ ndeleg ∨ ddeleg % 2 = 1) :
    (mergeDelegStep stack ndeleg ddeleg).updDelegated = none ∧
    (mergeDelegStep stack ndeleg ddeleg).initial = false ∧
    (mergeDelegStep stack ndeleg ddeleg).ndeleg1 % 2 = 1 := by
  unfold mergeDelegStep
  rcases hnoflip with h | h
  · split_ifs with hc hin
    · exact absurd hc.2 (by omega)
    · exact absurd hc.2 (by omega)
    · exact ⟨rfl, rfl, by simpa using hodd⟩
  · split_ifs with hc hin
    · exact absurd hin.2 (by omega)
    · exact ⟨rfl, rfl, by simpa using h⟩
    · exact ⟨rfl, rfl, by simpa using hodd⟩

/-- When a non-root node stays active-delegated with children present and
this is not the initial transition, step 9 detaches the payload into an
`External` and discards the update fields. -/
theorem mergeDelegDataStep_suppress (stack : List String) (nvisAfter : Vis)
    (nvalue2 : Value) (nkeys2 : Option (List (String × Node))) (ndeleg1 : Nat)
    (visNew : Vis) (exts1 : List External) (changed1 : Bool)
    (old1 new1 : Option Value) (ukeys1 : Option (List (String × Update)))
    (hstack : stack ≠ []) (hodd : ndeleg1 % 2 = 1) (hsome : nkeys2.isSome = true) :
    mergeDelegDataStep stack nvisAfter nvalue2 nkeys2 ndeleg1 false
        visNew exts1 changed1 old1 new1 ukeys1 =
      ⟨.mk ⟨0, 0⟩ .Null none ndeleg1,
       exts1 ++ [⟨stack, ⟨.mk nvisAfter nvalue2 nkeys2 ndeleg1, visNew⟩, false⟩],
       false, none, none, none⟩ := by
  unfold mergeDelegDataStep
  rw [if_pos ⟨hstack, hodd, Or.inl hsome⟩]
  simp

/-- C4 counterexample: the claim fails as stated. Merging a pure delegation
diff (no timestamps, no values) that flips a node carrying two children into
active delegation — the initial transition — produces exactly one `External`
with `initial = true` whose tree carries both children, but the local
`Update` is `none`, not a non-empty Update: the noop test of the source
ignores the `delegated` field, so the hand-off is not surfaced. -/
theorem c4_initial_delegation_counterexample :
    (Node.merge
        (.mk ⟨5, 0⟩ .Null
          (some [("a", .mk ⟨5, 0⟩ .Null
            (some [("x", .mk ⟨5, 0⟩ (.F64 1) none 0),
                   ("y", .mk ⟨5, 0⟩ (.F64 2) none 0)]) 0)]) 0)
        (.mk ⟨0, 0⟩ .Null (some [("a", Node.delegate 10)]) 0)
        ⟨100, 0⟩ ⟨100, 0⟩).update = none ∧
    (Node.merge
        (.mk ⟨5, 0⟩ .Null
          (some [("a", .mk ⟨5, 0⟩ .Null
            (some [("x", .mk ⟨5, 0⟩ (.F64 1) none 0),
                   ("y", .mk ⟨5, 0⟩ (.F64 2) none 0)]) 0)]) 0)
        (.mk ⟨0, 0⟩ .Null (some [("a", Node.delegate 10)]) 0)
        ⟨100, 0⟩ ⟨100, 0⟩).externals =
      [⟨["a"],
        ⟨.mk ⟨5, 0⟩ .Null
          (some [("x", .mk ⟨5, 0⟩ (.F64 1) none 0),
                 ("y", .mk ⟨5, 0⟩ (.F64 2) none 0)]) 11,
         ⟨5, 0⟩⟩, true⟩] :=
  ⟨rfl, rfl⟩

/-- C4 (amended): for every non-root node that is active-delegated while
carrying children, when the transition is not the initial one (the stored
word stays active and the diff cannot flip it), the local `Update` for that
subtree is suppressed — merge returns `none` — and the last emitted
`External` is the non-initial hand-off of that node carrying the detached
children. On the initial transition the update fields are preserved instead
of cleared, but the resulting Update can still be empty (see the
counterexample), because the noop test ignores the delegated flag. -/
theorem c4_noninitial_delegation_suppressed (fuel : Nat) (stack : List String)
    (nvis dvis : Vis) (nvalue dvalue : Value)
    (nks : List (String × Node)) (dkeys : Option (List (String × Node)))
    (ndeleg ddeleg : Nat) (visOldP visNewP : Vis)
    (hstack : stack ≠ [])
    (hodd : ndeleg % 2 = 1)
    (hnoflip : ddeleg ≤ ndeleg ∨ ddeleg % 2 = 1) :
    (mergeF (fuel + 1) stack (.mk nvis nvalue (some nks) ndeleg)
        (.mk dvis dvalue dkeys ddeleg) visOldP visNewP).update = none ∧
    ∃ e : External,
      (mergeF (fuel + 1) stack (.mk nvis nvalue (some nks) ndeleg)
        (.mk dvis dvalue dkeys ddeleg) visOldP visNewP).externals.getLast? = some e ∧
      e.path = stack ∧ e.initial = false ∧ e.tree.node.keys.isSome = true ∧
      e.tree.node.delegated % 2 = 1 := by
  obtain ⟨hupd, hini, hodd1⟩ := mergeDelegStep_still_active stack ndeleg ddeleg hodd hnoflip
  simp only [mergeF]
  rcases hprop : (mergeDeleteStep nvis (mergeValueStep stack nvis nvalue dvis dvalue).nupdated1
      (mergeValueStep stack nvis nvalue dvis dvalue).nvalue1 dvis
      (mergeValueStep stack nvis nvalue dvis dvalue).propagate).propagate with _ | p0 <;>
    rcases dkeys with _ | dks <;>
    · simp only [hprop]
      rw [hini, mergeDelegDataStep_suppress _ _ _ _ _ _ _ _ _ _ _ hstack hodd1 Option.isSome_some, hupd]
      exact ⟨rfl, _, List.getLast?_concat _, rfl, rfl, rfl, hodd1⟩

/-- Witness for the amended C4 at a concrete non-initial delegated node. -/
theorem c4_noninitial_delegation_suppressed_witness :
    (mergeF 1 ["a"] (.mk ⟨5, 0⟩ (.Str "v") (some [("x", .mk ⟨5, 0⟩ (.F64 1) none 0)]) 11)
        (.mk ⟨0, 0⟩ .Null none 0) ⟨100, 0⟩ ⟨100, 0⟩).update = none ∧
    ∃ e : External,
      (mergeF 1 ["a"] (.mk ⟨5, 0⟩ (.Str "v") (some [("x", .mk ⟨5, 0⟩ (.F64 1) none 0)]) 11)
        (.mk ⟨0, 0⟩ .Null none 0) ⟨100, 0⟩ ⟨100, 0⟩).externals.getLast? = some e ∧
      e.path = ["a"] ∧ e.initial = false ∧ e.tree.node.keys.isSome = true ∧
      e.tree.node.delegated % 2 = 1 :=
  c4_noninitial_delegation_suppressed 0 ["a"] ⟨5, 0⟩ ⟨0, 0⟩ (.Str "v") .Null
    [("x", .mk ⟨5, 0⟩ (.F64 1) none 0)] none 11 0 ⟨100, 0⟩ ⟨100, 0⟩
    (by decide) (by decide) (Or.inl (by decide))

/-- C9 counterexample: the claim fails as stated. `Update::filter` does not
use read's `**` semantics: on the update produced by reading a childless
node with value `"x"`, `filter ["**"]` returns the full rendering including
this node's own changed flag and value, whereas `read` with pattern `["**"]`
over the same node state returns nothing (read's `**` matches children only,
never this node's own value). -/
theorem c9_filter_recursive_counterexample :
    (Node.mk ⟨5, 0⟩ (.Str "x") none 0).read ⟨9, 0⟩ [] =
      (some (.mk true none (some (.Str "x")) none none), []) ∧
    (Node.mk ⟨5, 0⟩ (.Str "x") none 0).read ⟨9, 0⟩ ["**"] = (none, []) ∧
    (Update.mk true none (some (.Str "x")) none none).filter ["**"] =
      .arr [.null, .bool true, .str "x"] ∧
    JSON.arr [.null, .bool true, .str "x"] ≠ .null :=
  ⟨rfl, rfl, rfl, fun h => JSON.noConfusion h⟩

/-- C9 (amended): `Update::filter` selects the slice of an already-computed
Update matched by the pattern with read-like literal and `*` semantics —
an exhausted pattern returns the node's own change slice and `.null` when
nothing changed, an unmatched literal branch contributes nothing — but the
`**` segment is treated exactly like `*#`: both return the full `to_json`
rendering of the current Update, including this node's own value slot
(unlike read, whose `**` excludes the node's own value). -/
theorem c9_filter_semantics :
    (∀ (u : Update) (rest : List String), u.filter ("**" :: rest) = u.to_json) ∧
    (∀ (u : Update) (rest : List String), u.filter ("*#" :: rest) = u.to_json) ∧
    (∀ (u : Update) (part : String) (rest : List String)
       (ks : List (String × Update)),
       part ≠ "**" → part ≠ "*#" → part ≠ "*" →
       u.keys = some ks → listGet part ks = none →
       u.filter (part :: rest) = .null) ∧
    (∀ u : Update, u.changed = false → u.filter [] = .null) := by
  refine ⟨?_, ?_, ?_, ?_⟩
  · intro u rest
    simp [Update.filter]
  · intro u rest
    simp [Update.filter]
  · intro u part rest ks h1 h2 h3 hk hg
    simp [Update.filter, h1, h2, h3, hk, hg]
  · intro u hc
    simp [Update.filter, hc]

/-- Witness for the amended C9 at concrete updates. -/
theorem c9_filter_semantics_witness :
    (Update.mk true none (some (.Str "x")) none none).filter ["**"] =
      (Update.mk true none (some (.Str "x")) none none).to_json ∧
    (Update.mk false none none (some [("a", .mk true none (some (.F64 1)) none none)])
        none).filter ["b", "c"] = .null ∧
    (Update.mk false none none none none).filter [] = .null := by
  have h := c9_filter_semantics
  exact ⟨h.1 _ ["x"] ▸ (by rfl),
    h.2.2.1 _ "b" ["c"] [("a", .mk true none (some (.F64 1)) none none)]
      (by decide) (by decide) (by decide) rfl rfl,
    h.2.2.2 _ rfl⟩

theorem listGet_listInsert_self {α : Type} (k : String) (v : α) (l : List (String × α)) :
    listGet k (listInsert k v l) = some v := by
  induction l with
  | nil => simp [listInsert, listGet]
  | cons hd tl ih =>
    obtain ⟨k', v'⟩ := hd
    simp only [listInsert]
    split_ifs with h1 h2
    · simp [listGet]
    · simp [listGet]
    · have hne : k' ≠ k := fun h => h2 h.symm
      simp [listGet, hne, ih]

theorem listGet_listInsert_ne {α : Type} {k k' : String} (v : α) (l : List (String × α))
    (h : k' ≠ k) : listGet k (listInsert k' v l) = listGet k l := by
  induction l with
  | nil => simp [listInsert, listGet, h]
  | cons hd tl ih =>
    obtain ⟨k₀, v₀⟩ := hd
    simp only [listInsert]
    split_ifs with h1 h2
    · simp [listGet, h]
    · subst h2
      simp [listGet, h]
    · simp only [listGet, ih]

theorem addChild_get_self (uks : Option (List (String × Update))) (k : String) (u : Update) :
    listGet k ((Update.addChild uks k (some u)).getD []) = some u := by
  cases uks <;> simp [Update.addChild, listGet_listInsert_self]

theorem addChild_get_ne (uks : Option (List (String × Update))) {k k' : String}
    (cu : Option Update) (h : k' ≠ k) :
    listGet k ((Update.addChild uks k' cu).getD []) = listGet k (uks.getD []) := by
  cases cu with
  | none => rfl
  | some u => cases uks <;> simp [Update.addChild, listGet_listInsert_ne _ _ h]

/-- A stale diff timestamp is thrown away by the value-merge step. -/
theorem mergeValueStep_stale (stack : List String) (nvis dvis : Vis)
    (nvalue dvalue : Value) (h : dvis.updated < nvis.updated) :
    mergeValueStep stack nvis nvalue dvis dvalue =
      ⟨nvalue, nvis.updated, 0, .Null, false, none, []⟩ := by
  unfold mergeValueStep
  rw [if_neg (by omega), if_pos h]

/-- A zero delegation word in the diff never changes delegation state. -/
theorem mergeDelegStep_zero (stack : List String) (ndeleg : Nat) :
    mergeDelegStep stack ndeleg 0 = ⟨ndeleg, 0, none, false⟩ := by
  unfold mergeDelegStep
  rw [if_neg (by omega)]

/-- The shape invariant of the threaded propagate diff: zero updated
timestamp, null value, no children, zero delegation word (only its deleted
timestamp varies — and can be corrupted to zero by a child merge). -/
def PShape (p : Node) : Prop :=
  p.vis.updated = 0 ∧ p.value = .Null ∧ p.keys = none ∧ p.delegated = 0

/-- A child merge preserves the shape of the threaded propagate diff. -/
theorem mergeF_pshape (f : Nat) (s : List String) (c p : Node) (vo vn : Vis)
    (hp : PShape p) : PShape (mergeF f s c p vo vn).diff := by
  cases f with
  | zero => exact hp
  | succ f =>
    obtain ⟨cvis, cval, ckeys, cdeleg⟩ := c
    obtain ⟨pvis, pval, pkeys, pdeleg⟩ := p
    obtain ⟨h1, h2, h3, h4⟩ := hp
    simp only [Node.vis, Node.value, Node.keys, Node.delegated] at h1 h2 h3 h4
    subst h2 h3 h4
    simp only [mergeF]
    simp only [PShape, Node.vis, Node.value, Node.keys, Node.delegated]
    refine ⟨?_, ?_, trivial, ?_⟩
    · show (mergeValueStep s cvis cval pvis Value.Null).dupdated1 = 0
      unfold mergeValueStep
      split_ifs <;> simp [h1]
    · show (mergeValueStep s cvis cval pvis Value.Null).dvalue1 = Value.Null
      unfold mergeValueStep
      split_ifs <;> simp
    · simp [mergeDelegStep_zero]

/-- Re-merging the synthetic propagate diff into a previously visible,
non-delegated child whose updated timestamp is masked by the new ancestor
deleted timestamp yields a removal update: `changed = true`, `new` absent,
`old` the child's value — the child's effective visibility is recomputed
under the new window. -/
theorem mergeF_propagate_child_update (f : Nat) (s : List String) (cvis : Vis)
    (cval : Value) (ckeys : Option (List (String × Node))) (cdeleg : Nat)
    (p : Node) (vo vn : Vis)
    (hp : PShape p)
    (hdeleg : cdeleg % 2 = 0)
    (hold : (vo.descend cvis).is_visible = true)
    (hmask : cvis.updated ≤ vn.deleted) :
    ∃ uk, (mergeF (f + 1) s (.mk cvis cval ckeys cdeleg) p vo vn).update =
      some (.mk true (some cval) none uk none) := by
  obtain ⟨pvis, pval, pkeys, pdeleg⟩ := p
  obtain ⟨h1, h2, h3, h4⟩ := hp
  simp only [Node.vis, Node.value, Node.keys, Node.delegated] at h1 h2 h3 h4
  subst h2 h3 h4
  have hcu : 0 < cvis.updated := by
    simp only [Vis.descend, Vis.is_visible, decide_eq_true_eq] at hold
    split_ifs at hold <;> omega
  have hs2 := mergeValueStep_stale s cvis pvis cval Value.Null (by omega)
  have hnew : ∀ nd : Nat, (vn.descend ⟨cvis.updated, nd⟩).is_visible = false := by
    intro nd
    simp only [Vis.descend, Vis.is_visible, decide_eq_false_iff_not, not_lt]
    split_ifs <;> omega
  simp only [mergeF, hs2, hold, hnew]
  simp only [mergeVisStep, mergeDelegStep_zero, if_true]
  simp only [mergeDelegDataStep_even _ _ _ _ _ _ _ _ _ _ _ _ hdeleg]
  simp only [Update.is_noop, Update.changed, Update.old, Update.new, Update.keys,
    Bool.not_true, Bool.false_and, if_false, Bool.false_eq_true]
  exact ⟨_, rfl⟩

/-- A key that does not occur later in the propagate fold keeps its child
update entry. -/
theorem propFold_get_preserved (fuel : Nat) (stack0 : List String) (vo vn : Vis)
    (k : String) :
    ∀ (tl : List (String × Node)) (acc : PropAcc),
      k ∉ tl.map Prod.fst →
      listGet k ((tl.foldl (fun a kc => propStepAcc a kc.1
        (mergeF fuel (stack0 ++ [kc.1]) kc.2 a.pdiff vo vn)) acc).ukeys.getD []) =
      listGet k (acc.ukeys.getD []) := by
  intro tl
  induction tl with
  | nil => intro acc _; rfl
  | cons hd tl ih =>
    intro acc hnot
    simp only [List.map_cons, List.mem_cons, not_or] at hnot
    obtain ⟨hne, hnot'⟩ := hnot
    simp only [List.foldl_cons]
    rw [ih _ hnot']
    simp only [propStepAcc]
    exact addChild_get_ne _ _ (fun h => hne (h.symm))

/-- The propagate fold attaches, for every previously visible non-delegated
child masked by the new ancestor window, a removal update under that child's
key. -/
theorem propFold_get_target (fuel : Nat) (stack0 : List String) (vo vn : Vis) :
    ∀ (ks : List (String × Node)) (acc : PropAcc) (k : String) (c : Node),
      (ks.map Prod.fst).Nodup →
      PShape acc.pdiff →
      (k, c) ∈ ks →
      c.delegated % 2 = 0 →
      (vo.descend c.vis).is_visible = true →
      c.vis.updated ≤ vn.deleted →
      ∃ uk, listGet k ((ks.foldl (fun a kc => propStepAcc a kc.1
          (mergeF (fuel + 1) (stack0 ++ [kc.1]) kc.2 a.pdiff vo vn)) acc).ukeys.getD [])
        = some (.mk true (some c.value) none uk none) := by
  intro ks
  induction ks with
  | nil => intro acc k c _ _ hmem; cases hmem
  | cons hd tl ih =>
    intro acc k c hnodup hp hmem hcdeleg hold hmask
    simp only [List.map_cons, List.nodup_cons] at hnodup
    obtain ⟨hhd, htl⟩ := hnodup
    simp only [List.foldl_cons]
    rcases List.mem_cons.mp hmem with heq | hmem'
    · obtain ⟨hk, hc⟩ := Prod.mk.injEq _ _ _ _ ▸ heq
      subst hk
      obtain ⟨cvis, cval, ckeys, cdeleg⟩ := c
      simp only [Node.delegated] at hcdeleg
      simp only [Node.vis] at hold hmask
      obtain ⟨uk, hu⟩ := mergeF_propagate_child_update fuel (stack0 ++ [hd.1]) cvis cval
        ckeys cdeleg acc.pdiff vo vn hp hcdeleg hold hmask
      refine ⟨uk, ?_⟩
      rw [propFold_get_preserved (fuel + 1) stack0 vo vn hd.1 tl _ hhd]
      have hstep : (propStepAcc acc hd.1
          (mergeF (fuel + 1) (stack0 ++ [hd.1]) (.mk cvis cval ckeys cdeleg)
            acc.pdiff vo vn)).ukeys =
          Update.addChild acc.ukeys hd.1
            (mergeF (fuel + 1) (stack0 ++ [hd.1]) (.mk cvis cval ckeys cdeleg)
              acc.pdiff vo vn).update := rfl
      rw [← hc, hstep, hu, addChild_get_self]
      simp [Node.value]
    · exact ih _ k c htl (mergeF_pshape _ _ _ _ _ _ hp) hmem' hcdeleg hold hmask

/-- The value-merge step only ever raises an empty (default) propagate
signal. -/
theorem mergeValueStep_propagate (stack : List String) (nvis dvis : Vis)
    (nvalue dvalue : Value) :
    (mergeValueStep stack nvis nvalue dvis dvalue).propagate = none ∨
    (mergeValueStep stack nvis nvalue dvis dvalue).propagate = some Node.default0 := by
  unfold mergeValueStep
  split_ifs <;> simp

/-- A strictly newer delete is adopted and folded into the propagate signal,
which then carries exactly the new deleted timestamp. -/
theorem mergeDeleteStep_newer (nvis : Vis) (nupdated1 : Nat) (nvalue1 : Value)
    (dvis : Vis) (propagate0 : Option Node)
    (h : nvis.deleted < dvis.deleted)
    (hp : propagate0 = none ∨ propagate0 = some Node.default0) :
    (mergeDeleteStep nvis nupdated1 nvalue1 dvis propagate0).propagate =
      some (.mk ⟨0, dvis.deleted⟩ .Null none 0) ∧
    (mergeDeleteStep nvis nupdated1 nvalue1 dvis propagate0).ndeleted1 = dvis.deleted := by
  unfold mergeDeleteStep
  rw [if_pos h]
  rcases hp with h0 | h0 <;> rw [h0] <;>
    simp [Node.delete, Node.default0, Vis.delete, Vis.new]

/-- C2: when the delete step raises the propagate signal (diff.deleted >
node.deleted), merge re-merges the synthetic ancestor-change delta into
every existing child — here the diff mentions no children at all — under the
new ancestor window, so each child's effective visibility is recomputed: a
previously visible, non-delegated child whose updated timestamp is masked by
the new deleted timestamp surfaces a removal update (changed, new absent,
old its value) attached under its key in the returned Update. -/
theorem c2_propagate_every_child (fuel : Nat) (stack : List String)
    (nvis dvis : Vis) (nvalue dvalue : Value) (ks : List (String × Node))
    (ndeleg ddeleg : Nat) (visOldP visNewP : Vis)
    (k : String) (c : Node)
    (hnodup : (ks.map Prod.fst).Nodup)
    (hmem : (k, c) ∈ ks)
    (hprop : nvis.deleted < dvis.deleted)
    (hnd : ndeleg % 2 = 0) (hdd : ddeleg % 2 = 0)
    (hcdeleg : c.delegated % 2 = 0)
    (hold : ((visOldP.descend nvis).descend c.vis).is_visible = true)
    (hmask : c.vis.updated ≤ dvis.deleted) :
    ∃ U uk, (mergeF (fuel + 2) stack (.mk nvis nvalue (some ks) ndeleg)
        (.mk dvis dvalue none ddeleg) visOldP visNewP).update = some U ∧
      U.keys.isSome = true ∧
      listGet k (U.keys.getD []) = some (.mk true (some c.value) none uk none) := by
  obtain ⟨hpmerge, hd1⟩ := mergeDeleteStep_newer nvis
    (mergeValueStep stack nvis nvalue dvis dvalue).nupdated1
    (mergeValueStep stack nvis nvalue dvis dvalue).nvalue1 dvis
    (mergeValueStep stack nvis nvalue dvis dvalue).propagate hprop
    (mergeValueStep_propagate stack nvis dvis nvalue dvalue)
  obtain ⟨hupd8, hini8, hpar8⟩ := mergeDelegStep_noflip stack ndeleg ddeleg (by omega)
  have hpar0 : (mergeDelegStep stack ndeleg ddeleg).ndeleg1 % 2 = 0 := by
    rw [hpar8]; exact hnd
  have hmask' : c.vis.updated ≤
      (visNewP.descend ⟨(mergeValueStep stack nvis nvalue dvis dvalue).nupdated1,
        dvis.deleted⟩).deleted := by
    simp only [Vis.descend]
    split_ifs <;> omega
  simp only [mergeF, hpmerge, hd1]
  obtain ⟨uk, hget⟩ := propFold_get_target fuel stack
    (visOldP.descend nvis)
    (visNewP.descend ⟨(mergeValueStep stack nvis nvalue dvis dvalue).nupdated1,
      dvis.deleted⟩)
    ks ⟨[], .mk ⟨0, dvis.deleted⟩ .Null none 0, none, [],
      (mergeValueStep stack nvis nvalue dvis dvalue).conflicts⟩ k c hnodup
    (by exact ⟨rfl, rfl, rfl, rfl⟩) hmem hcdeleg hold hmask'
  simp only [mergeDelegDataStep_even _ _ _ _ _ _ _ _ _ _ _ _ hpar0, hupd8]
  rcases hU : (List.foldl (fun a kc => propStepAcc a kc.1
      (mergeF (fuel + 1) (stack ++ [kc.1]) kc.2 a.pdiff
        (visOldP.descend nvis)
        (visNewP.descend ⟨(mergeValueStep stack nvis nvalue dvis dvalue).nupdated1,
          dvis.deleted⟩)))
      ⟨[], .mk ⟨0, dvis.deleted⟩ .Null none 0, none, [],
        (mergeValueStep stack nvis nvalue dvis dvalue).conflicts⟩ ks).ukeys
    with _ | l
  · rw [hU] at hget
    simp [listGet] at hget
  · rw [hU] at hget
    simp only [hU]
    simp only [Update.is_noop, Update.changed, Update.old, Update.new, Update.keys,
      Option.isNone_some, Bool.and_false]
    exact ⟨_, uk, rfl, rfl, hget⟩

/-- Witness for C2: a parent-level delete at t=9 removes the visible child
"a" (written at t=5) even though the diff has no keys at all. -/
theorem c2_propagate_every_child_witness :
    ∃ U uk, (mergeF 2 [] (.mk ⟨5, 0⟩ .Null (some [("a", .mk ⟨5, 0⟩ (.Str "v") none 0)]) 0)
        (.mk ⟨0, 9⟩ .Null none 0) ⟨100, 0⟩ ⟨100, 0⟩).update = some U ∧
      U.keys.isSome = true ∧
      listGet "a" (U.keys.getD []) =
        some (.mk true (some (.Str "v")) none uk none) :=
  c2_propagate_every_child 0 [] ⟨5, 0⟩ ⟨0, 9⟩ .Null .Null
    [("a", .mk ⟨5, 0⟩ (.Str "v") none 0)] 0 0 ⟨100, 0⟩ ⟨100, 0⟩
    "a" (.mk ⟨5, 0⟩ (.Str "v") none 0)
    (by simp) (List.mem_singleton.mpr rfl) (by decide) (by decide) (by decide)
    (by decide) (by decide) (by decide)

/-! ### Idempotence of delegation-free merges -/

mutual

/-- No delegation marker anywhere in the tree (all `delegated` words 0). -/
def Node.delegFree : Node → Prop
  | .mk _ _ none d => d = 0
  | .mk _ _ (some ks) d => d = 0 ∧ delegFreeL ks

def delegFreeL : List (String × Node) → Prop
  | [] => True
  | (_, c) :: rest => c.delegFree ∧ delegFreeL rest

end

mutual

/-- Every child-key list in the tree is duplicate-free (the `BTreeMap`
invariant of the source representation). -/
def Node.nodupKeys : Node → Prop
  | .mk _ _ none _ => True
  | .mk _ _ (some ks) _ => (ks.map Prod.fst).Nodup ∧ nodupKeysL ks

def nodupKeysL : List (String × Node) → Prop
  | [] => True
  | (_, c) :: rest => c.nodupKeys ∧ nodupKeysL rest

end

mutual

/-- After a completed merge of `d` into `n`, replaying `d` changes nothing:
the diff's timestamps no longer dominate the node's, the diff's child map
(if any) is mirrored in the node, and each diff child is either merged into
the corresponding node child or is a fully zeroed residue whose vacant
re-merge is a no-op. -/
def Merged : Node → Node → Prop
  | n, .mk dvis _ dkeys _ =>
    dvis.updated ≤ n.vis.updated ∧ dvis.deleted ≤ n.vis.deleted ∧
    (match dkeys with
     | none => True
     | some dks => n.keys.isSome = true ∧ MergedL (n.keys.getD []) dks)

def MergedL : List (String × Node) → List (String × Node) → Prop
  | _, [] => True
  | nks, (k, dk) :: rest =>
    (match listGet k nks with
     | some nk => Merged nk dk
     | none => dk.vis = (⟨0, 0⟩ : Vis) ∧ dk.keys = none) ∧ MergedL nks rest

end

theorem delegFreeL_mem {ks : List (String × Node)} (h : delegFreeL ks)
    {x : String × Node} (hx : x ∈ ks) : x.2.delegFree := by
  induction ks with
  | nil => cases hx
  | cons hd tl ih =>
    obtain ⟨k, c⟩ := hd
    rcases List.mem_cons.mp hx with rfl | hx'
    · exact h.1
    · exact ih h.2 hx'

theorem nodupKeysL_mem {ks : List (String × Node)} (h : nodupKeysL ks)
    {x : String × Node} (hx : x ∈ ks) : x.2.nodupKeys := by
  induction ks with
  | nil => cases hx
  | cons hd tl ih =>
    obtain ⟨k, c⟩ := hd
    rcases List.mem_cons.mp hx with rfl | hx'
    · exact h.1
    · exact ih h.2 hx'

theorem sizeN_pos (n : Node) : 1 ≤ n.sizeN := by
  obtain ⟨v, val, ks, d⟩ := n
  cases ks <;> simp [Node.sizeN]

theorem sizeL_append (l₁ l₂ : List (String × Node)) :
    sizeL (l₁ ++ l₂) = sizeL l₁ + sizeL l₂ := by
  induction l₁ with
  | nil => simp [sizeL]
  | cons hd tl ih =>
    obtain ⟨k, c⟩ := hd
    simp [sizeL, ih]
    omega

theorem sizeN_le_sizeL_of_get {k : String} {ks : List (String × Node)} {c : Node}
    (h : listGet k ks = some c) : c.sizeN ≤ sizeL ks := by
  induction ks with
  | nil => simp [listGet] at h
  | cons hd tl ih =>
    obtain ⟨k', v⟩ := hd
    simp only [listGet] at h
    split_ifs at h with he
    · cases h; simp only [sizeL]; omega
    · have := ih h
      simp only [sizeL]
      omega

theorem sizeL_listSet {k : String} {ks : List (String × Node)} {c : Node} (v : Node)
    (h : listGet k ks = some c) :
    sizeL (listSet k v ks) + c.sizeN = sizeL ks + v.sizeN := by
  induction ks with
  | nil => simp [listGet] at h
  | cons hd tl ih =>
    obtain ⟨k', v'⟩ := hd
    simp only [listGet] at h
    simp only [listSet]
    split_ifs at h ⊢ with he
    · cases h; simp [sizeL]; omega
    · have := ih h
      simp [sizeL]
      omega

theorem sizeL_listInsert_le (k : String) (v : Node) (ks : List (String × Node)) :
    sizeL (listInsert k v ks) ≤ sizeL ks + v.sizeN := by
  induction ks with
  | nil => simp [listInsert, sizeL]
  | cons hd tl ih =>
    obtain ⟨k', v'⟩ := hd
    simp only [listInsert]
    split_ifs with h1 h2
    · simp [sizeL]; omega
    · have := sizeN_pos v'
      simp [sizeL]; omega
    · simp [sizeL]; omega

theorem listSet_self {α : Type} {k : String} {l : List (String × α)} {v : α}
    (h : listGet k l = some v) : listSet k v l = l := by
  induction l with
  | nil => simp [listGet] at h
  | cons hd tl ih =>
    obtain ⟨k', v'⟩ := hd
    simp only [listGet] at h
    simp only [listSet]
    split_ifs at h ⊢ with he
    · cases h; rw [he]
    · rw [ih h]

theorem sizeN_keys_none {n : Node} (h : n.keys = none) : n.sizeN = 1 := by
  obtain ⟨v, val, ks, d⟩ := n
  simp only [Node.keys] at h
  subst h
  rfl

/-- A keyless diff stays keyless through a merge (the key loop is driven by
the diff's keys only). -/
theorem mergeF_diff_keys_none (f : Nat) (s : List String) (n : Node)
    (dvis : Vis) (dvalue : Value) (ddeleg : Nat) (vo vn : Vis) :
    (mergeF f s n (.mk dvis dvalue none ddeleg) vo vn).diff.keys = none := by
  cases f with
  | zero => rfl
  | succ f =>
    obtain ⟨nvis, nvalue, nkeys, ndeleg⟩ := n
    rfl

/-- The propagate signal raised by the value/delete steps never carries
children: it is absent or a bare visibility node. -/
theorem mergeDeleteStep_propagate_shape (nvis : Vis) (nu : Nat) (nv : Value)
    (dvis : Vis) (propagate0 : Option Node)
    (hp : propagate0 = none ∨ propagate0 = some Node.default0) :
    (mergeDeleteStep nvis nu nv dvis propagate0).propagate = none ∨
    ∃ pv : Vis, (mergeDeleteStep nvis nu nv dvis propagate0).propagate =
      some (.mk pv .Null none 0) := by
  unfold mergeDeleteStep
  rcases hp with h0 | h0 <;> subst h0 <;> split_ifs <;>
    first
      | exact Or.inl rfl
      | exact Or.inr ⟨_, rfl⟩

/-- As `mergeF_diff_keys_none`, stated over an abstract keyless diff. -/
theorem mergeF_diff_keys_none' (f : Nat) (s : List String) (n d : Node)
    (vo vn : Vis) (h : d.keys = none) :
    (mergeF f s n d vo vn).diff.keys = none := by
  obtain ⟨dv, dval, dk, dd⟩ := d
  simp only [Node.keys] at h
  subst h
  exact mergeF_diff_keys_none f s n dv dval dd vo vn

/-- The propagate loop rebuilds the child list with pairwise non-growing
children (each child is merged with a keyless synthetic diff). -/
theorem propFold_size (g : Nat) (s0 : List String) (vo vn : Vis)
    (IH : ∀ (s : List String) (n d : Node) (vo vn : Vis),
      (mergeF g s n d vo vn).node.sizeN + 1 ≤ n.sizeN + d.sizeN) :
    ∀ (ks : List (String × Node)) (acc : PropAcc), acc.pdiff.keys = none →
      sizeL ((ks.foldl (fun a kc => propStepAcc a kc.1
        (mergeF g (s0 ++ [kc.1]) kc.2 a.pdiff vo vn)) acc).children) ≤
        sizeL acc.children + sizeL ks := by
  intro ks
  induction ks with
  | nil => intro acc _; simp [sizeL]
  | cons hd tl ih =>
    intro acc hpk
    simp only [List.foldl_cons]
    have hstep : sizeL (propStepAcc acc hd.1
        (mergeF g (s0 ++ [hd.1]) hd.2 acc.pdiff vo vn)).children ≤
        sizeL acc.children + hd.2.sizeN := by
      simp only [propStepAcc, sizeL_append]
      have h1 := IH (s0 ++ [hd.1]) hd.2 acc.pdiff vo vn
      have h2 := sizeN_keys_none hpk
      simp only [sizeL]
      omega
    have hpk' : (propStepAcc acc hd.1
        (mergeF g (s0 ++ [hd.1]) hd.2 acc.pdiff vo vn)).pdiff.keys = none :=
      mergeF_diff_keys_none' g (s0 ++ [hd.1]) hd.2 acc.pdiff vo vn hpk
    have := ih _ hpk'
    simp only [sizeL]
    omega

/-- The diff-key loop grows the node's child list by at most the total size
of the diff's children. -/
theorem keysFold_size (g : Nat) (s0 : List String) (vo vn : Vis)
    (IH : ∀ (s : List String) (n d : Node) (vo vn : Vis),
      (mergeF g s n d vo vn).node.sizeN + 1 ≤ n.sizeN + d.sizeN) :
    ∀ (dks : List (String × Node)) (acc : KeysAcc),
      sizeL ((dks.foldl (fun a kd =>
        match listGet kd.1 a.nodeKeys with
        | some child => keysStepOcc a kd.1
            (mergeF g (s0 ++ [kd.1]) child kd.2 vo vn)
        | none => keysStepVac a kd.1
            (mergeF g (s0 ++ [kd.1]) Node.default0 kd.2 vo vn)) acc).nodeKeys) ≤
      sizeL acc.nodeKeys + sizeL dks := by
  intro dks
  induction dks with
  | nil => intro acc; simp [sizeL]
  | cons hd tl ih =>
    intro acc
    simp only [List.foldl_cons]
    have hstep : ∀ acc' , acc' = (match listGet hd.1 acc.nodeKeys with
        | some child => keysStepOcc acc hd.1
            (mergeF g (s0 ++ [hd.1]) child hd.2 vo vn)
        | none => keysStepVac acc hd.1
            (mergeF g (s0 ++ [hd.1]) Node.default0 hd.2 vo vn)) →
        sizeL acc'.nodeKeys ≤ sizeL acc.nodeKeys + hd.2.sizeN := by
      intro acc' hacc'
      rcases hg : listGet hd.1 acc.nodeKeys with _ | child
      · rw [hg] at hacc'
        subst hacc'
        simp only [keysStepVac]
        split_ifs with hnoop
        · have := sizeN_pos hd.2
          omega
        · have h1 := sizeL_listInsert_le hd.1
            (mergeF g (s0 ++ [hd.1]) Node.default0 hd.2 vo vn).node acc.nodeKeys
          have h2 := IH (s0 ++ [hd.1]) Node.default0 hd.2 vo vn
          have h3 : Node.default0.sizeN = 1 := rfl
          omega
      · rw [hg] at hacc'
        subst hacc'
        simp only [keysStepOcc]
        have h1 := sizeL_listSet (mergeF g (s0 ++ [hd.1]) child hd.2 vo vn).node hg
        have h2 := IH (s0 ++ [hd.1]) child hd.2 vo vn
        have h3 := sizeN_le_sizeL_of_get hg
        omega
    have h1 := hstep _ rfl
    have h2 := ih (match listGet hd.1 acc.nodeKeys with
        | some child => keysStepOcc acc hd.1
            (mergeF g (s0 ++ [hd.1]) child hd.2 vo vn)
        | none => keysStepVac acc hd.1
            (mergeF g (s0 ++ [hd.1]) Node.default0 hd.2 vo vn))
    simp only [sizeL]
    omega

/-- Step 9 never grows the node (detaching resets it to a bare residue). -/
theorem mergeDelegDataStep_node_size (stack : List String) (nvisAfter : Vis)
    (nvalue2 : Value) (nkeys2 : Option (List (String × Node))) (ndeleg1 : Nat)
    (initialDelegation : Bool) (visNew : Vis) (exts1 : List External)
    (changed1 : Bool) (old1 new1 : Option Value)
    (ukeys1 : Option (List (String × Update))) :
    (mergeDelegDataStep stack nvisAfter nvalue2 nkeys2 ndeleg1 initialDelegation
      visNew exts1 changed1 old1 new1 ukeys1).node.sizeN ≤
    (Node.mk nvisAfter nvalue2 nkeys2 ndeleg1).sizeN := by
  have := sizeN_pos (Node.mk nvisAfter nvalue2 nkeys2 ndeleg1)
  unfold mergeDelegDataStep
  split_ifs <;> dsimp only <;> first
    | exact this
    | exact le_refl _

/-- A merge bounds the resulting node by the combined input sizes: the node
gains at most the diff's children. -/
theorem mergeF_size :
    ∀ (f : Nat) (s : List String) (n d : Node) (vo vn : Vis),
      (mergeF f s n d vo vn).node.sizeN + 1 ≤ n.sizeN + d.sizeN := by
  intro f
  induction f with
  | zero =>
    intro s n d vo vn
    have := sizeN_pos d
    simp only [mergeF]
    omega
  | succ f IH =>
    intro s n d vo vn
    obtain ⟨nvis, nvalue, nkeys, ndeleg⟩ := n
    obtain ⟨dvis, dvalue, dkeys, ddeleg⟩ := d
    simp only [mergeF]
    refine le_trans (Nat.add_le_add_right
      (mergeDelegDataStep_node_size _ _ _ _ _ _ _ _ _ _ _ _) 1) ?_
    generalize hW : vn.descend
      ⟨(mergeValueStep s nvis nvalue dvis dvalue).nupdated1,
       (mergeDeleteStep nvis (mergeValueStep s nvis nvalue dvis dvalue).nupdated1
         (mergeValueStep s nvis nvalue dvis dvalue).nvalue1 dvis
         (mergeValueStep s nvis nvalue dvis dvalue).propagate).ndeleted1⟩ = W
    generalize hV : vo.descend nvis = V
    generalize hC : (mergeValueStep s nvis nvalue dvis dvalue).conflicts = CC
    rcases mergeDeleteStep_propagate_shape nvis
        (mergeValueStep s nvis nvalue dvis dvalue).nupdated1
        (mergeValueStep s nvis nvalue dvis dvalue).nvalue1 dvis
        (mergeValueStep s nvis nvalue dvis dvalue).propagate
        (mergeValueStep_propagate s nvis dvis nvalue dvalue) with hsh | hsh
    case inl =>
      rcases dkeys with _ | dks <;> rcases nkeys with _ | nks <;>
        simp only [hsh] <;>
        simp only [Node.sizeN, sizeL, Option.getD_none, Option.getD_some] <;> try omega
      · have hk := keysFold_size f s V W IH dks ⟨[], [], none, [], CC⟩
        simp only [sizeL] at hk ⊢
        omega
      · have hk := keysFold_size f s V W IH dks ⟨nks, [], none, [], CC⟩
        simp only [sizeL] at hk ⊢
        omega
    case inr =>
      obtain ⟨pv, hsh⟩ := hsh
      rcases dkeys with _ | dks <;> rcases nkeys with _ | nks <;>
        simp only [hsh] <;>
        simp only [Node.sizeN, sizeL, Option.getD_none, Option.getD_some] <;> try omega
      · have hp := propFold_size f s V W IH nks
          ⟨[], .mk pv .Null none 0, none, [], CC⟩ rfl
        simp only [sizeL] at hp ⊢
        omega
      · have hk := keysFold_size f s V W IH dks ⟨[], [], none, [], CC⟩
        simp only [sizeL] at hk ⊢
        omega
      · have hp := propFold_size f s V W IH nks
          ⟨[], .mk pv .Null none 0, none, [], CC⟩ rfl
        generalize hF : List.foldl (fun a kc => propStepAcc a kc.1
            (mergeF f (s ++ [kc.1]) kc.2 a.pdiff V W))
            (⟨[], .mk pv .Null none 0, none, [], CC⟩ : PropAcc) nks = F at hp ⊢
        have hk := keysFold_size f s V W IH dks
          ⟨F.children, [], F.ukeys, F.externals, F.conflicts⟩
        simp only [sizeL] at hp hk ⊢
        omega

theorem descend_zero_invisible (w : Vis) : (w.descend ⟨0, 0⟩).is_visible = false := by
  simp only [Vis.descend, Vis.is_visible, decide_eq_false_iff_not, not_lt]
  split_ifs <;> omega

/-- Merging a fully zeroed, keyless, undelegated diff into a fresh default
node is a complete no-op: the node stays default, no update, no externals. -/
theorem mergeF_noop_vacant (f : Nat) (s : List String) (dvalue : Value)
    (w w' : Vis) :
    (mergeF f s Node.default0 (.mk ⟨0, 0⟩ dvalue none 0) w w').node = Node.default0 ∧
    (mergeF f s Node.default0 (.mk ⟨0, 0⟩ dvalue none 0) w w').update = none ∧
    (mergeF f s Node.default0 (.mk ⟨0, 0⟩ dvalue none 0) w w').externals = [] := by
  cases f with
  | zero => exact ⟨rfl, rfl, rfl⟩
  | succ f =>
    have h2 : mergeValueStep s ⟨0, 0⟩ .Null ⟨0, 0⟩ dvalue =
        ⟨.Null, 0, 0, dvalue, false, none,
         if Value.Null = dvalue then [] else [⟨s, .Null, dvalue, 0⟩]⟩ := by
      unfold mergeValueStep
      rw [if_neg (by omega), if_neg (by omega)]
    have h3 : mergeDeleteStep ⟨0, 0⟩ 0 .Null ⟨0, 0⟩ none =
        ⟨0, .Null, 0, none⟩ := by
      unfold mergeDeleteStep
      rw [if_neg (by omega)]
    refine ⟨?_, ?_, ?_⟩ <;>
      simp only [Node.default0, mergeF, h2, h3, descend_zero_invisible,
        mergeDelegStep_zero, mergeVisStep,
        mergeDelegDataStep_even s ⟨0, 0⟩ Value.Null none 0 false
          (w'.descend ⟨0, 0⟩) [] false none none none (by omega)] <;> rfl

theorem Vis.eq_zero {v : Vis} (h1 : v.updated = 0) (h2 : v.deleted = 0) :
    v = (⟨0, 0⟩ : Vis) := by
  obtain ⟨u, d⟩ := v
  simp only at h1 h2
  rw [h1, h2]

theorem Node.delegFree_deleg {n : Node} (h : n.delegFree) : n.delegated = 0 := by
  obtain ⟨v, val, ks, d⟩ := n
  cases ks with
  | none => exact h
  | some ks => exact h.1

theorem Node.delegFree_keysL {n : Node} (h : n.delegFree) :
    delegFreeL (n.keys.getD []) := by
  obtain ⟨v, val, ks, d⟩ := n
  cases ks with
  | none => trivial
  | some ks => exact h.2

theorem Node.nodupKeys_keysL {n : Node} (h : n.nodupKeys) :
    nodupKeysL (n.keys.getD []) ∧ ((n.keys.getD []).map Prod.fst).Nodup := by
  obtain ⟨v, val, ks, d⟩ := n
  cases ks with
  | none => exact ⟨trivial, List.nodup_nil⟩
  | some ks => exact ⟨h.2, h.1⟩

theorem Node.is_noop_iff (n : Node) :
    n.is_noop = true ↔
      n.vis = (⟨0, 0⟩ : Vis) ∧ n.value = Value.Null ∧ n.keys = none ∧
        n.delegated = 0 := by
  obtain ⟨v, val, ks, d⟩ := n
  simp [Node.is_noop, Node.vis, Node.value, Node.keys, Node.delegated,
    Option.isNone_iff_eq_none, and_assoc]

theorem Merged_vis {n d : Node} (h : Merged n d) :
    d.vis.updated ≤ n.vis.updated ∧ d.vis.deleted ≤ n.vis.deleted := by
  obtain ⟨dv, dval, dks, dd⟩ := d
  unfold Merged at h
  exact ⟨h.1, h.2.1⟩

theorem Merged_keys {n d : Node} (h : Merged n d) (dks : List (String × Node))
    (hk : d.keys = some dks) :
    n.keys.isSome = true ∧ MergedL (n.keys.getD []) dks := by
  obtain ⟨dv, dval, dks', dd⟩ := d
  simp only [Node.keys] at hk
  subst hk
  unfold Merged at h
  exact h.2.2

theorem listGet_listSet_self {α : Type} {k : String} {l : List (String × α)}
    {c : α} (v : α) (h : listGet k l = some c) :
    listGet k (listSet k v l) = some v := by
  induction l with
  | nil => simp [listGet] at h
  | cons hd tl ih =>
    obtain ⟨k', v'⟩ := hd
    simp only [listGet] at h
    simp only [listSet]
    split_ifs at h ⊢ with he
    · simp [listGet, he]
    · simp only [listGet, if_neg he]
      exact ih h

theorem listGet_listSet_ne {α : Type} {k k' : String} (v : α)
    (l : List (String × α)) (h : k' ≠ k) :
    listGet k (listSet k' v l) = listGet k l := by
  induction l with
  | nil => simp [listSet, listGet, h]
  | cons hd tl ih =>
    obtain ⟨k₀, v₀⟩ := hd
    simp only [listSet]
    split_ifs with h1
    · subst h1
      simp [listGet, h]
    · simp only [listGet, ih]

theorem delegFreeL_listSet {k : String} {l : List (String × Node)} {v : Node}
    (hl : delegFreeL l) (hv : v.delegFree) : delegFreeL (listSet k v l) := by
  induction l with
  | nil => exact ⟨hv, trivial⟩
  | cons hd tl ih =>
    obtain ⟨k', v'⟩ := hd
    simp only [listSet]
    split_ifs with h1
    · exact ⟨hv, hl.2⟩
    · exact ⟨hl.1, ih hl.2⟩

theorem delegFreeL_listInsert {k : String} {l : List (String × Node)} {v : Node}
    (hl : delegFreeL l) (hv : v.delegFree) : delegFreeL (listInsert k v l) := by
  induction l with
  | nil => exact ⟨hv, trivial⟩
  | cons hd tl ih =>
    obtain ⟨k', v'⟩ := hd
    simp only [listInsert]
    split_ifs with h1 h2
    · exact ⟨hv, hl⟩
    · exact ⟨hv, hl.2⟩
    · exact ⟨hl.1, ih hl.2⟩

/-- The value-merge step never raises the diff's retained updated timestamp
above the node's resulting one. -/
theorem mergeValueStep_bounds (stack : List String) (nvis dvis : Vis)
    (nvalue dvalue : Value) :
    (mergeValueStep stack nvis nvalue dvis dvalue).dupdated1 ≤
      (mergeValueStep stack nvis nvalue dvis dvalue).nupdated1 := by
  unfold mergeValueStep
  split_ifs <;> simp <;> omega

/-- The deletion-merge step never raises the diff's retained deleted
timestamp above the node's resulting one. -/
theorem mergeDeleteStep_bounds (nvis : Vis) (nu : Nat) (nv : Value)
    (dvis : Vis) (p0 : Option Node) :
    (mergeDeleteStep nvis nu nv dvis p0).ddeleted1 ≤
      (mergeDeleteStep nvis nu nv dvis p0).ndeleted1 := by
  unfold mergeDeleteStep
  split_ifs <;> simp

/-- When the diff's updated timestamp does not dominate, the value-merge
step keeps the node's value and timestamp, flags no change and raises no
propagate signal. -/
theorem mergeValueStep_le (stack : List String) (nvis : Vis) (nvalue : Value)
    (dvis : Vis) (dvalue : Value) (h : dvis.updated ≤ nvis.updated) :
    (mergeValueStep stack nvis nvalue dvis dvalue).nvalue1 = nvalue ∧
    (mergeValueStep stack nvis nvalue dvis dvalue).nupdated1 = nvis.updated ∧
    (mergeValueStep stack nvis nvalue dvis dvalue).valueChanged = false ∧
    (mergeValueStep stack nvis nvalue dvis dvalue).propagate = none := by
  unfold mergeValueStep
  rw [if_neg (by omega)]
  split_ifs <;> exact ⟨rfl, rfl, rfl, rfl⟩

/-- When the diff's deleted timestamp does not dominate, the deletion-merge
step keeps the node's deleted timestamp and value and threads the propagate
signal through unchanged. -/
theorem mergeDeleteStep_le (nvis : Vis) (nu : Nat) (nv : Value) (dvis : Vis)
    (p0 : Option Node) (h : dvis.deleted ≤ nvis.deleted) :
    mergeDeleteStep nvis nu nv dvis p0 = ⟨nvis.deleted, nv, 0, p0⟩ := by
  unfold mergeDeleteStep
  rw [if_neg (by omega)]

/-- An unchanged visibility with an unchanged value maps to empty update
fields. -/
theorem mergeVisStep_same (v : Bool) (oldInit : Option Value) (nv : Value) :
    mergeVisStep v v false oldInit nv = (false, none, none) := by
  cases v <;> rfl

/-- Replaying a fully merged diff-key list over the node's child map changes
nothing: the child map, the collected child updates and the externals of the
accumulator are returned untouched. -/
theorem keysFoldTriv (f : Nat) (s0 : List String) (w : Vis)
    (IH : ∀ (s : List String) (n d : Node) (w' : Vis),
      Merged n d → n.delegFree → d.delegFree →
      (mergeF f s n d w' w').node = n ∧ (mergeF f s n d w' w').update = none ∧
      (mergeF f s n d w' w').externals = []) :
    ∀ (dks : List (String × Node)) (acc : KeysAcc),
      MergedL acc.nodeKeys dks → delegFreeL acc.nodeKeys → delegFreeL dks →
      acc.ukeys = none → acc.externals = [] →
      ∀ r, r = dks.foldl (fun a kd =>
          match listGet kd.1 a.nodeKeys with
          | some child => keysStepOcc a kd.1
              (mergeF f (s0 ++ [kd.1]) child kd.2 w w)
          | none => keysStepVac a kd.1
              (mergeF f (s0 ++ [kd.1]) Node.default0 kd.2 w w)) acc →
      r.nodeKeys = acc.nodeKeys ∧ r.ukeys = none ∧ r.externals = [] := by
  intro dks
  induction dks with
  | nil =>
    intro acc _ _ _ h4 h5 r hr
    subst hr
    exact ⟨rfl, h4, h5⟩
  | cons hd tl ih =>
    intro acc hm hdfn hdfd h4 h5 r hr
    subst hr
    obtain ⟨k, dk⟩ := hd
    unfold MergedL at hm
    simp only [List.foldl_cons]
    rcases hg : listGet k acc.nodeKeys with _ | nk
    · -- vacant: the residue is fully zeroed, its re-merge is a no-op
      simp only [hg] at hm ⊢
      obtain ⟨dv, dval, dks', dd⟩ := dk
      have hdd : dd = 0 := Node.delegFree_deleg hdfd.1
      have hv0 : dv = (⟨0, 0⟩ : Vis) := hm.1.1
      have hk0 : dks' = none := hm.1.2
      subst hdd hv0 hk0
      have hv := mergeF_noop_vacant f (s0 ++ [k]) dval w w
      have hacc1 : (keysStepVac acc k
          (mergeF f (s0 ++ [k]) Node.default0 (.mk ⟨0, 0⟩ dval none 0) w w)).nodeKeys
          = acc.nodeKeys := by
        have hnoop : Node.default0.is_noop = true := rfl
        simp [keysStepVac, hv.1, hnoop]
      have hacc2 : (keysStepVac acc k
          (mergeF f (s0 ++ [k]) Node.default0 (.mk ⟨0, 0⟩ dval none 0) w w)).ukeys
          = none := by
        simp only [keysStepVac, hv.2.1, Update.addChild]
        exact h4
      have hacc3 : (keysStepVac acc k
          (mergeF f (s0 ++ [k]) Node.default0 (.mk ⟨0, 0⟩ dval none 0) w w)).externals
          = [] := by
        simp only [keysStepVac, hv.2.2, List.append_nil]
        exact h5
      have hrec := ih (keysStepVac acc k
          (mergeF f (s0 ++ [k]) Node.default0 (.mk ⟨0, 0⟩ dval none 0) w w))
        (hacc1.symm ▸ hm.2) (hacc1.symm ▸ hdfn) hdfd.2 hacc2 hacc3 _ rfl
      exact ⟨hrec.1.trans hacc1, hrec.2.1, hrec.2.2⟩
    · -- occupied: the child is already merged, its re-merge is a no-op
      simp only [hg] at hm ⊢
      have hnk : nk.delegFree := delegFreeL_mem hdfn (listGet_mem hg)
      have hme := IH (s0 ++ [k]) nk dk w hm.1 hnk hdfd.1
      have hacc1 : (keysStepOcc acc k
          (mergeF f (s0 ++ [k]) nk dk w w)).nodeKeys = acc.nodeKeys := by
        simp only [keysStepOcc, hme.1]
        exact listSet_self hg
      have hacc2 : (keysStepOcc acc k
          (mergeF f (s0 ++ [k]) nk dk w w)).ukeys = none := by
        simp only [keysStepOcc, hme.2.1, Update.addChild]
        exact h4
      have hacc3 : (keysStepOcc acc k
          (mergeF f (s0 ++ [k]) nk dk w w)).externals = [] := by
        simp only [keysStepOcc, hme.2.2, List.append_nil]
        exact h5
      have hrec := ih (keysStepOcc acc k (mergeF f (s0 ++ [k]) nk dk w w))
        (hacc1.symm ▸ hm.2) (hacc1.symm ▸ hdfn) hdfd.2 hacc2 hacc3 _ rfl
      exact ⟨hrec.1.trans hacc1, hrec.2.1, hrec.2.2⟩

/-- Replaying a fully merged, delegation-free diff into the node it was
merged into, under equal ancestor windows, is a complete no-op: the node is
unchanged, no Update is surfaced and no External is emitted — at every
fuel. -/
theorem mergeF_merged_trivial :
    ∀ (f : Nat) (s : List String) (n d : Node) (w : Vis),
      Merged n d → n.delegFree → d.delegFree →
      (mergeF f s n d w w).node = n ∧
      (mergeF f s n d w w).update = none ∧
      (mergeF f s n d w w).externals = [] := by
  intro f
  induction f with
  | zero =>
    intro s n d w _ _ _
    exact ⟨rfl, rfl, rfl⟩
  | succ f IH =>
    intro s n d w hm hn hd
    obtain ⟨nvis, nvalue, nkeys, ndeleg⟩ := n
    obtain ⟨dvis, dvalue, dkeys, ddeleg⟩ := d
    have hnd : ndeleg = 0 := Node.delegFree_deleg hn
    have hdd : ddeleg = 0 := Node.delegFree_deleg hd
    subst hnd hdd
    have hvu : dvis.updated ≤ nvis.updated := (Merged_vis hm).1
    have hvd : dvis.deleted ≤ nvis.deleted := (Merged_vis hm).2
    obtain ⟨nu, nd2⟩ := nvis
    obtain ⟨hval2, hupd2, hch2, hpr2⟩ :=
      mergeValueStep_le s ⟨nu, nd2⟩ nvalue dvis dvalue hvu
    have hs3 := mergeDeleteStep_le ⟨nu, nd2⟩ nu nvalue dvis none hvd
    rcases dkeys with _ | dks
    · -- keyless diff: the key loop is skipped entirely
      refine ⟨?_, ?_, ?_⟩ <;>
        simp only [mergeF, hval2, hupd2, hch2, hpr2, hs3, mergeVisStep_same,
          mergeDelegStep_zero,
          mergeDelegDataStep_even s ⟨nu, nd2⟩ nvalue nkeys 0 false
            (w.descend ⟨nu, nd2⟩) [] false none none none rfl] <;> rfl
    · -- diff with keys: every diff child replays trivially
      have hks := Merged_keys hm dks rfl
      have hsome : nkeys.isSome = true := hks.1
      rcases nkeys with _ | nks
      · simp at hsome
      have hml : MergedL nks dks := hks.2
      have hdfn : delegFreeL nks := Node.delegFree_keysL hn
      have hdfd : delegFreeL dks := Node.delegFree_keysL hd
      have hkf := keysFoldTriv f s (w.descend ⟨nu, nd2⟩) (fun s' n' d' w' =>
          IH s' n' d' w')
        dks ⟨nks, [], none, [], (mergeValueStep s ⟨nu, nd2⟩ nvalue dvis dvalue).conflicts⟩
        hml hdfn hdfd rfl rfl _ rfl
      refine ⟨?_, ?_, ?_⟩ <;>
        simp only [mergeF, hval2, hupd2, hch2, hpr2, hs3, mergeVisStep_same,
          Option.getD_some, hkf.1, hkf.2.1, hkf.2.2, mergeDelegStep_zero,
          mergeDelegDataStep_even s ⟨nu, nd2⟩ nvalue (some nks) 0 false
            (w.descend ⟨nu, nd2⟩) [] false none none none rfl] <;> rfl

/-- Refinement of the propagate shape: the signal also always carries a zero
updated timestamp (it is born from `Vis::delete` or the default node). -/
theorem mergeDeleteStep_propagate_pshape (nvis : Vis) (nu : Nat) (nv : Value)
    (dvis : Vis) (p0 : Option Node)
    (hp : p0 = none ∨ p0 = some Node.default0) :
    (mergeDeleteStep nvis nu nv dvis p0).propagate = none ∨
    ∃ pd : Nat, (mergeDeleteStep nvis nu nv dvis p0).propagate =
      some (.mk ⟨0, pd⟩ .Null none 0) := by
  unfold mergeDeleteStep
  rcases hp with h0 | h0 <;> subst h0 <;> split_ifs <;>
    first
      | exact Or.inl rfl
      | exact Or.inr ⟨_, rfl⟩

theorem PShape_delegFree {p : Node} (h : PShape p) : p.delegFree := by
  obtain ⟨pv, pval, pk, pd⟩ := p
  obtain ⟨-, -, h3, h4⟩ := h
  simp only [Node.keys, Node.delegated] at h3 h4
  subst h3
  exact h4

theorem PShape_nodup {p : Node} (h : PShape p) : p.nodupKeys := by
  obtain ⟨pv, pval, pk, pd⟩ := p
  obtain ⟨-, -, h3, -⟩ := h
  simp only [Node.keys] at h3
  subst h3
  trivial

theorem delegFreeL_append {l₁ l₂ : List (String × Node)} (h₁ : delegFreeL l₁)
    (h₂ : delegFreeL l₂) : delegFreeL (l₁ ++ l₂) := by
  induction l₁ with
  | nil => exact h₂
  | cons hd tl ih =>
    obtain ⟨k, c⟩ := hd
    exact ⟨h₁.1, ih h₁.2⟩

/-- The propagate loop preserves delegation-freeness of the rebuilt child
list and the shape of the threaded synthetic diff, given that each child
merge establishes delegation-freeness of its results. -/
theorem propFoldEst (f : Nat) (s0 : List String) (vo vn : Vis)
    (IH : ∀ (s : List String) (n d : Node) (vo' vn' : Vis),
      n.sizeN + d.sizeN ≤ f → n.delegFree → d.delegFree → d.nodupKeys →
      Merged (mergeF f s n d vo' vn').node (mergeF f s n d vo' vn').diff ∧
      (mergeF f s n d vo' vn').node.delegFree ∧
      (mergeF f s n d vo' vn').diff.delegFree ∧
      ((mergeF f s n d vo' vn').node.keys = none →
        (mergeF f s n d vo' vn').diff.keys = none)) :
    ∀ (ks : List (String × Node)) (acc : PropAcc),
      delegFreeL ks → PShape acc.pdiff → delegFreeL acc.children →
      sizeL ks < f →
      ∀ r, r = ks.foldl (fun a kc => propStepAcc a kc.1
          (mergeF f (s0 ++ [kc.1]) kc.2 a.pdiff vo vn)) acc →
      delegFreeL r.children ∧ PShape r.pdiff := by
  intro ks
  induction ks with
  | nil =>
    intro acc _ hps hdc _ r hr
    subst hr
    exact ⟨hdc, hps⟩
  | cons hd tl ih =>
    intro acc hdf hps hdc hsz r hr
    subst hr
    obtain ⟨k, c⟩ := hd
    simp only [List.foldl_cons]
    simp only [sizeL] at hsz
    have hfuel : c.sizeN + acc.pdiff.sizeN ≤ f := by
      have h1 := sizeN_keys_none hps.2.2.1
      omega
    have hprec := IH (s0 ++ [k]) c acc.pdiff vo vn hfuel hdf.1
      (PShape_delegFree hps) (PShape_nodup hps)
    have hshape := mergeF_pshape f (s0 ++ [k]) c acc.pdiff vo vn hps
    exact ih (propStepAcc acc k (mergeF f (s0 ++ [k]) c acc.pdiff vo vn))
      hdf.2 hshape (delegFreeL_append hdc ⟨hprec.2.1, trivial⟩)
      (by omega) _ rfl

/-- The diff-driven key loop establishes the merged relation: the final
child map is delegation-free, keys the diff does not mention are untouched,
and the mutated diff entries appended to the accumulator are each either
merged into the corresponding final child or left as a fully zeroed,
keyless residue when the freshly created child was dropped as a no-op. -/
theorem keysFoldEst (f : Nat) (s0 : List String) (vo vn : Vis)
    (IH : ∀ (s : List String) (n d : Node) (vo' vn' : Vis),
      n.sizeN + d.sizeN ≤ f → n.delegFree → d.delegFree → d.nodupKeys →
      Merged (mergeF f s n d vo' vn').node (mergeF f s n d vo' vn').diff ∧
      (mergeF f s n d vo' vn').node.delegFree ∧
      (mergeF f s n d vo' vn').diff.delegFree ∧
      ((mergeF f s n d vo' vn').node.keys = none →
        (mergeF f s n d vo' vn').diff.keys = none)) :
    ∀ (dks : List (String × Node)) (acc : KeysAcc),
      delegFreeL acc.nodeKeys → delegFreeL dks → nodupKeysL dks →
      (dks.map Prod.fst).Nodup →
      sizeL acc.nodeKeys + sizeL dks < f →
      ∀ r, r = dks.foldl (fun a kd =>
          match listGet kd.1 a.nodeKeys with
          | some child => keysStepOcc a kd.1
              (mergeF f (s0 ++ [kd.1]) child kd.2 vo vn)
          | none => keysStepVac a kd.1
              (mergeF f (s0 ++ [kd.1]) Node.default0 kd.2 vo vn)) acc →
      delegFreeL r.nodeKeys ∧
      (∀ k', k' ∉ dks.map Prod.fst →
        listGet k' r.nodeKeys = listGet k' acc.nodeKeys) ∧
      ∃ newE, r.diffKeys = acc.diffKeys ++ newE ∧ delegFreeL newE ∧
        MergedL r.nodeKeys newE := by
  intro dks
  induction dks with
  | nil =>
    intro acc hdfn _ _ _ _ r hr
    subst hr
    exact ⟨hdfn, fun _ _ => rfl, [], (List.append_nil _).symm, trivial, trivial⟩
  | cons hd tl ih =>
    intro acc hdfn hdfd hndd hnodup hsz r hr
    subst hr
    obtain ⟨k, dk⟩ := hd
    simp only [List.foldl_cons]
    simp only [sizeL] at hsz
    obtain ⟨hkt, hnodup'⟩ := List.nodup_cons.mp hnodup
    rcases hg : listGet k acc.nodeKeys with _ | child
    · -- vacant entry: merge the diff child into a fresh default node
      simp only [hg]
      have hfuel : Node.default0.sizeN + dk.sizeN ≤ f := by
        have : Node.default0.sizeN = 1 := rfl
        omega
      have hprec := IH (s0 ++ [k]) Node.default0 dk vo vn hfuel rfl hdfd.1 hndd.1
      have hsize := mergeF_size f (s0 ++ [k]) Node.default0 dk vo vn
      cases hno : (mergeF f (s0 ++ [k]) Node.default0 dk vo vn).node.is_noop with
      | true =>
        -- dropped as a no-op: the residue is fully zeroed and keyless
        have hsv : keysStepVac acc k (mergeF f (s0 ++ [k]) Node.default0 dk vo vn) =
            ⟨acc.nodeKeys,
             acc.diffKeys ++ [(k, (mergeF f (s0 ++ [k]) Node.default0 dk vo vn).diff)],
             Update.addChild acc.ukeys k
               (mergeF f (s0 ++ [k]) Node.default0 dk vo vn).update,
             acc.externals ++ (mergeF f (s0 ++ [k]) Node.default0 dk vo vn).externals,
             acc.conflicts ++ (mergeF f (s0 ++ [k]) Node.default0 dk vo vn).conflicts⟩ := by
          simp [keysStepVac, hno]
        rw [hsv]
        have hrec := ih ⟨acc.nodeKeys,
            acc.diffKeys ++ [(k, (mergeF f (s0 ++ [k]) Node.default0 dk vo vn).diff)],
            Update.addChild acc.ukeys k
              (mergeF f (s0 ++ [k]) Node.default0 dk vo vn).update,
            acc.externals ++ (mergeF f (s0 ++ [k]) Node.default0 dk vo vn).externals,
            acc.conflicts ++ (mergeF f (s0 ++ [k]) Node.default0 dk vo vn).conflicts⟩
          hdfn hdfd.2 hndd.2 hnodup' (by dsimp only; omega) _ rfl
        obtain ⟨hr1, hr2, newE, hdke, hdfe, hmle⟩ := hrec
        refine ⟨hr1, ?_, (k, (mergeF f (s0 ++ [k]) Node.default0 dk vo vn).diff) :: newE,
          ?_, ⟨hprec.2.2.1, hdfe⟩, ?_⟩
        · intro k' hk'
          simp only [List.map_cons, List.mem_cons, not_or] at hk'
          exact hr2 k' hk'.2
        · rw [hdke, List.append_assoc, List.singleton_append]
        · have hgr := (hr2 k hkt).trans hg
          have h9 := (Node.is_noop_iff _).mp hno
          have hkn := hprec.2.2.2 h9.2.2.1
          have hb := Merged_vis hprec.1
          rw [h9.1] at hb
          dsimp only at hb
          simp only [MergedL, hgr]
          exact ⟨⟨Vis.eq_zero (by omega) (by omega), hkn⟩, hmle⟩
      | false =>
        -- kept: the freshly created child is inserted under its key
        have hsv : keysStepVac acc k (mergeF f (s0 ++ [k]) Node.default0 dk vo vn) =
            ⟨listInsert k (mergeF f (s0 ++ [k]) Node.default0 dk vo vn).node acc.nodeKeys,
             acc.diffKeys ++ [(k, (mergeF f (s0 ++ [k]) Node.default0 dk vo vn).diff)],
             Update.addChild acc.ukeys k
               (mergeF f (s0 ++ [k]) Node.default0 dk vo vn).update,
             acc.externals ++ (mergeF f (s0 ++ [k]) Node.default0 dk vo vn).externals,
             acc.conflicts ++ (mergeF f (s0 ++ [k]) Node.default0 dk vo vn).conflicts⟩ := by
          simp [keysStepVac, hno]
        rw [hsv]
        have hins := sizeL_listInsert_le k
          (mergeF f (s0 ++ [k]) Node.default0 dk vo vn).node acc.nodeKeys
        have hd0 : Node.default0.sizeN = 1 := rfl
        have hrec := ih ⟨listInsert k
              (mergeF f (s0 ++ [k]) Node.default0 dk vo vn).node acc.nodeKeys,
            acc.diffKeys ++ [(k, (mergeF f (s0 ++ [k]) Node.default0 dk vo vn).diff)],
            Update.addChild acc.ukeys k
              (mergeF f (s0 ++ [k]) Node.default0 dk vo vn).update,
            acc.externals ++ (mergeF f (s0 ++ [k]) Node.default0 dk vo vn).externals,
            acc.conflicts ++ (mergeF f (s0 ++ [k]) Node.default0 dk vo vn).conflicts⟩
          (delegFreeL_listInsert hdfn hprec.2.1) hdfd.2 hndd.2 hnodup'
          (by dsimp only; omega) _ rfl
        obtain ⟨hr1, hr2, newE, hdke, hdfe, hmle⟩ := hrec
        refine ⟨hr1, ?_, (k, (mergeF f (s0 ++ [k]) Node.default0 dk vo vn).diff) :: newE,
          ?_, ⟨hprec.2.2.1, hdfe⟩, ?_⟩
        · intro k' hk'
          simp only [List.map_cons, List.mem_cons, not_or] at hk'
          exact (hr2 k' hk'.2).trans
            (listGet_listInsert_ne _ _ (fun h => hk'.1 h.symm))
        · rw [hdke, List.append_assoc, List.singleton_append]
        · have hgr := (hr2 k hkt).trans
            (listGet_listInsert_self k
              (mergeF f (s0 ++ [k]) Node.default0 dk vo vn).node acc.nodeKeys)
          simp only [MergedL, hgr]
          exact ⟨hprec.1, hmle⟩
    · -- occupied entry: merge the diff child into the existing one
      simp only [hg]
      have hcs := sizeN_le_sizeL_of_get hg
      have hfuel : child.sizeN + dk.sizeN ≤ f := by omega
      have hcf : child.delegFree := delegFreeL_mem hdfn (listGet_mem hg)
      have hprec := IH (s0 ++ [k]) child dk vo vn hfuel hcf hdfd.1 hndd.1
      have hsize := mergeF_size f (s0 ++ [k]) child dk vo vn
      have hset := sizeL_listSet
        (mergeF f (s0 ++ [k]) child dk vo vn).node hg
      have hrec := ih (keysStepOcc acc k (mergeF f (s0 ++ [k]) child dk vo vn))
        (delegFreeL_listSet hdfn hprec.2.1) hdfd.2 hndd.2 hnodup'
        (by simp only [keysStepOcc]; omega) _ rfl
      obtain ⟨hr1, hr2, newE, hdke, hdfe, hmle⟩ := hrec
      refine ⟨hr1, ?_, (k, (mergeF f (s0 ++ [k]) child dk vo vn).diff) :: newE,
        ?_, ⟨hprec.2.2.1, hdfe⟩, ?_⟩
      · intro k' hk'
        simp only [List.map_cons, List.mem_cons, not_or] at hk'
        exact (hr2 k' hk'.2).trans
          (listGet_listSet_ne _ _ (fun h => hk'.1 h.symm))
      · rw [hdke]
        simp only [keysStepOcc]
        rw [List.append_assoc, List.singleton_append]
      · have hgr := (hr2 k hkt).trans
          (listGet_listSet_self (mergeF f (s0 ++ [k]) child dk vo vn).node hg)
        simp only [MergedL, hgr]
        exact ⟨hprec.1, hmle⟩

/-- A sufficiently fuelled merge of delegation-free trees establishes the
merged relation between its result node and residue diff, preserves
delegation-freeness on both, and leaves a keyless residue whenever the
result node is keyless. -/
theorem mergeF_establishes :
    ∀ (f : Nat) (s : List String) (n d : Node) (vo vn : Vis),
      n.sizeN + d.sizeN ≤ f →
      n.delegFree → d.delegFree → d.nodupKeys →
      Merged (mergeF f s n d vo vn).node (mergeF f s n d vo vn).diff ∧
      (mergeF f s n d vo vn).node.delegFree ∧
      (mergeF f s n d vo vn).diff.delegFree ∧
      ((mergeF f s n d vo vn).node.keys = none →
        (mergeF f s n d vo vn).diff.keys = none) := by
  intro f
  induction f with
  | zero =>
    intro s n d vo vn hf _ _ _
    have h1 := sizeN_pos n
    have h2 := sizeN_pos d
    omega
  | succ f IH =>
    intro s n d vo vn hf hn hd hdn
    obtain ⟨nvis, nvalue, nkeys, ndeleg⟩ := n
    obtain ⟨dvis, dvalue, dkeys, ddeleg⟩ := d
    have hnd0 : ndeleg = 0 := Node.delegFree_deleg hn
    have hdd0 : ddeleg = 0 := Node.delegFree_deleg hd
    subst hnd0 hdd0
    have hnkf : delegFreeL (nkeys.getD []) := Node.delegFree_keysL hn
    have hdkf : delegFreeL (dkeys.getD []) := Node.delegFree_keysL hd
    have hdkn := Node.nodupKeys_keysL hdn
    simp only [mergeF]
    have hvb := mergeValueStep_bounds s nvis dvis nvalue dvalue
    have hvp := mergeValueStep_propagate s nvis dvis nvalue dvalue
    generalize hS2 : mergeValueStep s nvis nvalue dvis dvalue = S2
    rw [hS2] at hvb hvp
    obtain ⟨nv1, nu1, du1, dv1, ch1, pr1, cc1⟩ := S2
    dsimp only at hvb hvp ⊢
    have hdb := mergeDeleteStep_bounds nvis nu1 nv1 dvis pr1
    have hdp := mergeDeleteStep_propagate_pshape nvis nu1 nv1 dvis pr1 hvp
    generalize hS3 : mergeDeleteStep nvis nu1 nv1 dvis pr1 = S3
    rw [hS3] at hdb hdp
    obtain ⟨nd1, nv2, dd1, pr3⟩ := S3
    dsimp only at hdb hdp ⊢
    generalize hV : vo.descend nvis = V
    generalize hW : vn.descend ⟨nu1, nd1⟩ = W
    rcases hdp with hpr | ⟨pd, hpr⟩ <;> subst hpr <;>
      rcases nkeys with _ | nks <;> rcases dkeys with _ | dks <;>
      simp only [Node.sizeN, Option.getD_some, Option.getD_none] at hf hnkf hdkf hdkn <;>
      simp only [Option.getD_some, Option.getD_none, mergeDelegStep_zero,
        mergeDelegDataStep_even, Nat.zero_mod]
    · -- no propagate, no node keys, no diff keys
      exact ⟨⟨hvb, hdb, trivial⟩, rfl, rfl, fun _ => rfl⟩
    · -- no propagate, no node keys, diff keys drive the loop
      obtain ⟨hke1, hke2, newE, hdke, hdfe, hmle⟩ :=
        keysFoldEst f s V W IH dks ⟨[], [], none, [], cc1⟩ trivial hdkf
          hdkn.1 hdkn.2 (by dsimp only; simp only [sizeL]; omega) _ rfl
      rw [List.nil_append] at hdke
      rw [← hdke] at hdfe hmle
      exact ⟨⟨hvb, hdb, rfl, hmle⟩, ⟨rfl, hke1⟩, ⟨rfl, hdfe⟩,
        fun h => Option.noConfusion h⟩
    · -- no propagate, node keys untouched, no diff keys
      exact ⟨⟨hvb, hdb, trivial⟩, ⟨rfl, hnkf⟩, rfl, fun _ => rfl⟩
    · -- no propagate, node keys present, diff keys drive the loop
      obtain ⟨hke1, hke2, newE, hdke, hdfe, hmle⟩ :=
        keysFoldEst f s V W IH dks ⟨nks, [], none, [], cc1⟩ hnkf hdkf
          hdkn.1 hdkn.2 (by dsimp only; omega) _ rfl
      rw [List.nil_append] at hdke
      rw [← hdke] at hdfe hmle
      exact ⟨⟨hvb, hdb, rfl, hmle⟩, ⟨rfl, hke1⟩, ⟨rfl, hdfe⟩,
        fun h => Option.noConfusion h⟩
    · -- propagate raised, no node keys, no diff keys
      exact ⟨⟨hvb, hdb, trivial⟩, rfl, rfl, fun _ => rfl⟩
    · -- propagate raised, no node keys, diff keys drive the loop
      obtain ⟨hke1, hke2, newE, hdke, hdfe, hmle⟩ :=
        keysFoldEst f s V W IH dks ⟨[], [], none, [], cc1⟩ trivial hdkf
          hdkn.1 hdkn.2 (by dsimp only; simp only [sizeL]; omega) _ rfl
      rw [List.nil_append] at hdke
      rw [← hdke] at hdfe hmle
      exact ⟨⟨hvb, hdb, rfl, hmle⟩, ⟨rfl, hke1⟩, ⟨rfl, hdfe⟩,
        fun h => Option.noConfusion h⟩
    · -- propagate raised over the node's children, no diff keys
      obtain ⟨hpc, hpp⟩ := propFoldEst f s V W IH nks
        ⟨[], .mk ⟨0, pd⟩ .Null none 0, none, [], cc1⟩ hnkf
        ⟨rfl, rfl, rfl, rfl⟩ trivial (by omega) _ rfl
      exact ⟨⟨hvb, hdb, trivial⟩, ⟨rfl, hpc⟩, rfl, fun _ => rfl⟩
    · -- propagate raised over the node's children, then diff keys
      obtain ⟨hpc, hpp⟩ := propFoldEst f s V W IH nks
        ⟨[], .mk ⟨0, pd⟩ .Null none 0, none, [], cc1⟩ hnkf
        ⟨rfl, rfl, rfl, rfl⟩ trivial (by omega) _ rfl
      have hpsz := propFold_size f s V W
        (fun s' n' d' vo' vn' => mergeF_size f s' n' d' vo' vn') nks
        ⟨[], .mk ⟨0, pd⟩ .Null none 0, none, [], cc1⟩ rfl
      obtain ⟨hke1, hke2, newE, hdke, hdfe, hmle⟩ :=
        keysFoldEst f s V W IH dks
          ⟨(List.foldl (fun acc kc => propStepAcc acc kc.1
              (mergeF f (s ++ [kc.1]) kc.2 acc.pdiff V W))
            ⟨[], .mk ⟨0, pd⟩ .Null none 0, none, [], cc1⟩ nks).children, [],
           (List.foldl (fun acc kc => propStepAcc acc kc.1
              (mergeF f (s ++ [kc.1]) kc.2 acc.pdiff V W))
            ⟨[], .mk ⟨0, pd⟩ .Null none 0, none, [], cc1⟩ nks).ukeys,
           (List.foldl (fun acc kc => propStepAcc acc kc.1
              (mergeF f (s ++ [kc.1]) kc.2 acc.pdiff V W))
            ⟨[], .mk ⟨0, pd⟩ .Null none 0, none, [], cc1⟩ nks).externals,
           (List.foldl (fun acc kc => propStepAcc acc kc.1
              (mergeF f (s ++ [kc.1]) kc.2 acc.pdiff V W))
            ⟨[], .mk ⟨0, pd⟩ .Null none 0, none, [], cc1⟩ nks).conflicts⟩
          hpc hdkf hdkn.1 hdkn.2
          (by dsimp only; simp only [sizeL] at hpsz; omega) _ rfl
      rw [List.nil_append] at hdke
      rw [← hdke] at hdfe hmle
      exact ⟨⟨hvb, hdb, rfl, hmle⟩, ⟨rfl, hke1⟩, ⟨rfl, hdfe⟩,
        fun h => Option.noConfusion h⟩

theorem Vis.merge_self (v : Vis) : v.merge v = v := by
  obtain ⟨u, d⟩ := v
  simp [Vis.merge]

/-- C3 counterexample: merge is not idempotent as claimed. Replaying the
mutated diff into the resulting node with the same ancestor window can
(a) change the node again — a diff that hands a child into active
delegation detaches that child's payload, and the replayed residue, whose
timestamps were retained in the diff, re-creates it with a newer updated
timestamp — and (b) surface a second Update: under an ancestor window with
`vis_old ≠ vis_new` the replay recomputes the same visibility transition
and re-emits it. -/
theorem c3_idempotence_counterexample :
    ((listGet "a" ((Node.merge
        (Node.merge (.mk ⟨0, 0⟩ .Null (some [("a", Node.default0)]) 0)
          (.mk ⟨0, 0⟩ .Null (some [("a", .mk ⟨5, 0⟩ .Null none 11)]) 0)
          ⟨100, 0⟩ ⟨100, 0⟩).node
        (Node.merge (.mk ⟨0, 0⟩ .Null (some [("a", Node.default0)]) 0)
          (.mk ⟨0, 0⟩ .Null (some [("a", .mk ⟨5, 0⟩ .Null none 11)]) 0)
          ⟨100, 0⟩ ⟨100, 0⟩).diff
        ⟨100, 0⟩ ⟨100, 0⟩).node.keys.getD [])).map Node.vis ≠
      (listGet "a" (((Node.merge (.mk ⟨0, 0⟩ .Null (some [("a", Node.default0)]) 0)
          (.mk ⟨0, 0⟩ .Null (some [("a", .mk ⟨5, 0⟩ .Null none 11)]) 0)
          ⟨100, 0⟩ ⟨100, 0⟩).node).keys.getD [])).map Node.vis) ∧
    (Node.merge
        (Node.merge Node.default0 (.mk ⟨5, 0⟩ (.Str "x") none 0) ⟨0, 0⟩ ⟨10, 0⟩).node
        (Node.merge Node.default0 (.mk ⟨5, 0⟩ (.Str "x") none 0) ⟨0, 0⟩ ⟨10, 0⟩).diff
        ⟨0, 0⟩ ⟨10, 0⟩).update.isSome = true :=
  ⟨by decide, rfl⟩

/-- C3 (amended): replayed through `NodeTree::merge` — which de-conflicts
the ancestor window, so both calls of the replay see the equal window the
first merge stored — merging a delegation-free diff with duplicate-free
child keys into a delegation-free node and then re-merging the mutated
(now-zeroed) diff into the result yields no further Update, emits no
externals, and leaves the resulting tree unchanged. -/
theorem c3_nodetree_replay_is_noop (n d : Node) (v0 dvis : Vis)
    (hn : n.delegFree) (hd : d.delegFree) (hdn : d.nodupKeys) :
    (NodeTree.merge (NodeTree.merge ⟨n, v0⟩ ⟨d, dvis⟩).self
        (NodeTree.merge ⟨n, v0⟩ ⟨d, dvis⟩).diff).update = none ∧
    (NodeTree.merge (NodeTree.merge ⟨n, v0⟩ ⟨d, dvis⟩).self
        (NodeTree.merge ⟨n, v0⟩ ⟨d, dvis⟩).diff).externals = [] ∧
    (NodeTree.merge (NodeTree.merge ⟨n, v0⟩ ⟨d, dvis⟩).self
        (NodeTree.merge ⟨n, v0⟩ ⟨d, dvis⟩).diff).self =
      (NodeTree.merge ⟨n, v0⟩ ⟨d, dvis⟩).self := by
  have hest := mergeF_establishes (n.sizeN + d.sizeN) [] n d v0 (Vis.merge dvis v0)
    (le_refl _) hn hd hdn
  have htr := mergeF_merged_trivial
    ((mergeF (n.sizeN + d.sizeN) [] n d v0 (Vis.merge dvis v0)).node.sizeN +
     (mergeF (n.sizeN + d.sizeN) [] n d v0 (Vis.merge dvis v0)).diff.sizeN) []
    (mergeF (n.sizeN + d.sizeN) [] n d v0 (Vis.merge dvis v0)).node
    (mergeF (n.sizeN + d.sizeN) [] n d v0 (Vis.merge dvis v0)).diff
    (Vis.merge dvis v0) hest.1 hest.2.1 hest.2.2.1
  simp only [NodeTree.merge, Node.merge, Vis.merge_self]
  exact ⟨htr.2.1, htr.2.2, by rw [htr.1]⟩

theorem c3_nodetree_replay_is_noop_witness :
    (NodeTree.merge
      (NodeTree.merge ⟨.mk ⟨3, 0⟩ (.Str "old") (some [("a", .mk ⟨1, 0⟩ (.U64 7) none 0)]) 0, ⟨1, 0⟩⟩
        ⟨.mk ⟨5, 0⟩ (.Str "new") (some [("a", .mk ⟨4, 0⟩ (.U64 9) none 0)]) 0, ⟨5, 0⟩⟩).self
      (NodeTree.merge ⟨.mk ⟨3, 0⟩ (.Str "old") (some [("a", .mk ⟨1, 0⟩ (.U64 7) none 0)]) 0, ⟨1, 0⟩⟩
        ⟨.mk ⟨5, 0⟩ (.Str "new") (some [("a", .mk ⟨4, 0⟩ (.U64 9) none 0)]) 0, ⟨5, 0⟩⟩).diff).update
      = none ∧
    (NodeTree.merge
      (NodeTree.merge ⟨.mk ⟨3, 0⟩ (.Str "old") (some [("a", .mk ⟨1, 0⟩ (.U64 7) none 0)]) 0, ⟨1, 0⟩⟩
        ⟨.mk ⟨5, 0⟩ (.Str "new") (some [("a", .mk ⟨4, 0⟩ (.U64 9) none 0)]) 0, ⟨5, 0⟩⟩).self
      (NodeTree.merge ⟨.mk ⟨3, 0⟩ (.Str "old") (some [("a", .mk ⟨1, 0⟩ (.U64 7) none 0)]) 0, ⟨1, 0⟩⟩
        ⟨.mk ⟨5, 0⟩ (.Str "new") (some [("a", .mk ⟨4, 0⟩ (.U64 9) none 0)]) 0, ⟨5, 0⟩⟩).diff).externals
      = [] ∧
    (NodeTree.merge
      (NodeTree.merge ⟨.mk ⟨3, 0⟩ (.Str "old") (some [("a", .mk ⟨1, 0⟩ (.U64 7) none 0)]) 0, ⟨1, 0⟩⟩
        ⟨.mk ⟨5, 0⟩ (.Str "new") (some [("a", .mk ⟨4, 0⟩ (.U64 9) none 0)]) 0, ⟨5, 0⟩⟩).self
      (NodeTree.merge ⟨.mk ⟨3, 0⟩ (.Str "old") (some [("a", .mk ⟨1, 0⟩ (.U64 7) none 0)]) 0, ⟨1, 0⟩⟩
        ⟨.mk ⟨5, 0⟩ (.Str "new") (some [("a", .mk ⟨4, 0⟩ (.U64 9) none 0)]) 0, ⟨5, 0⟩⟩).diff).self
      = (NodeTree.merge ⟨.mk ⟨3, 0⟩ (.Str "old") (some [("a", .mk ⟨1, 0⟩ (.U64 7) none 0)]) 0, ⟨1, 0⟩⟩
        ⟨.mk ⟨5, 0⟩ (.Str "new") (some [("a", .mk ⟨4, 0⟩ (.U64 9) none 0)]) 0, ⟨5, 0⟩⟩).self :=
  c3_nodetree_replay_is_noop
    (.mk ⟨3, 0⟩ (.Str "old") (some [("a", .mk ⟨1, 0⟩ (.U64 7) none 0)]) 0)
    (.mk ⟨5, 0⟩ (.Str "new") (some [("a", .mk ⟨4, 0⟩ (.U64 9) none 0)]) 0)
    ⟨1, 0⟩ ⟨5, 0⟩ ⟨rfl, rfl, trivial⟩ ⟨rfl, rfl, trivial⟩ ⟨by decide, trivial, trivial⟩

/-- Characterisation of the value left in a keyless, delegation-free node
after one merge step: last-writer-wins on the updated timestamp (existing
value on ties), tombstoned when a strictly newer delete dominates the
resulting updated timestamp. -/
def scalarVal (nvis : Vis) (nval : Value) (dvis : Vis) (dval : Value) : Value :=
  if nvis.deleted < dvis.deleted ∧ max nvis.updated dvis.updated < dvis.deleted
  then Value.Null
  else if nvis.updated < dvis.updated then dval else nval

/-- Closed form of a merge of keyless, delegation-free node and diff: the
node keeps the pairwise maximal timestamps and the `scalarVal` value, and
stays keyless and undelegated. -/
theorem mergeF_scalar (f : Nat) (s : List String) (nvis : Vis) (nval : Value)
    (dvis : Vis) (dval : Value) (vo vn : Vis) :
    (mergeF (f + 1) s (.mk nvis nval none 0) (.mk dvis dval none 0) vo vn).node =
      .mk ⟨max nvis.updated dvis.updated, max nvis.deleted dvis.deleted⟩
        (scalarVal nvis nval dvis dval) none 0 := by
  rcases Nat.lt_trichotomy nvis.updated dvis.updated with hu | hu | hu <;>
    rcases Nat.lt_or_ge nvis.deleted dvis.deleted with hd | hd
  · have h2 : mergeValueStep s nvis nval dvis dval =
        ⟨dval, dvis.updated, dvis.updated, dval,
         if nval = dval then false else true, some Node.default0, []⟩ := by
      unfold mergeValueStep
      rw [if_pos hu]
    have h3 : mergeDeleteStep nvis dvis.updated dval dvis (some Node.default0) =
        ⟨dvis.deleted, if dvis.updated < dvis.deleted then Value.Null else dval,
         dvis.deleted, some (.mk ⟨0, dvis.deleted⟩ .Null none 0)⟩ := by
      unfold mergeDeleteStep
      rw [if_pos hd]
      try rfl
    simp only [mergeF, h2, h3, mergeDelegStep_zero, mergeDelegDataStep_even,
      Nat.zero_mod]
    congr 1
    · congr 1 <;> omega
    · simp only [scalarVal]
      split_ifs <;> first | rfl | omega
  · have h2 : mergeValueStep s nvis nval dvis dval =
        ⟨dval, dvis.updated, dvis.updated, dval,
         if nval = dval then false else true, some Node.default0, []⟩ := by
      unfold mergeValueStep
      rw [if_pos hu]
    have h3 : mergeDeleteStep nvis dvis.updated dval dvis (some Node.default0) =
        ⟨nvis.deleted, dval, 0, some Node.default0⟩ := by
      unfold mergeDeleteStep
      rw [if_neg (by omega)]
      try rfl
    simp only [mergeF, h2, h3, mergeDelegStep_zero, mergeDelegDataStep_even,
      Nat.zero_mod]
    congr 1
    · congr 1 <;> omega
    · simp only [scalarVal]
      split_ifs <;> first | rfl | omega
  · have h2 : mergeValueStep s nvis nval dvis dval =
        ⟨nval, nvis.updated, dvis.updated, dval, false, none,
         if nval = dval then [] else [⟨s, nval, dval, dvis.updated⟩]⟩ := by
      unfold mergeValueStep
      rw [if_neg (by omega), if_neg (by omega)]
    have h3 : mergeDeleteStep nvis nvis.updated nval dvis none =
        ⟨dvis.deleted, if nvis.updated < dvis.deleted then Value.Null else nval,
         dvis.deleted, some (Node.delete dvis.deleted)⟩ := by
      unfold mergeDeleteStep
      rw [if_pos hd]
      try rfl
    simp only [mergeF, h2, h3, mergeDelegStep_zero, mergeDelegDataStep_even,
      Nat.zero_mod]
    congr 1
    · congr 1 <;> omega
    · simp only [scalarVal]
      split_ifs <;> first | rfl | omega
  · have h2 : mergeValueStep s nvis nval dvis dval =
        ⟨nval, nvis.updated, dvis.updated, dval, false, none,
         if nval = dval then [] else [⟨s, nval, dval, dvis.updated⟩]⟩ := by
      unfold mergeValueStep
      rw [if_neg (by omega), if_neg (by omega)]
    have h3 : mergeDeleteStep nvis nvis.updated nval dvis none =
        ⟨nvis.deleted, nval, 0, none⟩ := by
      unfold mergeDeleteStep
      rw [if_neg (by omega)]
      try rfl
    simp only [mergeF, h2, h3, mergeDelegStep_zero, mergeDelegDataStep_even,
      Nat.zero_mod]
    congr 1
    · congr 1 <;> omega
    · simp only [scalarVal]
      split_ifs <;> first | rfl | omega
  · have h2 : mergeValueStep s nvis nval dvis dval =
        ⟨nval, nvis.updated, 0, .Null, false, none, []⟩ :=
      mergeValueStep_stale s nvis dvis nval dval hu
    have h3 : mergeDeleteStep nvis nvis.updated nval dvis none =
        ⟨dvis.deleted, if nvis.updated < dvis.deleted then Value.Null else nval,
         dvis.deleted, some (Node.delete dvis.deleted)⟩ := by
      unfold mergeDeleteStep
      rw [if_pos hd]
      try rfl
    simp only [mergeF, h2, h3, mergeDelegStep_zero, mergeDelegDataStep_even,
      Nat.zero_mod]
    congr 1
    · congr 1 <;> omega
    · simp only [scalarVal]
      split_ifs <;> first | rfl | omega
  · have h2 : mergeValueStep s nvis nval dvis dval =
        ⟨nval, nvis.updated, 0, .Null, false, none, []⟩ :=
      mergeValueStep_stale s nvis dvis nval dval hu
    have h3 : mergeDeleteStep nvis nvis.updated nval dvis none =
        ⟨nvis.deleted, nval, 0, none⟩ := by
      unfold mergeDeleteStep
      rw [if_neg (by omega)]
      try rfl
    simp only [mergeF, h2, h3, mergeDelegStep_zero, mergeDelegDataStep_even,
      Nat.zero_mod]
    congr 1
    · congr 1 <;> omega
    · simp only [scalarVal]
      split_ifs <;> first | rfl | omega

/-- `Node::merge` on keyless, delegation-free trees, in closed form. -/
theorem nodeMerge_scalar (nvis : Vis) (nval : Value) (dvis : Vis) (dval : Value)
    (vo vn : Vis) :
    (Node.merge (.mk nvis nval none 0) (.mk dvis dval none 0) vo vn).node =
      .mk ⟨max nvis.updated dvis.updated, max nvis.deleted dvis.deleted⟩
        (scalarVal nvis nval dvis dval) none 0 :=
  mergeF_scalar 1 [] nvis nval dvis dval vo vn

/-- `NodeTree::merge` on keyless, delegation-free trees, in closed form. -/
theorem nodeTree_scalar (nvis : Vis) (nval : Value) (dvis : Vis) (dval : Value)
    (v0 dv : Vis) :
    (NodeTree.merge ⟨.mk nvis nval none 0, v0⟩ ⟨.mk dvis dval none 0, dv⟩).self =
      ⟨.mk ⟨max nvis.updated dvis.updated, max nvis.deleted dvis.deleted⟩
        (scalarVal nvis nval dvis dval) none 0, dv.merge v0⟩ := by
  simp only [NodeTree.merge, nodeMerge_scalar]

/-- De-conflicting two ancestor-vis claims into a stored vis is
order-independent. -/
theorem Vis.merge_right_swap (a b c : Vis) :
    a.merge (b.merge c) = b.merge (a.merge c) := by
  obtain ⟨a1, a2⟩ := a
  obtain ⟨b1, b2⟩ := b
  obtain ⟨c1, c2⟩ := c
  simp only [Vis.merge, Vis.mk.injEq]
  constructor <;> split_ifs <;> omega

/-- Two successive scalar merge steps with distinct updated timestamps
commute on the resulting value, provided the final timestamps leave the
node visible (invisible residues may differ byte-wise: a tombstone applied
in one order is skipped in the other). -/
theorem scalarVal_comm (nvis avis bvis : Vis) (nval aval bval : Value)
    (hdisj : avis.updated ≠ bvis.updated)
    (hvis : max (max nvis.deleted avis.deleted) bvis.deleted <
            max (max nvis.updated avis.updated) bvis.updated) :
    scalarVal ⟨max nvis.updated avis.updated, max nvis.deleted avis.deleted⟩
        (scalarVal nvis nval avis aval) bvis bval =
    scalarVal ⟨max nvis.updated bvis.updated, max nvis.deleted bvis.deleted⟩
        (scalarVal nvis nval bvis bval) avis aval := by
  obtain ⟨nu, nd⟩ := nvis
  obtain ⟨au, ad⟩ := avis
  obtain ⟨bu, bd⟩ := bvis
  dsimp only at hdisj hvis
  simp only [scalarVal]
  dsimp only
  split_ifs <;> first | rfl | omega

/-- C1 counterexample: observable-state commutativity fails once delegation
words are involved, even though the two diffs touch disjoint regions (one
touches only delegation version 1, the other only version 2, and neither
touches any updated/deleted timestamp). Applied first, the active-delegation
diff detaches the child's payload into an External before the inactive word
overwrites it; applied second, it is stale and the payload survives — the
child is observably absent in one order and visible in the other. -/
theorem c1_commutativity_counterexample :
    (NodeTree.merge (NodeTree.merge
        ⟨.mk ⟨1, 0⟩ .Null (some [("a", .mk ⟨1, 0⟩ (.Str "v") none 0)]) 0, ⟨5, 0⟩⟩
        ⟨.mk ⟨0, 0⟩ .Null (some [("a", .mk ⟨0, 0⟩ .Null none 3)]) 0, ⟨5, 0⟩⟩).self
        ⟨.mk ⟨0, 0⟩ .Null (some [("a", .mk ⟨0, 0⟩ .Null none 4)]) 0, ⟨5, 0⟩⟩).self.node.visibleAt
      (NodeTree.merge (NodeTree.merge
        ⟨.mk ⟨1, 0⟩ .Null (some [("a", .mk ⟨1, 0⟩ (.Str "v") none 0)]) 0, ⟨5, 0⟩⟩
        ⟨.mk ⟨0, 0⟩ .Null (some [("a", .mk ⟨0, 0⟩ .Null none 3)]) 0, ⟨5, 0⟩⟩).self
        ⟨.mk ⟨0, 0⟩ .Null (some [("a", .mk ⟨0, 0⟩ .Null none 4)]) 0, ⟨5, 0⟩⟩).self.vis ["a"] ≠
    (NodeTree.merge (NodeTree.merge
        ⟨.mk ⟨1, 0⟩ .Null (some [("a", .mk ⟨1, 0⟩ (.Str "v") none 0)]) 0, ⟨5, 0⟩⟩
        ⟨.mk ⟨0, 0⟩ .Null (some [("a", .mk ⟨0, 0⟩ .Null none 4)]) 0, ⟨5, 0⟩⟩).self
        ⟨.mk ⟨0, 0⟩ .Null (some [("a", .mk ⟨0, 0⟩ .Null none 3)]) 0, ⟨5, 0⟩⟩).self.node.visibleAt
      (NodeTree.merge (NodeTree.merge
        ⟨.mk ⟨1, 0⟩ .Null (some [("a", .mk ⟨1, 0⟩ (.Str "v") none 0)]) 0, ⟨5, 0⟩⟩
        ⟨.mk ⟨0, 0⟩ .Null (some [("a", .mk ⟨0, 0⟩ .Null none 4)]) 0, ⟨5, 0⟩⟩).self
        ⟨.mk ⟨0, 0⟩ .Null (some [("a", .mk ⟨0, 0⟩ .Null none 3)]) 0, ⟨5, 0⟩⟩).self.vis ["a"] := by
  decide

mutual

/-- All updated timestamps occurring in a tree (the update-region the tree
touches). -/
def Node.uSet : Node → List Nat
  | .mk v _ none _ => [v.updated]
  | .mk v _ (some ks) _ => v.updated :: uSetL ks

def uSetL : List (String × Node) → List Nat
  | [] => []
  | (_, c) :: rest => c.uSet ++ uSetL rest

end

/-- The canonical merged node: fixed fuel, empty stack, zero windows. The
node result of a delegation-free merge does not depend on stack, windows or
(sufficient) fuel, so every merge's node equals this one
(`mergeF_windowfree`). -/
def mN (n d : Node) : Node :=
  (mergeF (n.sizeN + d.sizeN) [] n d ⟨0, 0⟩ ⟨0, 0⟩).node

/-- The canonical residue diff, analogously. -/
def mD (n d : Node) : Node :=
  (mergeF (n.sizeN + d.sizeN) [] n d ⟨0, 0⟩ ⟨0, 0⟩).diff

/-- The propagate loop computes the same rebuilt children and the same
threaded diff regardless of stack, windows and (sufficient) fuel. -/
theorem propFoldPair (g1 g2 : Nat) (s1 s2 : List String) (vo1 vn1 vo2 vn2 : Vis)
    (IH : ∀ (sa sb : List String) (n d : Node) (voa vna vob vnb : Vis) (fb : Nat),
      n.sizeN + d.sizeN ≤ g1 → n.sizeN + d.sizeN ≤ fb →
      n.delegFree → d.delegFree → d.nodupKeys →
      (mergeF g1 sa n d voa vna).node = (mergeF fb sb n d vob vnb).node ∧
      (mergeF g1 sa n d voa vna).diff = (mergeF fb sb n d vob vnb).diff) :
    ∀ (ks : List (String × Node)) (acc1 acc2 : PropAcc),
      delegFreeL ks → PShape acc1.pdiff →
      acc1.children = acc2.children → acc1.pdiff = acc2.pdiff →
      sizeL ks < g1 → sizeL ks < g2 →
      ((ks.foldl (fun a kc => propStepAcc a kc.1
          (mergeF g1 (s1 ++ [kc.1]) kc.2 a.pdiff vo1 vn1)) acc1).children =
       (ks.foldl (fun a kc => propStepAcc a kc.1
          (mergeF g2 (s2 ++ [kc.1]) kc.2 a.pdiff vo2 vn2)) acc2).children ∧
       (ks.foldl (fun a kc => propStepAcc a kc.1
          (mergeF g1 (s1 ++ [kc.1]) kc.2 a.pdiff vo1 vn1)) acc1).pdiff =
       (ks.foldl (fun a kc => propStepAcc a kc.1
          (mergeF g2 (s2 ++ [kc.1]) kc.2 a.pdiff vo2 vn2)) acc2).pdiff) := by
  intro ks
  induction ks with
  | nil =>
    intro acc1 acc2 _ _ hc hp _ _
    exact ⟨hc, hp⟩
  | cons hd tl ih =>
    intro acc1 acc2 hdf hps hc hp hsz1 hsz2
    obtain ⟨k, c⟩ := hd
    simp only [List.foldl_cons]
    simp only [sizeL] at hsz1 hsz2
    have hfuel1 : c.sizeN + acc1.pdiff.sizeN ≤ g1 := by
      have := sizeN_keys_none hps.2.2.1
      omega
    have hfuel2 : c.sizeN + acc1.pdiff.sizeN ≤ g2 := by
      have := sizeN_keys_none hps.2.2.1
      omega
    have hm := IH (s1 ++ [k]) (s2 ++ [k]) c acc1.pdiff vo1 vn1 vo2 vn2 g2
      hfuel1 hfuel2 hdf.1 (PShape_delegFree hps) (PShape_nodup hps)
    rw [← hp]
    have hshape := mergeF_pshape g1 (s1 ++ [k]) c acc1.pdiff vo1 vn1 hps
    refine ih (propStepAcc acc1 k (mergeF g1 (s1 ++ [k]) c acc1.pdiff vo1 vn1))
      (propStepAcc acc2 k (mergeF g2 (s2 ++ [k]) c acc1.pdiff vo2 vn2))
      hdf.2 hshape ?_ ?_ (by omega) (by omega)
    · simp only [propStepAcc, hc, hm.1]
    · simp only [propStepAcc, hm.2]

/-- The diff-key loop computes the same child maps regardless of stack,
windows and (sufficient) fuel. -/
theorem keysFoldPair (g1 g2 : Nat) (s1 s2 : List String) (vo1 vn1 vo2 vn2 : Vis)
    (IH : ∀ (sa sb : List String) (n d : Node) (voa vna vob vnb : Vis) (fb : Nat),
      n.sizeN + d.sizeN ≤ g1 → n.sizeN + d.sizeN ≤ fb →
      n.delegFree → d.delegFree → d.nodupKeys →
      (mergeF g1 sa n d voa vna).node = (mergeF fb sb n d vob vnb).node ∧
      (mergeF g1 sa n d voa vna).diff = (mergeF fb sb n d vob vnb).diff) :
    ∀ (dks : List (String × Node)) (acc1 acc2 : KeysAcc),
      delegFreeL acc1.nodeKeys → delegFreeL dks → nodupKeysL dks →
      acc1.nodeKeys = acc2.nodeKeys → acc1.diffKeys = acc2.diffKeys →
      sizeL acc1.nodeKeys + sizeL dks < g1 →
      sizeL acc1.nodeKeys + sizeL dks < g2 →
      ((dks.foldl (fun a kd =>
          match listGet kd.1 a.nodeKeys with
          | some child => keysStepOcc a kd.1
              (mergeF g1 (s1 ++ [kd.1]) child kd.2 vo1 vn1)
          | none => keysStepVac a kd.1
              (mergeF g1 (s1 ++ [kd.1]) Node.default0 kd.2 vo1 vn1)) acc1).nodeKeys =
       (dks.foldl (fun a kd =>
          match listGet kd.1 a.nodeKeys with
          | some child => keysStepOcc a kd.1
              (mergeF g2 (s2 ++ [kd.1]) child kd.2 vo2 vn2)
          | none => keysStepVac a kd.1
              (mergeF g2 (s2 ++ [kd.1]) Node.default0 kd.2 vo2 vn2)) acc2).nodeKeys ∧
       (dks.foldl (fun a kd =>
          match listGet kd.1 a.nodeKeys with
          | some child => keysStepOcc a kd.1
              (mergeF g1 (s1 ++ [kd.1]) child kd.2 vo1 vn1)
          | none => keysStepVac a kd.1
              (mergeF g1 (s1 ++ [kd.1]) Node.default0 kd.2 vo1 vn1)) acc1).diffKeys =
       (dks.foldl (fun a kd =>
          match listGet kd.1 a.nodeKeys with
          | some child => keysStepOcc a kd.1
              (mergeF g2 (s2 ++ [kd.1]) child kd.2 vo2 vn2)
          | none => keysStepVac a kd.1
              (mergeF g2 (s2 ++ [kd.1]) Node.default0 kd.2 vo2 vn2)) acc2).diffKeys) := by
  intro dks
  induction dks with
  | nil =>
    intro acc1 acc2 _ _ _ hn hd _ _
    exact ⟨hn, hd⟩
  | cons hd tl ih =>
    intro acc1 acc2 hdfn hdfd hndd hn hdk hsz1 hsz2
    obtain ⟨k, dk⟩ := hd
    simp only [List.foldl_cons]
    simp only [sizeL] at hsz1 hsz2
    rw [← hn]
    rcases hg : listGet k acc1.nodeKeys with _ | child
    · -- vacant in both
      simp only [hg]
      have hfuel1 : Node.default0.sizeN + dk.sizeN ≤ g1 := by
        have : Node.default0.sizeN = 1 := rfl
        omega
      have hfuel2 : Node.default0.sizeN + dk.sizeN ≤ g2 := by
        have : Node.default0.sizeN = 1 := rfl
        omega
      have hm := IH (s1 ++ [k]) (s2 ++ [k]) Node.default0 dk vo1 vn1 vo2 vn2 g2
        hfuel1 hfuel2 rfl hdfd.1 hndd.1
      have hest := mergeF_establishes g1 (s1 ++ [k]) Node.default0 dk vo1 vn1
        hfuel1 rfl hdfd.1 hndd.1
      have hsize := mergeF_size g1 (s1 ++ [k]) Node.default0 dk vo1 vn1
      refine ih (keysStepVac acc1 k (mergeF g1 (s1 ++ [k]) Node.default0 dk vo1 vn1))
        (keysStepVac acc2 k (mergeF g2 (s2 ++ [k]) Node.default0 dk vo2 vn2)) ?_
        hdfd.2 hndd.2 ?_ ?_ ?_ ?_
      · simp only [keysStepVac]
        split_ifs with h
        · exact hdfn
        · exact delegFreeL_listInsert hdfn hest.2.1
      · simp only [keysStepVac, hn, hm.1]
      · simp only [keysStepVac, hdk, hm.2]
      · simp only [keysStepVac]
        split_ifs with h
        · omega
        · have hins := sizeL_listInsert_le k
            (mergeF g1 (s1 ++ [k]) Node.default0 dk vo1 vn1).node acc1.nodeKeys
          have hd0 : Node.default0.sizeN = 1 := rfl
          omega
      · simp only [keysStepVac]
        split_ifs with h
        · omega
        · have hins := sizeL_listInsert_le k
            (mergeF g1 (s1 ++ [k]) Node.default0 dk vo1 vn1).node acc1.nodeKeys
          have hd0 : Node.default0.sizeN = 1 := rfl
          omega
    · -- occupied in both
      simp only [hg]
      have hcs := sizeN_le_sizeL_of_get hg
      have hfuel1 : child.sizeN + dk.sizeN ≤ g1 := by omega
      have hfuel2 : child.sizeN + dk.sizeN ≤ g2 := by omega
      have hcf : child.delegFree := delegFreeL_mem hdfn (listGet_mem hg)
      have hm := IH (s1 ++ [k]) (s2 ++ [k]) child dk vo1 vn1 vo2 vn2 g2
        hfuel1 hfuel2 hcf hdfd.1 hndd.1
      have hest := mergeF_establishes g1 (s1 ++ [k]) child dk vo1 vn1
        hfuel1 hcf hdfd.1 hndd.1
      have hsize := mergeF_size g1 (s1 ++ [k]) child dk vo1 vn1
      have hset := sizeL_listSet (mergeF g1 (s1 ++ [k]) child dk vo1 vn1).node hg
      refine ih (keysStepOcc acc1 k (mergeF g1 (s1 ++ [k]) child dk vo1 vn1))
        (keysStepOcc acc2 k (mergeF g2 (s2 ++ [k]) child dk vo2 vn2))
        (delegFreeL_listSet hdfn hest.2.1) hdfd.2 hndd.2 ?_ ?_ ?_ ?_
      · simp only [keysStepOcc, hn, hm.1]
      · simp only [keysStepOcc, hdk, hm.2]
      · simp only [keysStepOcc]
        omega
      · simp only [keysStepOcc]
        omega

/-- Every component of the value-merge step except the conflict diagnostic
is independent of the path stack. -/
theorem mergeValueStep_stack_eq (s1 s2 : List String) (nvis : Vis)
    (nvalue : Value) (dvis : Vis) (dvalue : Value) :
    (mergeValueStep s1 nvis nvalue dvis dvalue).nvalue1 =
      (mergeValueStep s2 nvis nvalue dvis dvalue).nvalue1 ∧
    (mergeValueStep s1 nvis nvalue dvis dvalue).nupdated1 =
      (mergeValueStep s2 nvis nvalue dvis dvalue).nupdated1 ∧
    (mergeValueStep s1 nvis nvalue dvis dvalue).dupdated1 =
      (mergeValueStep s2 nvis nvalue dvis dvalue).dupdated1 ∧
    (mergeValueStep s1 nvis nvalue dvis dvalue).dvalue1 =
      (mergeValueStep s2 nvis nvalue dvis dvalue).dvalue1 ∧
    (mergeValueStep s1 nvis nvalue dvis dvalue).valueChanged =
      (mergeValueStep s2 nvis nvalue dvis dvalue).valueChanged ∧
    (mergeValueStep s1 nvis nvalue dvis dvalue).propagate =
      (mergeValueStep s2 nvis nvalue dvis dvalue).propagate := by
  unfold mergeValueStep
  split_ifs <;> exact ⟨rfl, rfl, rfl, rfl, rfl, rfl⟩

/-- A delegation-free merge's node and residue diff depend on nothing but
the node, the diff and sufficient fuel: stack, ancestor windows and the
exact fuel are irrelevant (they only shape updates, externals and
conflict diagnostics). -/
theorem mergeF_windowfree :
    ∀ (f1 : Nat) (s1 s2 : List String) (n d : Node) (vo1 vn1 vo2 vn2 : Vis)
      (f2 : Nat),
      n.sizeN + d.sizeN ≤ f1 → n.sizeN + d.sizeN ≤ f2 →
      n.delegFree → d.delegFree → d.nodupKeys →
      (mergeF f1 s1 n d vo1 vn1).node = (mergeF f2 s2 n d vo2 vn2).node ∧
      (mergeF f1 s1 n d vo1 vn1).diff = (mergeF f2 s2 n d vo2 vn2).diff := by
  intro f1
  induction f1 with
  | zero =>
    intro s1 s2 n d vo1 vn1 vo2 vn2 f2 hf1 _ _ _ _
    have := sizeN_pos n
    have := sizeN_pos d
    omega
  | succ g1 IH =>
    intro s1 s2 n d vo1 vn1 vo2 vn2 f2 hf1 hf2 hn hd hdn
    cases f2 with
    | zero =>
      have := sizeN_pos n
      have := sizeN_pos d
      omega
    | succ g2 =>
    obtain ⟨nvis, nvalue, nkeys, ndeleg⟩ := n
    obtain ⟨dvis, dvalue, dkeys, ddeleg⟩ := d
    have hnd0 : ndeleg = 0 := Node.delegFree_deleg hn
    have hdd0 : ddeleg = 0 := Node.delegFree_deleg hd
    subst hnd0 hdd0
    have hnkf : delegFreeL (nkeys.getD []) := Node.delegFree_keysL hn
    have hdkf : delegFreeL (dkeys.getD []) := Node.delegFree_keysL hd
    have hdkn := Node.nodupKeys_keysL hdn
    simp only [mergeF]
    have hvp := mergeValueStep_propagate s1 nvis dvis nvalue dvalue
    have hse := mergeValueStep_stack_eq s1 s2 nvis nvalue dvis dvalue
    generalize hS2a : mergeValueStep s1 nvis nvalue dvis dvalue = S2a
    generalize hS2b : mergeValueStep s2 nvis nvalue dvis dvalue = S2b
    rw [hS2a] at hvp
    rw [hS2a, hS2b] at hse
    obtain ⟨nv1, nu1, du1, dv1, ch1, pr1, cc1⟩ := S2a
    obtain ⟨nv1b, nu1b, du1b, dv1b, ch1b, pr1b, cc1b⟩ := S2b
    dsimp only at hvp hse ⊢
    obtain ⟨e1, e2, e3, e4, e5, e6⟩ := hse
    subst e1 e2 e3 e4 e5 e6
    have hdp := mergeDeleteStep_propagate_pshape nvis nu1 nv1 dvis pr1 hvp
    generalize hS3 : mergeDeleteStep nvis nu1 nv1 dvis pr1 = S3
    rw [hS3] at hdp
    obtain ⟨nd1, nv2, dd1, pr3⟩ := S3
    dsimp only at hdp ⊢
    generalize hV1 : vo1.descend nvis = V1
    generalize hW1 : vn1.descend ⟨nu1, nd1⟩ = W1
    generalize hV2 : vo2.descend nvis = V2
    generalize hW2 : vn2.descend ⟨nu1, nd1⟩ = W2
    rcases hdp with hpr | ⟨pd, hpr⟩ <;> subst hpr <;>
      rcases nkeys with _ | nks <;> rcases dkeys with _ | dks <;>
      simp only [Node.sizeN, Option.getD_some, Option.getD_none]
        at hf1 hf2 hnkf hdkf hdkn <;>
      simp only [Option.getD_some, Option.getD_none, mergeDelegStep_zero,
        mergeDelegDataStep_even, Nat.zero_mod]
    · constructor <;> trivial
    · -- no propagate, no node keys, diff keys drive the loop
      have hkp := keysFoldPair g1 g2 s1 s2 V1 W1 V2 W2 IH
        dks ⟨[], [], none, [], cc1⟩ ⟨[], [], none, [], cc1b⟩ trivial hdkf
        hdkn.1 rfl rfl (by dsimp only; simp only [sizeL]; omega)
        (by dsimp only; simp only [sizeL]; omega)
      rw [hkp.1, hkp.2]
      constructor <;> trivial
    · constructor <;> trivial
    · -- no propagate, node keys present, diff keys drive the loop
      have hkp := keysFoldPair g1 g2 s1 s2 V1 W1 V2 W2 IH
        dks ⟨nks, [], none, [], cc1⟩ ⟨nks, [], none, [], cc1b⟩ hnkf hdkf
        hdkn.1 rfl rfl (by dsimp only; omega) (by dsimp only; omega)
      rw [hkp.1, hkp.2]
      constructor <;> trivial
    · constructor <;> trivial
    · -- propagate raised, no node keys, diff keys drive the loop
      have hkp := keysFoldPair g1 g2 s1 s2 V1 W1 V2 W2 IH
        dks ⟨[], [], none, [], cc1⟩ ⟨[], [], none, [], cc1b⟩ trivial hdkf
        hdkn.1 rfl rfl (by dsimp only; simp only [sizeL]; omega)
        (by dsimp only; simp only [sizeL]; omega)
      rw [hkp.1, hkp.2]
      constructor <;> trivial
    · -- propagate raised over the node's children, no diff keys
      have hpp := propFoldPair g1 g2 s1 s2 V1 W1 V2 W2 IH nks
        ⟨[], .mk ⟨0, pd⟩ .Null none 0, none, [], cc1⟩
        ⟨[], .mk ⟨0, pd⟩ .Null none 0, none, [], cc1b⟩ hnkf
        ⟨rfl, rfl, rfl, rfl⟩ rfl rfl (by omega) (by omega)
      rw [hpp.1]
      constructor <;> trivial
    · -- propagate raised over the node's children, then diff keys
      have hpp := propFoldPair g1 g2 s1 s2 V1 W1 V2 W2 IH nks
        ⟨[], .mk ⟨0, pd⟩ .Null none 0, none, [], cc1⟩
        ⟨[], .mk ⟨0, pd⟩ .Null none 0, none, [], cc1b⟩ hnkf
        ⟨rfl, rfl, rfl, rfl⟩ rfl rfl (by omega) (by omega)
      obtain ⟨hpe, hpf⟩ := propFoldEst g1 s1 V1 W1
        (fun s' n' d' vo' vn' h1 h2 h3 h4 =>
          mergeF_establishes g1 s' n' d' vo' vn' h1 h2 h3 h4) nks
        ⟨[], .mk ⟨0, pd⟩ .Null none 0, none, [], cc1⟩ hnkf
        ⟨rfl, rfl, rfl, rfl⟩ trivial (by omega) _ rfl
      have hpsz := propFold_size g1 s1 V1 W1
        (fun s' n' d' vo' vn' => mergeF_size g1 s' n' d' vo' vn') nks
        ⟨[], .mk ⟨0, pd⟩ .Null none 0, none, [], cc1⟩ rfl
      have hkp := keysFoldPair g1 g2 s1 s2 V1 W1 V2 W2 IH dks
        ⟨(List.foldl (fun a kc => propStepAcc a kc.1
            (mergeF g1 (s1 ++ [kc.1]) kc.2 a.pdiff V1 W1))
          ⟨[], .mk ⟨0, pd⟩ .Null none 0, none, [], cc1⟩ nks).children, [],
         (List.foldl (fun a kc => propStepAcc a kc.1
            (mergeF g1 (s1 ++ [kc.1]) kc.2 a.pdiff V1 W1))
          ⟨[], .mk ⟨0, pd⟩ .Null none 0, none, [], cc1⟩ nks).ukeys,
         (List.foldl (fun a kc => propStepAcc a kc.1
            (mergeF g1 (s1 ++ [kc.1]) kc.2 a.pdiff V1 W1))
          ⟨[], .mk ⟨0, pd⟩ .Null none 0, none, [], cc1⟩ nks).externals,
         (List.foldl (fun a kc => propStepAcc a kc.1
            (mergeF g1 (s1 ++ [kc.1]) kc.2 a.pdiff V1 W1))
          ⟨[], .mk ⟨0, pd⟩ .Null none 0, none, [], cc1⟩ nks).conflicts⟩
        ⟨(List.foldl (fun a kc => propStepAcc a kc.1
            (mergeF g2 (s2 ++ [kc.1]) kc.2 a.pdiff V2 W2))
          ⟨[], .mk ⟨0, pd⟩ .Null none 0, none, [], cc1b⟩ nks).children, [],
         (List.foldl (fun a kc => propStepAcc a kc.1
            (mergeF g2 (s2 ++ [kc.1]) kc.2 a.pdiff V2 W2))
          ⟨[], .mk ⟨0, pd⟩ .Null none 0, none, [], cc1b⟩ nks).ukeys,
         (List.foldl (fun a kc => propStepAcc a kc.1
            (mergeF g2 (s2 ++ [kc.1]) kc.2 a.pdiff V2 W2))
          ⟨[], .mk ⟨0, pd⟩ .Null none 0, none, [], cc1b⟩ nks).externals,
         (List.foldl (fun a kc => propStepAcc a kc.1
            (mergeF g2 (s2 ++ [kc.1]) kc.2 a.pdiff V2 W2))
          ⟨[], .mk ⟨0, pd⟩ .Null none 0, none, [], cc1b⟩ nks).conflicts⟩
        hpe hdkf hdkn.1 hpp.1 rfl
        (by dsimp only; simp only [sizeL] at hpsz; omega)
        (by dsimp only; simp only [sizeL] at hpsz; omega)
      rw [hkp.1, hkp.2]
      constructor <;> trivial

/-- The value-merge step always lands on the pairwise maximum updated
timestamp. -/
theorem mergeValueStep_nupdated (s : List String) (nvis : Vis) (nvalue : Value)
    (dvis : Vis) (dvalue : Value) :
    (mergeValueStep s nvis nvalue dvis dvalue).nupdated1 =
      max nvis.updated dvis.updated := by
  unfold mergeValueStep
  split_ifs <;> dsimp only <;> omega

/-- The deletion-merge step always lands on the pairwise maximum deleted
timestamp. -/
theorem mergeDeleteStep_ndeleted (nvis : Vis) (nu : Nat) (nv : Value)
    (dvis : Vis) (p0 : Option Node) :
    (mergeDeleteStep nvis nu nv dvis p0).ndeleted1 =
      max nvis.deleted dvis.deleted := by
  unfold mergeDeleteStep
  split_ifs <;> dsimp only <;> omega

/-- The composition of the value and deletion steps leaves exactly the
`scalarVal` value in the node. -/
theorem valueSteps_scalar (s : List String) (nvis : Vis) (nvalue : Value)
    (dvis : Vis) (dvalue : Value) :
    (mergeDeleteStep nvis (mergeValueStep s nvis nvalue dvis dvalue).nupdated1
      (mergeValueStep s nvis nvalue dvis dvalue).nvalue1 dvis
      (mergeValueStep s nvis nvalue dvis dvalue).propagate).nvalue2 =
      scalarVal nvis nvalue dvis dvalue := by
  unfold mergeValueStep
  split_ifs <;>
    (unfold mergeDeleteStep scalarVal; dsimp only;
     split_ifs <;> first | rfl | omega)

/-- Root closed form of a delegation-free merge: pairwise-max visibility,
`scalarVal` value, no delegation word, and a child map present exactly when
either input has one. -/
theorem mergeF_root (f : Nat) (s : List String) (n d : Node) (vo vn : Vis)
    (hf : n.sizeN + d.sizeN ≤ f) (hn : n.delegFree) (hd : d.delegFree) :
    (mergeF f s n d vo vn).node.vis =
      ⟨max n.vis.updated d.vis.updated, max n.vis.deleted d.vis.deleted⟩ ∧
    (mergeF f s n d vo vn).node.value = scalarVal n.vis n.value d.vis d.value ∧
    (mergeF f s n d vo vn).node.delegated = 0 ∧
    (mergeF f s n d vo vn).node.keys.isSome =
      (n.keys.isSome || d.keys.isSome) := by
  cases f with
  | zero =>
    have := sizeN_pos n
    have := sizeN_pos d
    omega
  | succ g =>
    obtain ⟨nvis, nvalue, nkeys, ndeleg⟩ := n
    obtain ⟨dvis, dvalue, dkeys, ddeleg⟩ := d
    have hnd0 : ndeleg = 0 := Node.delegFree_deleg hn
    have hdd0 : ddeleg = 0 := Node.delegFree_deleg hd
    subst hnd0 hdd0
    simp only [mergeF]
    have hU := mergeValueStep_nupdated s nvis nvalue dvis dvalue
    have hval := valueSteps_scalar s nvis nvalue dvis dvalue
    have hvp := mergeValueStep_propagate s nvis dvis nvalue dvalue
    generalize hS2 : mergeValueStep s nvis nvalue dvis dvalue = S2
    rw [hS2] at hU hval hvp
    obtain ⟨nv1, nu1, du1, dv1, ch1, pr1, cc1⟩ := S2
    dsimp only at hU hval hvp ⊢
    have hD := mergeDeleteStep_ndeleted nvis nu1 nv1 dvis pr1
    have hdp := mergeDeleteStep_propagate_pshape nvis nu1 nv1 dvis pr1 hvp
    generalize hS3 : mergeDeleteStep nvis nu1 nv1 dvis pr1 = S3
    rw [hS3] at hD hval hdp
    obtain ⟨nd1, nv2, dd1, pr3⟩ := S3
    dsimp only at hD hval hdp ⊢
    simp only [mergeDelegStep_zero, mergeDelegDataStep_even, Nat.zero_mod]
    refine ⟨?_, ?_, rfl, ?_⟩
    · simp only [Node.vis, hU, hD]
    · exact hval
    · rcases dkeys with _ | dks
      · rcases hdp with hpr | ⟨pd, hpr⟩ <;> subst hpr <;>
          rcases nkeys with _ | nks <;>
          simp [Node.keys]
      · simp [Node.keys]

/-- Any sufficiently fuelled delegation-free merge's node is the canonical
one. -/
theorem mN_eq (f : Nat) (s : List String) (n d : Node) (vo vn : Vis)
    (hf : n.sizeN + d.sizeN ≤ f) (hn : n.delegFree) (hd : d.delegFree)
    (hdn : d.nodupKeys) : (mergeF f s n d vo vn).node = mN n d :=
  (mergeF_windowfree f s [] n d vo vn ⟨0, 0⟩ ⟨0, 0⟩ (n.sizeN + d.sizeN) hf
    (le_refl _) hn hd hdn).1

theorem mN_delegFree {n d : Node} (hn : n.delegFree) (hd : d.delegFree)
    (hdn : d.nodupKeys) : (mN n d).delegFree :=
  (mergeF_establishes (n.sizeN + d.sizeN) [] n d ⟨0, 0⟩ ⟨0, 0⟩ (le_refl _)
    hn hd hdn).2.1

theorem mN_size (n d : Node) : (mN n d).sizeN + 1 ≤ n.sizeN + d.sizeN :=
  mergeF_size (n.sizeN + d.sizeN) [] n d ⟨0, 0⟩ ⟨0, 0⟩

/-- Root closed form for the canonical merge. -/
theorem mN_root {n d : Node} (hn : n.delegFree) (hd : d.delegFree) :
    (mN n d).vis =
      ⟨max n.vis.updated d.vis.updated, max n.vis.deleted d.vis.deleted⟩ ∧
    (mN n d).value = scalarVal n.vis n.value d.vis d.value ∧
    (mN n d).delegated = 0 ∧
    (mN n d).keys.isSome = (n.keys.isSome || d.keys.isSome) :=
  mergeF_root (n.sizeN + d.sizeN) [] n d ⟨0, 0⟩ ⟨0, 0⟩ (le_refl _) hn hd

/-- A fully zeroed keyless diff leaves any delegation-free node exactly
unchanged, at every fuel. -/
theorem mergeF_inert (f : Nat) (s : List String) (n : Node) (dval : Value)
    (vo vn : Vis) (hn : n.delegFree) :
    (mergeF f s n (.mk ⟨0, 0⟩ dval none 0) vo vn).node = n := by
  cases f with
  | zero => rfl
  | succ g =>
    obtain ⟨nvis, nvalue, nkeys, ndeleg⟩ := n
    have hnd0 : ndeleg = 0 := Node.delegFree_deleg hn
    subst hnd0
    obtain ⟨nu, nd2⟩ := nvis
    obtain ⟨hval2, hupd2, hch2, hpr2⟩ :=
      mergeValueStep_le s ⟨nu, nd2⟩ nvalue ⟨0, 0⟩ dval (by simp)
    have hs3 := mergeDeleteStep_le ⟨nu, nd2⟩ nu nvalue ⟨0, 0⟩ none (by simp)
    simp only [mergeF, hval2, hupd2, hch2, hpr2, hs3, mergeDelegStep_zero,
      mergeDelegDataStep_even, Nat.zero_mod]

/-- The canonical form of the inert merge. -/
theorem mN_inert (n : Node) (dval : Value) (hn : n.delegFree) :
    mN n (.mk ⟨0, 0⟩ dval none 0) = n :=
  mergeF_inert _ _ _ _ _ _ hn

/-- A freshly created child that is dropped as a no-op can only have come
from a fully zeroed, keyless sub-diff — which is inert everywhere. -/
theorem vacant_noop_inert {x : Node} (hx : x.delegFree)
    (h : (mN Node.default0 x).is_noop = true) :
    x.vis = (⟨0, 0⟩ : Vis) ∧ x.keys = none := by
  have hroot := mN_root (n := Node.default0) (d := x) rfl hx
  have h9 := (Node.is_noop_iff _).mp h
  constructor
  · have h1 := h9.1
    rw [hroot.1] at h1
    have h2 : max (Node.default0.vis.updated) x.vis.updated = 0 := by
      have := congrArg Vis.updated h1
      simpa using this
    have h3 : max (Node.default0.vis.deleted) x.vis.deleted = 0 := by
      have := congrArg Vis.deleted h1
      simpa using this
    have hd0u : Node.default0.vis.updated = 0 := rfl
    have hd0d : Node.default0.vis.deleted = 0 := rfl
    exact Vis.eq_zero (by omega) (by omega)
  · have h4 := hroot.2.2.2
    rw [h9.2.2.1] at h4
    have : Node.default0.keys.isSome = false := rfl
    rw [this] at h4
    simp only [Option.isSome_none, Bool.false_or] at h4
    exact Option.not_isSome_iff_eq_none.mp (by rw [← h4]; simp)

theorem sizeN_child_lt {t : Node} {k : String} {c : Node}
    (h : listGet k (t.keys.getD []) = some c) : c.sizeN < t.sizeN := by
  obtain ⟨v, val, ks, dg⟩ := t
  cases ks with
  | none => simp [Node.keys, listGet] at h
  | some ks =>
    simp only [Node.keys, Option.getD_some] at h
    have := sizeN_le_sizeL_of_get h
    simp only [Node.sizeN]
    omega

/-- Observational equivalence of two trees under a deletion floor `D`
inherited from ancestors: equal updated timestamps, equal deleted
timestamps up to the floor, equal values wherever the node is visible under
the floor, and pointwise equivalent children under the accumulated floor.
Formalises the spec's "same externally-observable state, not necessarily
byte-identical internal residue". -/
def R (D : Nat) (t1 t2 : Node) : Prop :=
  t1.vis.updated = t2.vis.updated ∧
  max D t1.vis.deleted = max D t2.vis.deleted ∧
  (max D t1.vis.deleted < t1.vis.updated → t1.value = t2.value) ∧
  (∀ k, (listGet k (t1.keys.getD [])).isSome =
        (listGet k (t2.keys.getD [])).isSome) ∧
  (∀ k c1 c2, listGet k (t1.keys.getD []) = some c1 →
    listGet k (t2.keys.getD []) = some c2 →
    R (max D t1.vis.deleted) c1 c2)
termination_by t1.sizeN
decreasing_by exact sizeN_child_lt (by assumption)

theorem R_refl : ∀ (m : Nat) (t : Node), t.sizeN ≤ m → ∀ D, R D t t := by
  intro m
  induction m with
  | zero =>
    intro t ht
    have := sizeN_pos t
    omega
  | succ m ih =>
    intro t ht D
    unfold R
    refine ⟨rfl, rfl, fun _ => rfl, fun _ => rfl, ?_⟩
    intro k c1 c2 h1 h2
    rw [h1] at h2
    cases h2
    have := sizeN_child_lt h1
    exact ih c1 (by omega) _

theorem R_symm : ∀ (m : Nat) (t1 t2 : Node), t1.sizeN ≤ m → ∀ D,
    R D t1 t2 → R D t2 t1 := by
  intro m
  induction m with
  | zero =>
    intro t1 t2 ht
    have := sizeN_pos t1
    omega
  | succ m ih =>
    intro t1 t2 ht D h
    unfold R at h ⊢
    obtain ⟨h1, h2, h3, h4, h5⟩ := h
    refine ⟨h1.symm, h2.symm, ?_, fun k => (h4 k).symm, ?_⟩
    · intro hv
      exact (h3 (by omega)).symm
    · intro k c2 c1 hg2 hg1
      have := sizeN_child_lt hg1
      have hr := h5 k c1 c2 hg1 hg2
      rw [← h2]
      exact ih c1 c2 (by omega) _ hr

theorem R_trans : ∀ (m : Nat) (t1 t2 t3 : Node), t1.sizeN ≤ m → ∀ D,
    R D t1 t2 → R D t2 t3 → R D t1 t3 := by
  intro m
  induction m with
  | zero =>
    intro t1 t2 t3 ht
    have := sizeN_pos t1
    omega
  | succ m ih =>
    intro t1 t2 t3 ht D ha hb
    unfold R at ha hb ⊢
    obtain ⟨a1, a2, a3, a4, a5⟩ := ha
    obtain ⟨b1, b2, b3, b4, b5⟩ := hb
    refine ⟨a1.trans b1, a2.trans b2, ?_, fun k => (a4 k).trans (b4 k), ?_⟩
    · intro hv
      exact (a3 hv).trans (b3 (by omega))
    · intro k c1 c3 hg1 hg3
      have hs : (listGet k (t2.keys.getD [])).isSome = true := by
        rw [← a4 k, hg1]
        rfl
      obtain ⟨c2, hg2⟩ := Option.isSome_iff_exists.mp hs
      have := sizeN_child_lt hg1
      have h12 := a5 k c1 c2 hg1 hg2
      have h23 := b5 k c2 c3 hg2 hg3
      rw [← a2] at h23
      exact ih c1 c2 c3 (by omega) _ h12 h23

theorem R_mono : ∀ (m : Nat) (t1 t2 : Node), t1.sizeN ≤ m → ∀ D D',
    D ≤ D' → R D t1 t2 → R D' t1 t2 := by
  intro m
  induction m with
  | zero =>
    intro t1 t2 ht
    have := sizeN_pos t1
    omega
  | succ m ih =>
    intro t1 t2 ht D D' hDD h
    unfold R at h ⊢
    obtain ⟨h1, h2, h3, h4, h5⟩ := h
    refine ⟨h1, by omega, ?_, h4, ?_⟩
    · intro hv
      exact h3 (by omega)
    · intro k c1 c2 hg1 hg2
      have := sizeN_child_lt hg1
      exact ih c1 c2 (by omega) _ _ (by omega) (h5 k c1 c2 hg1 hg2)

/-- The deletion-merge step's retained diff delete never exceeds the diff's
claim. -/
theorem mergeDeleteStep_ddeleted_le (nvis : Vis) (nu : Nat) (nv : Value)
    (dvis : Vis) (p0 : Option Node) :
    (mergeDeleteStep nvis nu nv dvis p0).ddeleted1 ≤ dvis.deleted := by
  unfold mergeDeleteStep
  split_ifs <;> dsimp only <;> omega

/-- The propagate signal, when raised, is a bare delete bounded by the
node's resulting deleted timestamp. -/
theorem mergeDeleteStep_propagate_bound (nvis : Vis) (nu : Nat) (nv : Value)
    (dvis : Vis) (p0 : Option Node)
    (hp : p0 = none ∨ p0 = some Node.default0) :
    (mergeDeleteStep nvis nu nv dvis p0).propagate = none ∨
    ∃ pd, pd ≤ (mergeDeleteStep nvis nu nv dvis p0).ndeleted1 ∧
      (mergeDeleteStep nvis nu nv dvis p0).propagate =
        some (.mk ⟨0, pd⟩ .Null none 0) := by
  unfold mergeDeleteStep
  rcases hp with h0 | h0 <;> subst h0 <;> split_ifs <;> dsimp only <;>
    first
      | exact Or.inl rfl
      | exact Or.inr ⟨_, le_refl _, rfl⟩
      | exact Or.inr ⟨0, by omega, rfl⟩

/-- A keyless diff's residue keeps a deleted timestamp bounded by its
claim. -/
theorem mergeF_diff_deleted_le (f : Nat) (s : List String) (n : Node)
    (dvis : Vis) (dvalue : Value) (ddeleg : Nat) (vo vn : Vis) :
    (mergeF f s n (.mk dvis dvalue none ddeleg) vo vn).diff.vis.deleted ≤
      dvis.deleted := by
  cases f with
  | zero => exact le_refl _
  | succ g =>
    obtain ⟨nvis, nvalue, nkeys, ndeleg⟩ := n
    simp only [mergeF]
    dsimp only [Node.vis]
    exact mergeDeleteStep_ddeleted_le nvis _ _ dvis _

/-- Shape of a `PShape` node as a literal. -/
theorem PShape_mk {p : Node} (h : PShape p) :
    p = .mk ⟨0, p.vis.deleted⟩ .Null none 0 := by
  obtain ⟨pv, pval, pk, pd⟩ := p
  obtain ⟨h1, h2, h3, h4⟩ := h
  simp only [Node.vis, Node.value, Node.keys, Node.delegated] at h1 h2 h3 h4 ⊢
  subst h2 h3 h4
  obtain ⟨pu, pdl⟩ := pv
  simp only at h1
  subst h1
  rfl

theorem listGet_append {α : Type} (k : String) (l1 l2 : List (String × α)) :
    listGet k (l1 ++ l2) =
      match listGet k l1 with
      | some v => some v
      | none => listGet k l2 := by
  induction l1 with
  | nil => simp [listGet]
  | cons hd tl ih =>
    obtain ⟨k', v⟩ := hd
    simp only [List.cons_append, listGet]
    split_ifs with h
    · rfl
    · exact ih

theorem listGet_eq_none_iff {α : Type} (k : String) (l : List (String × α)) :
    listGet k l = none ↔ k ∉ l.map Prod.fst := by
  induction l with
  | nil => simp [listGet]
  | cons hd tl ih =>
    obtain ⟨k', v⟩ := hd
    simp only [listGet, List.map_cons, List.mem_cons]
    split_ifs with h
    · subst h
      simp
    · simp only [ih]
      constructor
      · intro hk hc
        rcases hc with hc | hc
        · exact h hc.symm
        · exact hk hc
      · intro hk hc
        exact hk (Or.inr hc)

/-- Per-key behaviour of the propagate loop: already-rebuilt entries are
preserved, and every existing child ends up merged with some bare delete
bounded by `B`. -/
theorem propFoldGet (g : Nat) (s0 : List String) (vo vn : Vis) (B : Nat) :
    ∀ (ks : List (String × Node)) (acc : PropAcc),
      delegFreeL ks →
      (∃ δc, δc ≤ B ∧ acc.pdiff = .mk ⟨0, δc⟩ .Null none 0) →
      sizeL ks < g →
      ∀ k,
        (∀ x, listGet k acc.children = some x →
          listGet k ((ks.foldl (fun a kc => propStepAcc a kc.1
            (mergeF g (s0 ++ [kc.1]) kc.2 a.pdiff vo vn)) acc).children) = some x) ∧
        (listGet k acc.children = none →
          ((listGet k ks = none →
            listGet k ((ks.foldl (fun a kc => propStepAcc a kc.1
              (mergeF g (s0 ++ [kc.1]) kc.2 a.pdiff vo vn)) acc).children) = none) ∧
           (∀ c, listGet k ks = some c → ∃ δ, δ ≤ B ∧
             listGet k ((ks.foldl (fun a kc => propStepAcc a kc.1
               (mergeF g (s0 ++ [kc.1]) kc.2 a.pdiff vo vn)) acc).children) =
               some (mN c (.mk ⟨0, δ⟩ .Null none 0))))) := by
  intro ks
  induction ks with
  | nil =>
    intro acc _ _ _ k
    refine ⟨fun x hx => hx, fun hn => ⟨fun _ => hn, fun c hc => ?_⟩⟩
    simp [listGet] at hc
  | cons hd tl ih =>
    intro acc hdf hps hsz k
    obtain ⟨k0, c0⟩ := hd
    obtain ⟨δc, hδc, hpd⟩ := hps
    simp only [List.foldl_cons]
    simp only [sizeL] at hsz
    have hfuel : c0.sizeN + (Node.mk ⟨0, δc⟩ .Null none 0).sizeN ≤ g := by
      have : (Node.mk ⟨0, δc⟩ .Null none 0).sizeN = 1 := rfl
      omega
    have hmn : (mergeF g (s0 ++ [k0]) c0 acc.pdiff vo vn).node =
        mN c0 (.mk ⟨0, δc⟩ .Null none 0) := by
      rw [hpd]
      exact mN_eq g (s0 ++ [k0]) c0 _ vo vn hfuel hdf.1 rfl trivial
    have hshape : PShape (mergeF g (s0 ++ [k0]) c0 acc.pdiff vo vn).diff := by
      apply mergeF_pshape
      rw [hpd]
      exact ⟨rfl, rfl, rfl, rfl⟩
    have hdel : (mergeF g (s0 ++ [k0]) c0 acc.pdiff vo vn).diff.vis.deleted ≤ δc := by
      rw [hpd]
      exact mergeF_diff_deleted_le g (s0 ++ [k0]) c0 ⟨0, δc⟩ .Null 0 vo vn
    have hps' : ∃ δc', δc' ≤ B ∧
        (propStepAcc acc k0 (mergeF g (s0 ++ [k0]) c0 acc.pdiff vo vn)).pdiff =
          .mk ⟨0, δc'⟩ .Null none 0 := by
      refine ⟨(mergeF g (s0 ++ [k0]) c0 acc.pdiff vo vn).diff.vis.deleted,
        by omega, ?_⟩
      simp only [propStepAcc]
      exact PShape_mk hshape
    have hih := ih (propStepAcc acc k0 (mergeF g (s0 ++ [k0]) c0 acc.pdiff vo vn))
      hdf.2 hps' (by omega) k
    by_cases hk : k0 = k
    · subst hk
      refine ⟨?_, ?_⟩
      · intro x hx
        apply (hih.1 x)
        simp only [propStepAcc, listGet_append, hx]
      · intro hn
        refine ⟨fun hcontra => ?_, fun c hc => ?_⟩
        · simp [listGet] at hcontra
        · have hc0 : c = c0 := by
            simp only [listGet, if_pos rfl] at hc
            exact (Option.some_injective _ hc).symm
          subst hc0
          refine ⟨δc, hδc, ?_⟩
          rw [← hmn]
          apply (hih.1 _)
          simp [propStepAcc, listGet_append, hn, listGet]
    · refine ⟨?_, ?_⟩
      · intro x hx
        apply (hih.1 x)
        simp only [propStepAcc, listGet_append, hx]
      · intro hn
        have hn' : listGet k (propStepAcc acc k0
            (mergeF g (s0 ++ [k0]) c0 acc.pdiff vo vn)).children = none := by
          simp only [propStepAcc, listGet_append, hn, listGet, if_neg hk]
        refine ⟨fun hnone => ?_, fun c hc => ?_⟩
        · have : listGet k tl = none := by
            simp only [listGet, if_neg hk] at hnone
            exact hnone
          exact (hih.2 hn').1 this
        · have : listGet k tl = some c := by
            simp only [listGet, if_neg hk] at hc
            exact hc
          exact (hih.2 hn').2 c this

/-- Per-key behaviour of the diff-key loop: a key the diff mentions ends up
as the canonical merge of the existing child (if any) with the sub-diff, a
freshly created child being kept exactly when it is not a no-op. -/
theorem keysFoldGet (g : Nat) (s0 : List String) (vo vn : Vis) :
    ∀ (dks : List (String × Node)) (acc : KeysAcc),
      delegFreeL acc.nodeKeys → delegFreeL dks → nodupKeysL dks →
      (dks.map Prod.fst).Nodup →
      sizeL acc.nodeKeys + sizeL dks < g →
      ∀ k dk, listGet k dks = some dk →
        (∀ c, listGet k acc.nodeKeys = some c →
          listGet k ((dks.foldl (fun a kd =>
            match listGet kd.1 a.nodeKeys with
            | some child => keysStepOcc a kd.1
                (mergeF g (s0 ++ [kd.1]) child kd.2 vo vn)
            | none => keysStepVac a kd.1
                (mergeF g (s0 ++ [kd.1]) Node.default0 kd.2 vo vn)) acc).nodeKeys) =
            some (mN c dk)) ∧
        (listGet k acc.nodeKeys = none →
          listGet k ((dks.foldl (fun a kd =>
            match listGet kd.1 a.nodeKeys with
            | some child => keysStepOcc a kd.1
                (mergeF g (s0 ++ [kd.1]) child kd.2 vo vn)
            | none => keysStepVac a kd.1
                (mergeF g (s0 ++ [kd.1]) Node.default0 kd.2 vo vn)) acc).nodeKeys) =
            (if (mN Node.default0 dk).is_noop = true then none
             else some (mN Node.default0 dk))) := by
  intro dks
  induction dks with
  | nil =>
    intro acc _ _ _ _ _ k dk hdk
    simp [listGet] at hdk
  | cons hd tl ih =>
    intro acc hdfn hdfd hndd hnodup hsz k dk hdk
    obtain ⟨k0, dk0⟩ := hd
    obtain ⟨hkt, hnodup'⟩ := List.nodup_cons.mp hnodup
    simp only [List.foldl_cons]
    simp only [sizeL] at hsz
    by_cases hk : k0 = k
    · -- the queried key is processed right now; later steps leave it alone
      subst hk
      have hdk0 : dk = dk0 := by
        simp only [listGet, if_pos rfl] at hdk
        exact (Option.some_injective _ hdk).symm
      subst hdk0
      rcases hg : listGet k0 acc.nodeKeys with _ | c
      · -- vacant creation
        simp only [hg]
        have hfuel : Node.default0.sizeN + dk.sizeN ≤ g := by
          have : Node.default0.sizeN = 1 := rfl
          omega
        have hmn : (mergeF g (s0 ++ [k0]) Node.default0 dk vo vn).node =
            mN Node.default0 dk :=
          mN_eq g (s0 ++ [k0]) Node.default0 dk vo vn hfuel rfl hdfd.1 hndd.1
        have hest := mergeF_establishes g (s0 ++ [k0]) Node.default0 dk vo vn
          hfuel rfl hdfd.1 hndd.1
        have hsizeb := mergeF_size g (s0 ++ [k0]) Node.default0 dk vo vn
        have hdfacc : delegFreeL (keysStepVac acc k0
            (mergeF g (s0 ++ [k0]) Node.default0 dk vo vn)).nodeKeys := by
          simp only [keysStepVac]
          split_ifs
          · exact hdfn
          · exact delegFreeL_listInsert hdfn hest.2.1
        have hszacc : sizeL (keysStepVac acc k0
            (mergeF g (s0 ++ [k0]) Node.default0 dk vo vn)).nodeKeys +
            sizeL tl < g := by
          simp only [keysStepVac]
          split_ifs
          · omega
          · have hins := sizeL_listInsert_le k0
              (mergeF g (s0 ++ [k0]) Node.default0 dk vo vn).node acc.nodeKeys
            have hd0 : Node.default0.sizeN = 1 := rfl
            omega
        have hpers := (keysFoldEst g s0 vo vn
          (fun s' n' d' vo' vn' h1 h2 h3 h4 =>
            mergeF_establishes g s' n' d' vo' vn' h1 h2 h3 h4) tl
          (keysStepVac acc k0 (mergeF g (s0 ++ [k0]) Node.default0 dk vo vn))
          hdfacc hdfd.2 hndd.2 hnodup' hszacc _ rfl).2.1
        refine ⟨fun c hc => Option.noConfusion hc, fun _ => ?_⟩
        rw [hpers k0 hkt]
        simp only [keysStepVac, hmn]
        split_ifs with h
        · exact hg
        · exact listGet_listInsert_self _ _ _
      · -- occupied merge
        simp only [hg]
        have hcs := sizeN_le_sizeL_of_get hg
        have hfuel : c.sizeN + dk.sizeN ≤ g := by omega
        have hcf : c.delegFree := delegFreeL_mem hdfn (listGet_mem hg)
        have hmn : (mergeF g (s0 ++ [k0]) c dk vo vn).node = mN c dk :=
          mN_eq g (s0 ++ [k0]) c dk vo vn hfuel hcf hdfd.1 hndd.1
        have hest := mergeF_establishes g (s0 ++ [k0]) c dk vo vn
          hfuel hcf hdfd.1 hndd.1
        have hsizeb := mergeF_size g (s0 ++ [k0]) c dk vo vn
        have hset := sizeL_listSet (mergeF g (s0 ++ [k0]) c dk vo vn).node hg
        have hpers := (keysFoldEst g s0 vo vn
          (fun s' n' d' vo' vn' h1 h2 h3 h4 =>
            mergeF_establishes g s' n' d' vo' vn' h1 h2 h3 h4) tl
          (keysStepOcc acc k0 (mergeF g (s0 ++ [k0]) c dk vo vn))
          (delegFreeL_listSet hdfn hest.2.1) hdfd.2 hndd.2 hnodup'
          (by simp only [keysStepOcc]; omega) _ rfl).2.1
        refine ⟨fun c' hc' => ?_, fun hnone => Option.noConfusion hnone⟩
        have hcc : c' = c := (Option.some_injective _ hc').symm
        subst hcc
        rw [hpers k0 hkt]
        simp only [keysStepOcc, ← hmn]
        exact listGet_listSet_self _ hg
    · -- the queried key comes later in the diff
      have hdk' : listGet k tl = some dk := by
        simp only [listGet, if_neg hk] at hdk
        exact hdk
      rcases hg : listGet k0 acc.nodeKeys with _ | c0
      · simp only [hg]
        have hfuel : Node.default0.sizeN + dk0.sizeN ≤ g := by
          have : Node.default0.sizeN = 1 := rfl
          omega
        have hest := mergeF_establishes g (s0 ++ [k0]) Node.default0 dk0 vo vn
          hfuel rfl hdfd.1 hndd.1
        have hsizeb := mergeF_size g (s0 ++ [k0]) Node.default0 dk0 vo vn
        have hdfacc : delegFreeL (keysStepVac acc k0
            (mergeF g (s0 ++ [k0]) Node.default0 dk0 vo vn)).nodeKeys := by
          simp only [keysStepVac]
          split_ifs
          · exact hdfn
          · exact delegFreeL_listInsert hdfn hest.2.1
        have hszacc : sizeL (keysStepVac acc k0
            (mergeF g (s0 ++ [k0]) Node.default0 dk0 vo vn)).nodeKeys +
            sizeL tl < g := by
          simp only [keysStepVac]
          split_ifs
          · omega
          · have hins := sizeL_listInsert_le k0
              (mergeF g (s0 ++ [k0]) Node.default0 dk0 vo vn).node acc.nodeKeys
            have hd0 : Node.default0.sizeN = 1 := rfl
            omega
        have hih := ih (keysStepVac acc k0
            (mergeF g (s0 ++ [k0]) Node.default0 dk0 vo vn))
          hdfacc hdfd.2 hndd.2 hnodup' hszacc k dk hdk'
        have hacc : listGet k (keysStepVac acc k0
            (mergeF g (s0 ++ [k0]) Node.default0 dk0 vo vn)).nodeKeys =
            listGet k acc.nodeKeys := by
          simp only [keysStepVac]
          split_ifs
          · rfl
          · exact listGet_listInsert_ne _ _ hk
        refine ⟨fun c hc => hih.1 c (by rw [hacc]; exact hc),
          fun hn => hih.2 (by rw [hacc]; exact hn)⟩
      · simp only [hg]
        have hcs := sizeN_le_sizeL_of_get hg
        have hfuel : c0.sizeN + dk0.sizeN ≤ g := by omega
        have hcf : c0.delegFree := delegFreeL_mem hdfn (listGet_mem hg)
        have hest := mergeF_establishes g (s0 ++ [k0]) c0 dk0 vo vn
          hfuel hcf hdfd.1 hndd.1
        have hsizeb := mergeF_size g (s0 ++ [k0]) c0 dk0 vo vn
        have hset := sizeL_listSet (mergeF g (s0 ++ [k0]) c0 dk0 vo vn).node hg
        have hih := ih (keysStepOcc acc k0 (mergeF g (s0 ++ [k0]) c0 dk0 vo vn))
          (delegFreeL_listSet hdfn hest.2.1) hdfd.2 hndd.2 hnodup'
          (by simp only [keysStepOcc]; omega) k dk hdk'
        have hacc : listGet k (keysStepOcc acc k0
            (mergeF g (s0 ++ [k0]) c0 dk0 vo vn)).nodeKeys =
            listGet k acc.nodeKeys := by
          simp only [keysStepOcc]
          exact listGet_listSet_ne _ _ hk
        refine ⟨fun c hc => hih.1 c (by rw [hacc]; exact hc),
          fun hn => hih.2 (by rw [hacc]; exact hn)⟩

/-- Per-key closed form of the canonical merge: a child of the result is
the canonical merge of the existing child (if any) with a bare bounded
delete (the possibly corrupted propagate delta) and then the diff's
sub-diff (if any); a freshly created child is kept exactly when non-noop. -/
theorem mN_children (n d : Node) (hn : n.delegFree) (hd : d.delegFree)
    (hdn : d.nodupKeys) (k : String) :
    (match listGet k (n.keys.getD []), listGet k (d.keys.getD []) with
     | none, none => listGet k ((mN n d).keys.getD []) = none
     | some c, none => ∃ δ, δ ≤ (mN n d).vis.deleted ∧
         listGet k ((mN n d).keys.getD []) =
           some (mN c (.mk ⟨0, δ⟩ .Null none 0))
     | none, some dk =>
         listGet k ((mN n d).keys.getD []) =
           (if (mN Node.default0 dk).is_noop = true then none
            else some (mN Node.default0 dk))
     | some c, some dk => ∃ δ, δ ≤ (mN n d).vis.deleted ∧
         listGet k ((mN n d).keys.getD []) =
           some (mN (mN c (.mk ⟨0, δ⟩ .Null none 0)) dk)) := by
  obtain ⟨g, hgf⟩ : ∃ g, n.sizeN + d.sizeN = g + 1 :=
    ⟨n.sizeN + d.sizeN - 1, by
      have := sizeN_pos n
      have := sizeN_pos d
      omega⟩
  have hM : (mN n d) = (mergeF (g + 1) [] n d ⟨0, 0⟩ ⟨0, 0⟩).node := by
    unfold mN
    rw [hgf]
  rw [hM]
  obtain ⟨nvis, nvalue, nkeys, ndeleg⟩ := n
  obtain ⟨dvis, dvalue, dkeys, ddeleg⟩ := d
  have hnd0 : ndeleg = 0 := Node.delegFree_deleg hn
  have hdd0 : ddeleg = 0 := Node.delegFree_deleg hd
  subst hnd0 hdd0
  have hnkf : delegFreeL (nkeys.getD []) := Node.delegFree_keysL hn
  have hdkf : delegFreeL (dkeys.getD []) := Node.delegFree_keysL hd
  have hdkn := Node.nodupKeys_keysL hdn
  simp only [mergeF]
  have hvp := mergeValueStep_propagate [] nvis dvis nvalue dvalue
  generalize hS2 : mergeValueStep [] nvis nvalue dvis dvalue = S2
  rw [hS2] at hvp
  obtain ⟨nv1, nu1, du1, dv1, ch1, pr1, cc1⟩ := S2
  dsimp only at hvp ⊢
  have hdp := mergeDeleteStep_propagate_bound nvis nu1 nv1 dvis pr1 hvp
  generalize hS3 : mergeDeleteStep nvis nu1 nv1 dvis pr1 = S3
  rw [hS3] at hdp
  obtain ⟨nd1, nv2, dd1, pr3⟩ := S3
  dsimp only at hdp ⊢
  generalize hV : (⟨0, 0⟩ : Vis).descend nvis = V
  generalize hW : (⟨0, 0⟩ : Vis).descend ⟨nu1, nd1⟩ = W
  rcases hdp with hpr | ⟨pd, hpdb, hpr⟩ <;> subst hpr <;>
    rcases nkeys with _ | nks <;> rcases dkeys with _ | dks <;>
    simp only [Node.sizeN, Option.getD_some, Option.getD_none]
      at hgf hnkf hdkf hdkn <;>
    simp only [Option.getD_some, Option.getD_none, mergeDelegStep_zero,
      mergeDelegDataStep_even, Nat.zero_mod, Node.keys, Node.vis]
  · -- no propagate, no keys on either side
    simp [listGet]
  · -- no propagate, no node keys, diff keys
    rcases hdkk : listGet k dks with _ | dk <;>
      simp only [listGet, hdkk, Option.getD_some, Option.getD_none]
    · have hpers := (keysFoldEst g [] V W
        (fun s' n' d' vo' vn' h1 h2 h3 h4 =>
          mergeF_establishes g s' n' d' vo' vn' h1 h2 h3 h4) dks
        ⟨[], [], none, [], cc1⟩ trivial hdkf hdkn.1 hdkn.2
        (by dsimp only; simp only [sizeL]; omega) _ rfl).2.1
      rw [hpers k ((listGet_eq_none_iff _ _).mp hdkk)]
      rfl
    · exact (keysFoldGet g [] V W dks ⟨[], [], none, [], cc1⟩ trivial hdkf
        hdkn.1 hdkn.2 (by dsimp only; simp only [sizeL]; omega) k dk hdkk).2 rfl
  · -- no propagate, node keys, no diff keys
    rcases hnk : listGet k nks with _ | c <;>
      simp only [listGet, hnk, Option.getD_some, Option.getD_none]
    have hcf : c.delegFree := delegFreeL_mem hnkf (listGet_mem hnk)
    exact ⟨0, Nat.zero_le _, by rw [mN_inert c .Null hcf]⟩
  · -- no propagate, node keys, diff keys
    rcases hnk : listGet k nks with _ | c <;>
      rcases hdkk : listGet k dks with _ | dk <;>
      simp only [listGet, hnk, hdkk, Option.getD_some, Option.getD_none]
    · have hpers := (keysFoldEst g [] V W
        (fun s' n' d' vo' vn' h1 h2 h3 h4 =>
          mergeF_establishes g s' n' d' vo' vn' h1 h2 h3 h4) dks
        ⟨nks, [], none, [], cc1⟩ hnkf hdkf hdkn.1 hdkn.2
        (by dsimp only; omega) _ rfl).2.1
      rw [hpers k ((listGet_eq_none_iff _ _).mp hdkk)]
      exact hnk
    · exact (keysFoldGet g [] V W dks ⟨nks, [], none, [], cc1⟩ hnkf hdkf
        hdkn.1 hdkn.2 (by dsimp only; omega) k dk hdkk).2 hnk
    · have hpers := (keysFoldEst g [] V W
        (fun s' n' d' vo' vn' h1 h2 h3 h4 =>
          mergeF_establishes g s' n' d' vo' vn' h1 h2 h3 h4) dks
        ⟨nks, [], none, [], cc1⟩ hnkf hdkf hdkn.1 hdkn.2
        (by dsimp only; omega) _ rfl).2.1
      have hcf : c.delegFree := delegFreeL_mem hnkf (listGet_mem hnk)
      refine ⟨0, Nat.zero_le _, ?_⟩
      rw [hpers k ((listGet_eq_none_iff _ _).mp hdkk),
        mN_inert c .Null hcf]
      exact hnk
    · have hcf : c.delegFree := delegFreeL_mem hnkf (listGet_mem hnk)
      refine ⟨0, Nat.zero_le _, ?_⟩
      rw [mN_inert c .Null hcf]
      exact (keysFoldGet g [] V W dks ⟨nks, [], none, [], cc1⟩ hnkf hdkf
        hdkn.1 hdkn.2 (by dsimp only; omega) k dk hdkk).1 c hnk
  · -- propagate raised, no keys on either side
    simp [listGet]
  · -- propagate raised, no node keys, diff keys
    rcases hdkk : listGet k dks with _ | dk <;>
      simp only [listGet, hdkk, Option.getD_some, Option.getD_none]
    · have hpers := (keysFoldEst g [] V W
        (fun s' n' d' vo' vn' h1 h2 h3 h4 =>
          mergeF_establishes g s' n' d' vo' vn' h1 h2 h3 h4) dks
        ⟨[], [], none, [], cc1⟩ trivial hdkf hdkn.1 hdkn.2
        (by dsimp only; simp only [sizeL]; omega) _ rfl).2.1
      rw [hpers k ((listGet_eq_none_iff _ _).mp hdkk)]
      rfl
    · exact (keysFoldGet g [] V W dks ⟨[], [], none, [], cc1⟩ trivial hdkf
        hdkn.1 hdkn.2 (by dsimp only; simp only [sizeL]; omega) k dk hdkk).2 rfl
  · -- propagate raised over the node's children, no diff keys
    rcases hnk : listGet k nks with _ | c <;>
      simp only [listGet, hnk, Option.getD_some, Option.getD_none]
    · exact ((propFoldGet g [] V W pd nks
        ⟨[], .mk ⟨0, pd⟩ .Null none 0, none, [], cc1⟩ hnkf
        ⟨pd, le_refl _, rfl⟩ (by omega) k).2 rfl).1 hnk
    · obtain ⟨δ, hδ, hres⟩ := ((propFoldGet g [] V W pd nks
        ⟨[], .mk ⟨0, pd⟩ .Null none 0, none, [], cc1⟩ hnkf
        ⟨pd, le_refl _, rfl⟩ (by omega) k).2 rfl).2 c hnk
      exact ⟨δ, by omega, hres⟩
  · -- propagate raised over the node's children, then diff keys
    obtain ⟨hpe, hpf⟩ := propFoldEst g [] V W
      (fun s' n' d' vo' vn' h1 h2 h3 h4 =>
        mergeF_establishes g s' n' d' vo' vn' h1 h2 h3 h4) nks
      ⟨[], .mk ⟨0, pd⟩ .Null none 0, none, [], cc1⟩ hnkf
      ⟨rfl, rfl, rfl, rfl⟩ trivial (by omega) _ rfl
    have hpsz := propFold_size g [] V W
      (fun s' n' d' vo' vn' => mergeF_size g s' n' d' vo' vn') nks
      ⟨[], .mk ⟨0, pd⟩ .Null none 0, none, [], cc1⟩ rfl
    have hP := propFoldGet g [] V W pd nks
      ⟨[], .mk ⟨0, pd⟩ .Null none 0, none, [], cc1⟩ hnkf
      ⟨pd, le_refl _, rfl⟩ (by omega) k
    rcases hnk : listGet k nks with _ | c <;>
      rcases hdkk : listGet k dks with _ | dk <;>
      simp only [listGet, hnk, hdkk, Option.getD_some, Option.getD_none]
    · have hpers := (keysFoldEst g [] V W
        (fun s' n' d' vo' vn' h1 h2 h3 h4 =>
          mergeF_establishes g s' n' d' vo' vn' h1 h2 h3 h4) dks
        ⟨(List.foldl (fun a kc => propStepAcc a kc.1
            (mergeF g ([] ++ [kc.1]) kc.2 a.pdiff V W))
          ⟨[], .mk ⟨0, pd⟩ .Null none 0, none, [], cc1⟩ nks).children, [],
         (List.foldl (fun a kc => propStepAcc a kc.1
            (mergeF g ([] ++ [kc.1]) kc.2 a.pdiff V W))
          ⟨[], .mk ⟨0, pd⟩ .Null none 0, none, [], cc1⟩ nks).ukeys,
         (List.foldl (fun a kc => propStepAcc a kc.1
            (mergeF g ([] ++ [kc.1]) kc.2 a.pdiff V W))
          ⟨[], .mk ⟨0, pd⟩ .Null none 0, none, [], cc1⟩ nks).externals,
         (List.foldl (fun a kc => propStepAcc a kc.1
            (mergeF g ([] ++ [kc.1]) kc.2 a.pdiff V W))
          ⟨[], .mk ⟨0, pd⟩ .Null none 0, none, [], cc1⟩ nks).conflicts⟩
        hpe hdkf hdkn.1 hdkn.2
        (by dsimp only; simp only [sizeL] at hpsz; omega) _ rfl).2.1
      rw [hpers k ((listGet_eq_none_iff _ _).mp hdkk)]
      exact (hP.2 rfl).1 hnk
    · rw [(keysFoldGet g [] V W dks
        ⟨(List.foldl (fun a kc => propStepAcc a kc.1
            (mergeF g ([] ++ [kc.1]) kc.2 a.pdiff V W))
          ⟨[], .mk ⟨0, pd⟩ .Null none 0, none, [], cc1⟩ nks).children, [],
         (List.foldl (fun a kc => propStepAcc a kc.1
            (mergeF g ([] ++ [kc.1]) kc.2 a.pdiff V W))
          ⟨[], .mk ⟨0, pd⟩ .Null none 0, none, [], cc1⟩ nks).ukeys,
         (List.foldl (fun a kc => propStepAcc a kc.1
            (mergeF g ([] ++ [kc.1]) kc.2 a.pdiff V W))
          ⟨[], .mk ⟨0, pd⟩ .Null none 0, none, [], cc1⟩ nks).externals,
         (List.foldl (fun a kc => propStepAcc a kc.1
            (mergeF g ([] ++ [kc.1]) kc.2 a.pdiff V W))
          ⟨[], .mk ⟨0, pd⟩ .Null none 0, none, [], cc1⟩ nks).conflicts⟩
        hpe hdkf hdkn.1 hdkn.2
        (by dsimp only; simp only [sizeL] at hpsz; omega) k dk hdkk).2
        ((hP.2 rfl).1 hnk)]
    · have hpers := (keysFoldEst g [] V W
        (fun s' n' d' vo' vn' h1 h2 h3 h4 =>
          mergeF_establishes g s' n' d' vo' vn' h1 h2 h3 h4) dks
        ⟨(List.foldl (fun a kc => propStepAcc a kc.1
            (mergeF g ([] ++ [kc.1]) kc.2 a.pdiff V W))
          ⟨[], .mk ⟨0, pd⟩ .Null none 0, none, [], cc1⟩ nks).children, [],
         (List.foldl (fun a kc => propStepAcc a kc.1
            (mergeF g ([] ++ [kc.1]) kc.2 a.pdiff V W))
          ⟨[], .mk ⟨0, pd⟩ .Null none 0, none, [], cc1⟩ nks).ukeys,
         (List.foldl (fun a kc => propStepAcc a kc.1
            (mergeF g ([] ++ [kc.1]) kc.2 a.pdiff V W))
          ⟨[], .mk ⟨0, pd⟩ .Null none 0, none, [], cc1⟩ nks).externals,
         (List.foldl (fun a kc => propStepAcc a kc.1
            (mergeF g ([] ++ [kc.1]) kc.2 a.pdiff V W))
          ⟨[], .mk ⟨0, pd⟩ .Null none 0, none, [], cc1⟩ nks).conflicts⟩
        hpe hdkf hdkn.1 hdkn.2
        (by dsimp only; simp only [sizeL] at hpsz; omega) _ rfl).2.1
      obtain ⟨δ, hδ, hres⟩ := (hP.2 rfl).2 c hnk
      refine ⟨δ, by omega, ?_⟩
      rw [hpers k ((listGet_eq_none_iff _ _).mp hdkk)]
      exact hres
    · obtain ⟨δ, hδ, hres⟩ := (hP.2 rfl).2 c hnk
      refine ⟨δ, by omega, ?_⟩
      exact (keysFoldGet g [] V W dks
        ⟨(List.foldl (fun a kc => propStepAcc a kc.1
            (mergeF g ([] ++ [kc.1]) kc.2 a.pdiff V W))
          ⟨[], .mk ⟨0, pd⟩ .Null none 0, none, [], cc1⟩ nks).children, [],
         (List.foldl (fun a kc => propStepAcc a kc.1
            (mergeF g ([] ++ [kc.1]) kc.2 a.pdiff V W))
          ⟨[], .mk ⟨0, pd⟩ .Null none 0, none, [], cc1⟩ nks).ukeys,
         (List.foldl (fun a kc => propStepAcc a kc.1
            (mergeF g ([] ++ [kc.1]) kc.2 a.pdiff V W))
          ⟨[], .mk ⟨0, pd⟩ .Null none 0, none, [], cc1⟩ nks).externals,
         (List.foldl (fun a kc => propStepAcc a kc.1
            (mergeF g ([] ++ [kc.1]) kc.2 a.pdiff V W))
          ⟨[], .mk ⟨0, pd⟩ .Null none 0, none, [], cc1⟩ nks).conflicts⟩
        hpe hdkf hdkn.1 hdkn.2
        (by dsimp only; simp only [sizeL] at hpsz; omega) k dk hdkk).1
        (mN c (.mk ⟨0, δ⟩ .Null none 0)) hres

/-- Closed form of `Vis::descend`. -/
theorem descend_eq (w v : Vis) :
    w.descend v = ⟨min w.updated v.updated, max w.deleted v.deleted⟩ := by
  simp only [Vis.descend, Vis.mk.injEq]
  constructor <;> split_ifs <;> omega

/-- One step of `visibleAt` along a non-empty path routes through the child
lookup. -/
theorem visibleAt_cons (t : Node) (w : Vis) (k : String) (rest : List String) :
    t.visibleAt w (k :: rest) =
      (match listGet k (t.keys.getD []) with
       | none => none
       | some c => c.visibleAt (w.descend t.vis) rest) := by
  obtain ⟨v, val, ks, dg⟩ := t
  cases ks with
  | none => rfl
  | some ks =>
    rcases hg : listGet k ks with _ | c <;>
      simp only [Node.visibleAt, Node.visAt, Node.valueAt, Node.keys,
        Option.getD_some, hg]

theorem uSet_root_mem (t : Node) : t.vis.updated ∈ t.uSet := by
  obtain ⟨v, val, ks, dg⟩ := t
  cases ks with
  | none => exact List.mem_singleton.mpr rfl
  | some ks => exact List.mem_cons_self _ _

theorem uSetL_sub {ks : List (String × Node)} {k : String} {c : Node}
    (h : (k, c) ∈ ks) : ∀ x, x ∈ c.uSet → x ∈ uSetL ks := by
  induction ks with
  | nil => cases h
  | cons hd tl ih =>
    obtain ⟨k', c'⟩ := hd
    intro x hx
    rcases List.mem_cons.mp h with he | h'
    · cases he
      exact List.mem_append.mpr (Or.inl hx)
    · exact List.mem_append.mpr (Or.inr (ih h' x hx))

theorem uSet_child_sub {t c : Node} {k : String}
    (h : listGet k (t.keys.getD []) = some c) :
    ∀ x, x ∈ c.uSet → x ∈ t.uSet := by
  obtain ⟨v, val, ks, dg⟩ := t
  cases ks with
  | none => simp [Node.keys, listGet] at h
  | some ks =>
    simp only [Node.keys, Option.getD_some] at h
    intro x hx
    exact List.mem_cons_of_mem _ (uSetL_sub (listGet_mem h) x hx)

/-- Two successive scalar merge steps commute on the resulting value when
the two diffs' updated timestamps differ or are both zero, provided the
final timestamps leave the node visible. -/
theorem scalarVal_swap (nvis avis bvis : Vis) (nval aval bval : Value)
    (hdisj : avis.updated ≠ bvis.updated ∨
      (avis.updated = 0 ∧ bvis.updated = 0))
    (hvis : max (max nvis.deleted avis.deleted) bvis.deleted <
            max (max nvis.updated avis.updated) bvis.updated) :
    scalarVal ⟨max nvis.updated avis.updated, max nvis.deleted avis.deleted⟩
        (scalarVal nvis nval avis aval) bvis bval =
    scalarVal ⟨max nvis.updated bvis.updated, max nvis.deleted bvis.deleted⟩
        (scalarVal nvis nval bvis bval) avis aval := by
  obtain ⟨nu, nd⟩ := nvis
  obtain ⟨au, ad⟩ := avis
  obtain ⟨bu, bd⟩ := bvis
  dsimp only at hdisj hvis
  rcases hdisj with hdisj | ⟨ha0, hb0⟩ <;>
    simp only [scalarVal] <;> dsimp only <;>
    split_ifs <;> first | rfl | omega

/-- Transitivity, symmetry, monotonicity and reflexivity of `R`, at the
canonical size bound. -/
theorem Rt {D : Nat} {t1 t2 t3 : Node} (h1 : R D t1 t2) (h2 : R D t2 t3) :
    R D t1 t3 := R_trans t1.sizeN t1 t2 t3 (le_refl _) D h1 h2

theorem Rs {D : Nat} {t1 t2 : Node} (h : R D t1 t2) : R D t2 t1 :=
  R_symm t1.sizeN t1 t2 (le_refl _) D h

theorem Rm {D D' : Nat} {t1 t2 : Node} (hDD : D ≤ D') (h : R D t1 t2) :
    R D' t1 t2 := R_mono t1.sizeN t1 t2 (le_refl _) D D' hDD h

theorem Rr (t : Node) (D : Nat) : R D t t := R_refl t.sizeN t (le_refl _) D

/-- Absorption: applying a bare bounded delete (the shape of every
propagated tombstone) to a delegation-free tree is invisible below the
floor. -/
theorem R_absorb : ∀ (m : Nat) (c : Node), c.sizeN ≤ m → c.delegFree →
    ∀ D δ, δ ≤ D → R D (mN c (Node.mk ⟨0, δ⟩ .Null none 0)) c := by
  intro m
  induction m with
  | zero =>
    intro c h
    have := sizeN_pos c
    omega
  | succ m ih =>
    intro c hsz hcf D δ hδ
    have hdf : (Node.mk ⟨0, δ⟩ .Null none 0).delegFree := rfl
    have hroot := mN_root hcf hdf
    unfold R
    refine ⟨?_, ?_, ?_, ?_, ?_⟩
    · rw [hroot.1]
      simp only [Node.vis]
      omega
    · rw [hroot.1]
      simp only [Node.vis]
      omega
    · rw [hroot.1, hroot.2.1]
      simp only [Node.vis]
      intro hvis
      unfold scalarVal
      dsimp only
      split_ifs <;> first | rfl | omega
    · intro k
      obtain ⟨cv, cval, cks, cdg⟩ := c
      have hch := mN_children (Node.mk cv cval cks cdg)
        (Node.mk ⟨0, δ⟩ .Null none 0) hcf hdf trivial k
      simp only [Node.keys, Option.getD_none, listGet] at hch
      rcases hck : listGet k (cks.getD []) with _ | ck <;>
        simp only [hck] at hch
      · have hch' : listGet k ((mN (Node.mk cv cval cks cdg)
            (Node.mk ⟨0, δ⟩ .Null none 0)).keys.getD []) = none := hch
        have hck' : listGet k ((Node.mk cv cval cks cdg).keys.getD []) =
            none := hck
        rw [hch', hck']
      · obtain ⟨δ', hδ', he⟩ := hch
        have he' : listGet k ((mN (Node.mk cv cval cks cdg)
            (Node.mk ⟨0, δ⟩ .Null none 0)).keys.getD []) =
            some (mN ck (Node.mk ⟨0, δ'⟩ .Null none 0)) := he
        have hck' : listGet k ((Node.mk cv cval cks cdg).keys.getD []) =
            some ck := hck
        rw [he', hck']
        rfl
    · intro k c1 c2 h1 h2
      obtain ⟨cv, cval, cks, cdg⟩ := c
      have hch := mN_children (Node.mk cv cval cks cdg)
        (Node.mk ⟨0, δ⟩ .Null none 0) hcf hdf trivial k
      simp only [Node.keys, Option.getD_none, listGet] at hch
      rcases hck : listGet k (cks.getD []) with _ | ck <;>
        simp only [hck] at hch
      · have hch' : listGet k ((mN (Node.mk cv cval cks cdg)
            (Node.mk ⟨0, δ⟩ .Null none 0)).keys.getD []) = none := hch
        rw [hch'] at h1
        cases h1
      · obtain ⟨δ', hδ', he⟩ := hch
        have he' : listGet k ((mN (Node.mk cv cval cks cdg)
            (Node.mk ⟨0, δ⟩ .Null none 0)).keys.getD []) =
            some (mN ck (Node.mk ⟨0, δ'⟩ .Null none 0)) := he
        have hck' : listGet k ((Node.mk cv cval cks cdg).keys.getD []) =
            some ck := hck
        rw [he'] at h1
        rw [hck'] at h2
        injection h1 with h1e
        injection h2 with h2e
        subst h1e h2e
        have hlt := sizeN_child_lt (t := Node.mk cv cval cks cdg) hck'
        exact ih ck (by omega)
          (delegFreeL_mem (Node.delegFree_keysL hcf) (listGet_mem hck)) _ δ'
          (le_trans hδ' (le_max_right _ _))

/-- Congruence: merging the same delegation-free diff into observably
equivalent trees yields observably equivalent trees. -/
theorem R_congr : ∀ (m : Nat) (t1 t2 e : Node), t1.sizeN + e.sizeN ≤ m →
    t1.delegFree → t2.delegFree → e.delegFree → e.nodupKeys →
    ∀ D, R D t1 t2 → R D (mN t1 e) (mN t2 e) := by
  intro m
  induction m with
  | zero =>
    intro t1 t2 e h
    have := sizeN_pos t1
    have := sizeN_pos e
    omega
  | succ m ih =>
    intro t1 t2 e hsz h1f h2f hef hen D hR
    have hroot1 := mN_root h1f hef
    have hroot2 := mN_root h2f hef
    have hd1 : (mN t1 e).vis.deleted = max t1.vis.deleted e.vis.deleted := by
      rw [hroot1.1]
    have hd2 : (mN t2 e).vis.deleted = max t2.vis.deleted e.vis.deleted := by
      rw [hroot2.1]
    unfold R at hR ⊢
    obtain ⟨hu, hd, hv, hks, hch⟩ := hR
    have hkey : ∀ k,
        (listGet k ((mN t1 e).keys.getD [])).isSome =
          (listGet k ((mN t2 e).keys.getD [])).isSome ∧
        (∀ c1 c2, listGet k ((mN t1 e).keys.getD []) = some c1 →
          listGet k ((mN t2 e).keys.getD []) = some c2 →
          R (max D (mN t1 e).vis.deleted) c1 c2) := by
      intro k
      have h1 := mN_children t1 e h1f hef hen k
      have h2 := mN_children t2 e h2f hef hen k
      have hs := hks k
      rcases hT1 : listGet k (t1.keys.getD []) with _ | c1' <;>
        rcases hT2 : listGet k (t2.keys.getD []) with _ | c2' <;>
        rcases hE : listGet k (e.keys.getD []) with _ | ek <;>
        simp only [hT1, hT2, hE, Option.isSome_none, Option.isSome_some]
          at h1 h2 hs
      · -- absent everywhere
        have h1' : listGet k ((mN t1 e).keys.getD []) = none := h1
        have h2' : listGet k ((mN t2 e).keys.getD []) = none := h2
        refine ⟨by rw [h1', h2'], ?_⟩
        intro c1 c2 ha hb
        exact Option.noConfusion (h1'.symm.trans ha)
      · -- created from the shared diff on both sides: identical child
        by_cases hnp : (mN Node.default0 ek).is_noop = true
        · rw [if_pos hnp] at h1 h2
          have h1' : listGet k ((mN t1 e).keys.getD []) = none := h1
          have h2' : listGet k ((mN t2 e).keys.getD []) = none := h2
          refine ⟨by rw [h1', h2'], ?_⟩
          intro c1 c2 ha hb
          exact Option.noConfusion (h1'.symm.trans ha)
        · rw [if_neg hnp] at h1 h2
          have h1' : listGet k ((mN t1 e).keys.getD []) =
              some (mN Node.default0 ek) := h1
          have h2' : listGet k ((mN t2 e).keys.getD []) =
              some (mN Node.default0 ek) := h2
          refine ⟨by rw [h1', h2'], ?_⟩
          intro c1 c2 ha hb
          rw [h1'] at ha
          rw [h2'] at hb
          injection ha with hae
          injection hb with hbe
          subst hae hbe
          exact Rr _ _
      · exact Bool.noConfusion hs
      · exact Bool.noConfusion hs
      · exact Bool.noConfusion hs
      · exact Bool.noConfusion hs
      · -- existing children patched by the propagated tombstones
        obtain ⟨δ1, hδ1, he1⟩ := h1
        obtain ⟨δ2, hδ2, he2⟩ := h2
        have he1' : listGet k ((mN t1 e).keys.getD []) =
            some (mN c1' (Node.mk ⟨0, δ1⟩ .Null none 0)) := he1
        have he2' : listGet k ((mN t2 e).keys.getD []) =
            some (mN c2' (Node.mk ⟨0, δ2⟩ .Null none 0)) := he2
        have hc1f : c1'.delegFree :=
          delegFreeL_mem (Node.delegFree_keysL h1f) (listGet_mem hT1)
        have hc2f : c2'.delegFree :=
          delegFreeL_mem (Node.delegFree_keysL h2f) (listGet_mem hT2)
        refine ⟨by rw [he1', he2']; rfl, ?_⟩
        intro c1 c2 ha hb
        rw [he1'] at ha
        rw [he2'] at hb
        injection ha with hae
        injection hb with hbe
        subst hae hbe
        exact Rt (R_absorb c1'.sizeN c1' (le_refl _) hc1f _ δ1 (by omega))
          (Rt (Rm (by omega) (hch k c1' c2' hT1 hT2))
            (Rs (R_absorb c2'.sizeN c2' (le_refl _) hc2f _ δ2 (by omega))))
      · -- existing children patched, then merged with the shared diff child
        obtain ⟨δ1, hδ1, he1⟩ := h1
        obtain ⟨δ2, hδ2, he2⟩ := h2
        have he1' : listGet k ((mN t1 e).keys.getD []) =
            some (mN (mN c1' (Node.mk ⟨0, δ1⟩ .Null none 0)) ek) := he1
        have he2' : listGet k ((mN t2 e).keys.getD []) =
            some (mN (mN c2' (Node.mk ⟨0, δ2⟩ .Null none 0)) ek) := he2
        have hc1f : c1'.delegFree :=
          delegFreeL_mem (Node.delegFree_keysL h1f) (listGet_mem hT1)
        have hc2f : c2'.delegFree :=
          delegFreeL_mem (Node.delegFree_keysL h2f) (listGet_mem hT2)
        have hekf : ek.delegFree :=
          delegFreeL_mem (Node.delegFree_keysL hef) (listGet_mem hE)
        have hekn : ek.nodupKeys :=
          nodupKeysL_mem (Node.nodupKeys_keysL hen).1 (listGet_mem hE)
        refine ⟨by rw [he1', he2']; rfl, ?_⟩
        intro c1 c2 ha hb
        rw [he1'] at ha
        rw [he2'] at hb
        injection ha with hae
        injection hb with hbe
        subst hae hbe
        have hms := mN_size c1' (Node.mk ⟨0, δ1⟩ .Null none 0)
        have hds : (Node.mk ⟨0, δ1⟩ .Null none 0).sizeN = 1 := rfl
        have h1lt := sizeN_child_lt hT1
        have helt := sizeN_child_lt hE
        refine ih (mN c1' (Node.mk ⟨0, δ1⟩ .Null none 0))
          (mN c2' (Node.mk ⟨0, δ2⟩ .Null none 0)) ek (by omega)
          (mN_delegFree hc1f rfl trivial) (mN_delegFree hc2f rfl trivial)
          hekf hekn _ ?_
        exact Rt (R_absorb c1'.sizeN c1' (le_refl _) hc1f _ δ1 (by omega))
          (Rt (Rm (by omega) (hch k c1' c2' hT1 hT2))
            (Rs (R_absorb c2'.sizeN c2' (le_refl _) hc2f _ δ2 (by omega))))
    refine ⟨?_, ?_, ?_, fun k => (hkey k).1,
      fun k c1 c2 ha hb => (hkey k).2 c1 c2 ha hb⟩
    · rw [hroot1.1, hroot2.1]
      dsimp only
      omega
    · rw [hroot1.1, hroot2.1]
      dsimp only
      omega
    · rw [hroot1.1, hroot1.2.1, hroot2.2.1]
      dsimp only
      intro hvis
      unfold scalarVal
      split_ifs <;> first | rfl | omega | exact hv (by omega)

theorem Rab {c : Node} (hc : c.delegFree) {D δ : Nat} (hδ : δ ≤ D) :
    R D (mN c (Node.mk ⟨0, δ⟩ .Null none 0)) c :=
  R_absorb c.sizeN c (le_refl _) hc D δ hδ

theorem Rcg {D : Nat} {t1 t2 e : Node} (h1 : t1.delegFree) (h2 : t2.delegFree)
    (he : e.delegFree) (hen : e.nodupKeys) (h : R D t1 t2) :
    R D (mN t1 e) (mN t2 e) :=
  R_congr (t1.sizeN + e.sizeN) t1 t2 e (le_refl _) h1 h2 he hen D h

theorem default0_delegFree : Node.default0.delegFree := rfl

theorem delZero_delegFree (d : Nat) :
    (Node.mk ⟨0, d⟩ Value.Null none 0).delegFree := rfl

theorem delZero_nodup (d : Nat) :
    (Node.mk ⟨0, d⟩ Value.Null none 0).nodupKeys := trivial

/-- Order-commutativity of two delegation-free merges whose update regions
are disjoint (apart from the vacuous timestamp 0), up to observable
equivalence under any inherited deletion floor. -/
theorem R_main : ∀ (m : Nat) (n a b : Node),
    n.sizeN + a.sizeN + b.sizeN ≤ m →
    n.delegFree → a.delegFree → b.delegFree → a.nodupKeys → b.nodupKeys →
    (∀ x, x ∈ a.uSet → x ∈ b.uSet → x = 0) →
    ∀ D, R D (mN (mN n a) b) (mN (mN n b) a) := by
  intro m
  induction m with
  | zero =>
    intro n a b h
    have := sizeN_pos n
    have := sizeN_pos a
    have := sizeN_pos b
    omega
  | succ m ih =>
    intro n a b hsz hn ha hb han hbn hdisj D
    have hna : (mN n a).delegFree := mN_delegFree hn ha han
    have hnb : (mN n b).delegFree := mN_delegFree hn hb hbn
    have hr1 := mN_root hn ha
    have hr2 := mN_root hna hb
    have hr3 := mN_root hn hb
    have hr4 := mN_root hnb ha
    have hv1 : (mN (mN n a) b).vis =
        ⟨max (max n.vis.updated a.vis.updated) b.vis.updated,
         max (max n.vis.deleted a.vis.deleted) b.vis.deleted⟩ := by
      rw [hr2.1, hr1.1]
    have hv2 : (mN (mN n b) a).vis =
        ⟨max (max n.vis.updated b.vis.updated) a.vis.updated,
         max (max n.vis.deleted b.vis.deleted) a.vis.deleted⟩ := by
      rw [hr4.1, hr3.1]
    have hval1 : (mN (mN n a) b).value =
        scalarVal ⟨max n.vis.updated a.vis.updated,
                   max n.vis.deleted a.vis.deleted⟩
          (scalarVal n.vis n.value a.vis a.value) b.vis b.value := by
      rw [hr2.2.1, hr1.2.1, hr1.1]
    have hval2 : (mN (mN n b) a).value =
        scalarVal ⟨max n.vis.updated b.vis.updated,
                   max n.vis.deleted b.vis.deleted⟩
          (scalarVal n.vis n.value b.vis b.value) a.vis a.value := by
      rw [hr4.2.1, hr3.2.1, hr3.1]
    have hD1 : (mN n a).vis.deleted = max n.vis.deleted a.vis.deleted := by
      rw [hr1.1]
    have hD3 : (mN n b).vis.deleted = max n.vis.deleted b.vis.deleted := by
      rw [hr3.1]
    have hD2 : (mN (mN n a) b).vis.deleted =
        max (max n.vis.deleted a.vis.deleted) b.vis.deleted := by
      rw [hv1]
    have hD4 : (mN (mN n b) a).vis.deleted =
        max (max n.vis.deleted b.vis.deleted) a.vis.deleted := by
      rw [hv2]
    have hkey : ∀ k,
        (listGet k ((mN (mN n a) b).keys.getD [])).isSome =
          (listGet k ((mN (mN n b) a).keys.getD [])).isSome ∧
        (∀ c1 c2, listGet k ((mN (mN n a) b).keys.getD []) = some c1 →
          listGet k ((mN (mN n b) a).keys.getD []) = some c2 →
          R (max D (mN (mN n a) b).vis.deleted) c1 c2) := by
      intro k
      have h1 := mN_children n a hn ha han k
      have h3 := mN_children n b hn hb hbn k
      have h2 := mN_children (mN n a) b hna hb hbn k
      have h4 := mN_children (mN n b) a hnb ha han k
      rcases hNk : listGet k (n.keys.getD []) with _ | Nk <;>
        rcases hAk : listGet k (a.keys.getD []) with _ | Ak <;>
        rcases hBk : listGet k (b.keys.getD []) with _ | Bk <;>
        simp only [hNk, hAk, hBk] at h1 h3
      · -- key absent everywhere
        have h1' : listGet k ((mN n a).keys.getD []) = none := h1
        have h3' : listGet k ((mN n b).keys.getD []) = none := h3
        simp only [h1', hBk] at h2
        simp only [h3', hAk] at h4
        have h2' : listGet k ((mN (mN n a) b).keys.getD []) = none := h2
        have h4' : listGet k ((mN (mN n b) a).keys.getD []) = none := h4
        exact ⟨by rw [h2', h4'], fun c1 c2 hc1 hc2 =>
          Option.noConfusion (h2'.symm.trans hc1)⟩
      · -- only the second diff creates the key
        have hBkf : Bk.delegFree :=
          delegFreeL_mem (Node.delegFree_keysL hb) (listGet_mem hBk)
        have hBkn : Bk.nodupKeys :=
          nodupKeysL_mem (Node.nodupKeys_keysL hbn).1 (listGet_mem hBk)
        have h1' : listGet k ((mN n a).keys.getD []) = none := h1
        simp only [h1', hBk] at h2
        by_cases hnpB : (mN Node.default0 Bk).is_noop = true
        · rw [if_pos hnpB] at h2 h3
          have h3' : listGet k ((mN n b).keys.getD []) = none := h3
          simp only [h3', hAk] at h4
          have h2' : listGet k ((mN (mN n a) b).keys.getD []) = none := h2
          have h4' : listGet k ((mN (mN n b) a).keys.getD []) = none := h4
          exact ⟨by rw [h2', h4'], fun c1 c2 hc1 hc2 =>
            Option.noConfusion (h2'.symm.trans hc1)⟩
        · rw [if_neg hnpB] at h2 h3
          have h3' : listGet k ((mN n b).keys.getD []) =
              some (mN Node.default0 Bk) := h3
          simp only [h3', hAk] at h4
          obtain ⟨δ4, hδ4, he4⟩ := h4
          have h2' : listGet k ((mN (mN n a) b).keys.getD []) =
              some (mN Node.default0 Bk) := h2
          have he4' : listGet k ((mN (mN n b) a).keys.getD []) =
              some (mN (mN Node.default0 Bk)
                (Node.mk ⟨0, δ4⟩ .Null none 0)) := he4
          refine ⟨by rw [h2', he4']; rfl, ?_⟩
          intro c1 c2 hc1 hc2
          rw [h2'] at hc1
          rw [he4'] at hc2
          injection hc1 with hc1e
          injection hc2 with hc2e
          subst hc1e hc2e
          exact Rs (Rab (mN_delegFree default0_delegFree hBkf hBkn) (by omega))
      · -- only the first diff creates the key
        have hAkf : Ak.delegFree :=
          delegFreeL_mem (Node.delegFree_keysL ha) (listGet_mem hAk)
        have hAkn : Ak.nodupKeys :=
          nodupKeysL_mem (Node.nodupKeys_keysL han).1 (listGet_mem hAk)
        have h3' : listGet k ((mN n b).keys.getD []) = none := h3
        simp only [h3', hAk] at h4
        by_cases hnpA : (mN Node.default0 Ak).is_noop = true
        · rw [if_pos hnpA] at h1 h4
          have h1' : listGet k ((mN n a).keys.getD []) = none := h1
          simp only [h1', hBk] at h2
          have h2' : listGet k ((mN (mN n a) b).keys.getD []) = none := h2
          have h4' : listGet k ((mN (mN n b) a).keys.getD []) = none := h4
          exact ⟨by rw [h2', h4'], fun c1 c2 hc1 hc2 =>
            Option.noConfusion (h2'.symm.trans hc1)⟩
        · rw [if_neg hnpA] at h1 h4
          have h1' : listGet k ((mN n a).keys.getD []) =
              some (mN Node.default0 Ak) := h1
          simp only [h1', hBk] at h2
          obtain ⟨δ2, hδ2, he2⟩ := h2
          have h4' : listGet k ((mN (mN n b) a).keys.getD []) =
              some (mN Node.default0 Ak) := h4
          have he2' : listGet k ((mN (mN n a) b).keys.getD []) =
              some (mN (mN Node.default0 Ak)
                (Node.mk ⟨0, δ2⟩ .Null none 0)) := he2
          refine ⟨by rw [he2', h4']; rfl, ?_⟩
          intro c1 c2 hc1 hc2
          rw [he2'] at hc1
          rw [h4'] at hc2
          injection hc1 with hc1e
          injection hc2 with hc2e
          subst hc1e hc2e
          exact Rab (mN_delegFree default0_delegFree hAkf hAkn) (by omega)
      · -- both diffs create the key
        have hAkf : Ak.delegFree :=
          delegFreeL_mem (Node.delegFree_keysL ha) (listGet_mem hAk)
        have hAkn : Ak.nodupKeys :=
          nodupKeysL_mem (Node.nodupKeys_keysL han).1 (listGet_mem hAk)
        have hBkf : Bk.delegFree :=
          delegFreeL_mem (Node.delegFree_keysL hb) (listGet_mem hBk)
        have hBkn : Bk.nodupKeys :=
          nodupKeysL_mem (Node.nodupKeys_keysL hbn).1 (listGet_mem hBk)
        by_cases hnpA : (mN Node.default0 Ak).is_noop = true <;>
          by_cases hnpB : (mN Node.default0 Bk).is_noop = true
        · -- both creations are no-ops
          rw [if_pos hnpA] at h1
          rw [if_pos hnpB] at h3
          have h1' : listGet k ((mN n a).keys.getD []) = none := h1
          have h3' : listGet k ((mN n b).keys.getD []) = none := h3
          simp only [h1', hBk] at h2
          simp only [h3', hAk] at h4
          rw [if_pos hnpB] at h2
          rw [if_pos hnpA] at h4
          have h2' : listGet k ((mN (mN n a) b).keys.getD []) = none := h2
          have h4' : listGet k ((mN (mN n b) a).keys.getD []) = none := h4
          exact ⟨by rw [h2', h4'], fun c1 c2 hc1 hc2 =>
            Option.noConfusion (h2'.symm.trans hc1)⟩
        · -- the first creation is a no-op: its diff child is inert
          rw [if_pos hnpA] at h1
          rw [if_neg hnpB] at h3
          have h1' : listGet k ((mN n a).keys.getD []) = none := h1
          have h3' : listGet k ((mN n b).keys.getD []) =
              some (mN Node.default0 Bk) := h3
          simp only [h1', hBk] at h2
          simp only [h3', hAk] at h4
          rw [if_neg hnpB] at h2
          obtain ⟨δ4, hδ4, he4⟩ := h4
          have h2' : listGet k ((mN (mN n a) b).keys.getD []) =
              some (mN Node.default0 Bk) := h2
          have he4' : listGet k ((mN (mN n b) a).keys.getD []) =
              some (mN (mN (mN Node.default0 Bk)
                (Node.mk ⟨0, δ4⟩ .Null none 0)) Ak) := he4
          refine ⟨by rw [h2', he4']; rfl, ?_⟩
          intro c1 c2 hc1 hc2
          rw [h2'] at hc1
          rw [he4'] at hc2
          injection hc1 with hc1e
          injection hc2 with hc2e
          subst hc1e hc2e
          have hvac := vacant_noop_inert hAkf hnpA
          have hAk0 : Ak = Node.mk ⟨0, 0⟩ Ak.value none 0 := by
            obtain ⟨av, aval, aks, ag⟩ := Ak
            have h7 : ag = 0 := Node.delegFree_deleg hAkf
            obtain ⟨h5, h6⟩ := hvac
            simp only [Node.vis] at h5
            simp only [Node.keys] at h6
            simp only [Node.value]
            subst h5 h6 h7
            rfl
          rw [hAk0, mN_inert _ Ak.value (mN_delegFree
            (mN_delegFree default0_delegFree hBkf hBkn) (delZero_delegFree _) (delZero_nodup _))]
          exact Rs (Rab (mN_delegFree default0_delegFree hBkf hBkn) (by omega))
        · -- the second creation is a no-op: its diff child is inert
          rw [if_neg hnpA] at h1
          rw [if_pos hnpB] at h3
          have h1' : listGet k ((mN n a).keys.getD []) =
              some (mN Node.default0 Ak) := h1
          have h3' : listGet k ((mN n b).keys.getD []) = none := h3
          simp only [h1', hBk] at h2
          simp only [h3', hAk] at h4
          rw [if_neg hnpA] at h4
          obtain ⟨δ2, hδ2, he2⟩ := h2
          have h4' : listGet k ((mN (mN n b) a).keys.getD []) =
              some (mN Node.default0 Ak) := h4
          have he2' : listGet k ((mN (mN n a) b).keys.getD []) =
              some (mN (mN (mN Node.default0 Ak)
                (Node.mk ⟨0, δ2⟩ .Null none 0)) Bk) := he2
          refine ⟨by rw [he2', h4']; rfl, ?_⟩
          intro c1 c2 hc1 hc2
          rw [he2'] at hc1
          rw [h4'] at hc2
          injection hc1 with hc1e
          injection hc2 with hc2e
          subst hc1e hc2e
          have hvac := vacant_noop_inert hBkf hnpB
          have hBk0 : Bk = Node.mk ⟨0, 0⟩ Bk.value none 0 := by
            obtain ⟨bv, bval, bks, bg⟩ := Bk
            have h7 : bg = 0 := Node.delegFree_deleg hBkf
            obtain ⟨h5, h6⟩ := hvac
            simp only [Node.vis] at h5
            simp only [Node.keys] at h6
            simp only [Node.value]
            subst h5 h6 h7
            rfl
          rw [hBk0, mN_inert _ Bk.value (mN_delegFree
            (mN_delegFree default0_delegFree hAkf hAkn) (delZero_delegFree _) (delZero_nodup _))]
          exact Rab (mN_delegFree default0_delegFree hAkf hAkn) (by omega)
        · -- both creations are real: reduces to the child instance
          rw [if_neg hnpA] at h1
          rw [if_neg hnpB] at h3
          have h1' : listGet k ((mN n a).keys.getD []) =
              some (mN Node.default0 Ak) := h1
          have h3' : listGet k ((mN n b).keys.getD []) =
              some (mN Node.default0 Bk) := h3
          simp only [h1', hBk] at h2
          simp only [h3', hAk] at h4
          obtain ⟨δ2, hδ2, he2⟩ := h2
          obtain ⟨δ4, hδ4, he4⟩ := h4
          have he2' : listGet k ((mN (mN n a) b).keys.getD []) =
              some (mN (mN (mN Node.default0 Ak)
                (Node.mk ⟨0, δ2⟩ .Null none 0)) Bk) := he2
          have he4' : listGet k ((mN (mN n b) a).keys.getD []) =
              some (mN (mN (mN Node.default0 Bk)
                (Node.mk ⟨0, δ4⟩ .Null none 0)) Ak) := he4
          refine ⟨by rw [he2', he4']; rfl, ?_⟩
          intro c1 c2 hc1 hc2
          rw [he2'] at hc1
          rw [he4'] at hc2
          injection hc1 with hc1e
          injection hc2 with hc2e
          subst hc1e hc2e
          have hAlt := sizeN_child_lt hAk
          have hBlt := sizeN_child_lt hBk
          have hd0 : Node.default0.sizeN = 1 := rfl
          have hpn := sizeN_pos n
          refine Rt (Rcg (mN_delegFree (mN_delegFree default0_delegFree hAkf hAkn) (delZero_delegFree _) (delZero_nodup _)) (mN_delegFree default0_delegFree hAkf hAkn) hBkf hBkn
              (Rab (mN_delegFree default0_delegFree hAkf hAkn) (by omega)))
            (Rt (ih Node.default0 Ak Bk (by omega) default0_delegFree hAkf hBkf hAkn hBkn
              (fun x hxa hxb => hdisj x (uSet_child_sub hAk x hxa)
                (uSet_child_sub hBk x hxb)) _)
              (Rs (Rcg (mN_delegFree (mN_delegFree default0_delegFree hBkf hBkn) (delZero_delegFree _) (delZero_nodup _)) (mN_delegFree default0_delegFree hBkf hBkn) hAkf hAkn
                (Rab (mN_delegFree default0_delegFree hBkf hBkn) (by omega)))))
      · -- key existing in the node only
        have hNkf : Nk.delegFree :=
          delegFreeL_mem (Node.delegFree_keysL hn) (listGet_mem hNk)
        obtain ⟨δ1, hδ1, he1⟩ := h1
        obtain ⟨δ3, hδ3, he3⟩ := h3
        have he1' : listGet k ((mN n a).keys.getD []) =
            some (mN Nk (Node.mk ⟨0, δ1⟩ .Null none 0)) := he1
        have he3' : listGet k ((mN n b).keys.getD []) =
            some (mN Nk (Node.mk ⟨0, δ3⟩ .Null none 0)) := he3
        simp only [he1', hBk] at h2
        simp only [he3', hAk] at h4
        obtain ⟨δ2, hδ2, he2⟩ := h2
        obtain ⟨δ4, hδ4, he4⟩ := h4
        have he2' : listGet k ((mN (mN n a) b).keys.getD []) =
            some (mN (mN Nk (Node.mk ⟨0, δ1⟩ .Null none 0))
              (Node.mk ⟨0, δ2⟩ .Null none 0)) := he2
        have he4' : listGet k ((mN (mN n b) a).keys.getD []) =
            some (mN (mN Nk (Node.mk ⟨0, δ3⟩ .Null none 0))
              (Node.mk ⟨0, δ4⟩ .Null none 0)) := he4
        refine ⟨by rw [he2', he4']; rfl, ?_⟩
        intro c1 c2 hc1 hc2
        rw [he2'] at hc1
        rw [he4'] at hc2
        injection hc1 with hc1e
        injection hc2 with hc2e
        subst hc1e hc2e
        exact Rt (Rab (mN_delegFree hNkf (delZero_delegFree _) (delZero_nodup _)) (by omega))
          (Rt (Rab hNkf (by omega))
            (Rs (Rt (Rab (mN_delegFree hNkf (delZero_delegFree _) (delZero_nodup _)) (by omega))
              (Rab hNkf (by omega)))))
      · -- node child merged with the second diff child only
        have hNkf : Nk.delegFree :=
          delegFreeL_mem (Node.delegFree_keysL hn) (listGet_mem hNk)
        have hBkf : Bk.delegFree :=
          delegFreeL_mem (Node.delegFree_keysL hb) (listGet_mem hBk)
        have hBkn : Bk.nodupKeys :=
          nodupKeysL_mem (Node.nodupKeys_keysL hbn).1 (listGet_mem hBk)
        obtain ⟨δ1, hδ1, he1⟩ := h1
        obtain ⟨δ3, hδ3, he3⟩ := h3
        have he1' : listGet k ((mN n a).keys.getD []) =
            some (mN Nk (Node.mk ⟨0, δ1⟩ .Null none 0)) := he1
        have he3' : listGet k ((mN n b).keys.getD []) =
            some (mN (mN Nk (Node.mk ⟨0, δ3⟩ .Null none 0)) Bk) := he3
        simp only [he1', hBk] at h2
        simp only [he3', hAk] at h4
        obtain ⟨δ2, hδ2, he2⟩ := h2
        obtain ⟨δ4, hδ4, he4⟩ := h4
        have he2' : listGet k ((mN (mN n a) b).keys.getD []) =
            some (mN (mN (mN Nk (Node.mk ⟨0, δ1⟩ .Null none 0))
              (Node.mk ⟨0, δ2⟩ .Null none 0)) Bk) := he2
        have he4' : listGet k ((mN (mN n b) a).keys.getD []) =
            some (mN (mN (mN Nk (Node.mk ⟨0, δ3⟩ .Null none 0)) Bk)
              (Node.mk ⟨0, δ4⟩ .Null none 0)) := he4
        refine ⟨by rw [he2', he4']; rfl, ?_⟩
        intro c1 c2 hc1 hc2
        rw [he2'] at hc1
        rw [he4'] at hc2
        injection hc1 with hc1e
        injection hc2 with hc2e
        subst hc1e hc2e
        refine Rt (Rcg (mN_delegFree (mN_delegFree hNkf (delZero_delegFree _) (delZero_nodup _)) (delZero_delegFree _) (delZero_nodup _)) (mN_delegFree hNkf (delZero_delegFree _) (delZero_nodup _)) hBkf hBkn
            (Rt (Rab (mN_delegFree hNkf (delZero_delegFree _) (delZero_nodup _)) (by omega))
              (Rt (Rab hNkf (by omega)) (Rs (Rab hNkf (by omega))))))
          (Rs (Rab (mN_delegFree (mN_delegFree hNkf (delZero_delegFree _) (delZero_nodup _)) hBkf hBkn)
            (by omega)))
      · -- node child merged with the first diff child only
        have hNkf : Nk.delegFree :=
          delegFreeL_mem (Node.delegFree_keysL hn) (listGet_mem hNk)
        have hAkf : Ak.delegFree :=
          delegFreeL_mem (Node.delegFree_keysL ha) (listGet_mem hAk)
        have hAkn : Ak.nodupKeys :=
          nodupKeysL_mem (Node.nodupKeys_keysL han).1 (listGet_mem hAk)
        obtain ⟨δ1, hδ1, he1⟩ := h1
        obtain ⟨δ3, hδ3, he3⟩ := h3
        have he1' : listGet k ((mN n a).keys.getD []) =
            some (mN (mN Nk (Node.mk ⟨0, δ1⟩ .Null none 0)) Ak) := he1
        have he3' : listGet k ((mN n b).keys.getD []) =
            some (mN Nk (Node.mk ⟨0, δ3⟩ .Null none 0)) := he3
        simp only [he1', hBk] at h2
        simp only [he3', hAk] at h4
        obtain ⟨δ2, hδ2, he2⟩ := h2
        obtain ⟨δ4, hδ4, he4⟩ := h4
        have he2' : listGet k ((mN (mN n a) b).keys.getD []) =
            some (mN (mN (mN Nk (Node.mk ⟨0, δ1⟩ .Null none 0)) Ak)
              (Node.mk ⟨0, δ2⟩ .Null none 0)) := he2
        have he4' : listGet k ((mN (mN n b) a).keys.getD []) =
            some (mN (mN (mN Nk (Node.mk ⟨0, δ3⟩ .Null none 0))
              (Node.mk ⟨0, δ4⟩ .Null none 0)) Ak) := he4
        refine ⟨by rw [he2', he4']; rfl, ?_⟩
        intro c1 c2 hc1 hc2
        rw [he2'] at hc1
        rw [he4'] at hc2
        injection hc1 with hc1e
        injection hc2 with hc2e
        subst hc1e hc2e
        refine Rt (Rab (mN_delegFree (mN_delegFree hNkf (delZero_delegFree _) (delZero_nodup _)) hAkf
            hAkn) (by omega)) ?_
        refine Rcg (mN_delegFree hNkf (delZero_delegFree _) (delZero_nodup _))
          (mN_delegFree (mN_delegFree hNkf (delZero_delegFree _) (delZero_nodup _)) (delZero_delegFree _) (delZero_nodup _))
          hAkf hAkn ?_
        exact Rt (Rab hNkf (by omega))
          (Rs (Rt (Rab (mN_delegFree hNkf (delZero_delegFree _) (delZero_nodup _)) (by omega))
            (Rab hNkf (by omega))))
      · -- key present everywhere: reduces to the child instance
        have hNkf : Nk.delegFree :=
          delegFreeL_mem (Node.delegFree_keysL hn) (listGet_mem hNk)
        have hAkf : Ak.delegFree :=
          delegFreeL_mem (Node.delegFree_keysL ha) (listGet_mem hAk)
        have hAkn : Ak.nodupKeys :=
          nodupKeysL_mem (Node.nodupKeys_keysL han).1 (listGet_mem hAk)
        have hBkf : Bk.delegFree :=
          delegFreeL_mem (Node.delegFree_keysL hb) (listGet_mem hBk)
        have hBkn : Bk.nodupKeys :=
          nodupKeysL_mem (Node.nodupKeys_keysL hbn).1 (listGet_mem hBk)
        obtain ⟨δ1, hδ1, he1⟩ := h1
        obtain ⟨δ3, hδ3, he3⟩ := h3
        have he1' : listGet k ((mN n a).keys.getD []) =
            some (mN (mN Nk (Node.mk ⟨0, δ1⟩ .Null none 0)) Ak) := he1
        have he3' : listGet k ((mN n b).keys.getD []) =
            some (mN (mN Nk (Node.mk ⟨0, δ3⟩ .Null none 0)) Bk) := he3
        simp only [he1', hBk] at h2
        simp only [he3', hAk] at h4
        obtain ⟨δ2, hδ2, he2⟩ := h2
        obtain ⟨δ4, hδ4, he4⟩ := h4
        have he2' : listGet k ((mN (mN n a) b).keys.getD []) =
            some (mN (mN (mN (mN Nk (Node.mk ⟨0, δ1⟩ .Null none 0)) Ak)
              (Node.mk ⟨0, δ2⟩ .Null none 0)) Bk) := he2
        have he4' : listGet k ((mN (mN n b) a).keys.getD []) =
            some (mN (mN (mN (mN Nk (Node.mk ⟨0, δ3⟩ .Null none 0)) Bk)
              (Node.mk ⟨0, δ4⟩ .Null none 0)) Ak) := he4
        refine ⟨by rw [he2', he4']; rfl, ?_⟩
        intro c1 c2 hc1 hc2
        rw [he2'] at hc1
        rw [he4'] at hc2
        injection hc1 with hc1e
        injection hc2 with hc2e
        subst hc1e hc2e
        have hNlt := sizeN_child_lt hNk
        have hAlt := sizeN_child_lt hAk
        have hBlt := sizeN_child_lt hBk
        refine Rt (Rcg (mN_delegFree (mN_delegFree
            (mN_delegFree hNkf (delZero_delegFree _) (delZero_nodup _)) hAkf hAkn) (delZero_delegFree _) (delZero_nodup _))
            (mN_delegFree hNkf hAkf hAkn) hBkf hBkn
            (Rt (Rab (mN_delegFree (mN_delegFree hNkf (delZero_delegFree _) (delZero_nodup _)) hAkf
              hAkn) (by omega))
              (Rcg (mN_delegFree hNkf (delZero_delegFree _) (delZero_nodup _)) hNkf hAkf hAkn
                (Rab hNkf (by omega)))))
          (Rt (ih Nk Ak Bk (by omega) hNkf hAkf hBkf hAkn hBkn
            (fun x hxa hxb => hdisj x (uSet_child_sub hAk x hxa)
              (uSet_child_sub hBk x hxb)) _) ?_)
        refine Rs (Rt (Rcg (mN_delegFree (mN_delegFree
            (mN_delegFree hNkf (delZero_delegFree _) (delZero_nodup _)) hBkf hBkn) (delZero_delegFree _) (delZero_nodup _))
            (mN_delegFree hNkf hBkf hBkn) hAkf hAkn
            (Rt (Rab (mN_delegFree (mN_delegFree hNkf (delZero_delegFree _) (delZero_nodup _)) hBkf
              hBkn) (by omega))
              (Rcg (mN_delegFree hNkf (delZero_delegFree _) (delZero_nodup _)) hNkf hBkf hBkn
                (Rab hNkf (by omega))))) (Rr _ _))
    unfold R
    refine ⟨?_, ?_, ?_, fun k => (hkey k).1,
      fun k c1 c2 hc1 hc2 => (hkey k).2 c1 c2 hc1 hc2⟩
    · rw [hv1, hv2]
      dsimp only
      omega
    · rw [hv1, hv2]
      dsimp only
      omega
    · rw [hval1, hval2, hv1]
      intro hvis
      dsimp only at hvis
      have hdisj2 : a.vis.updated ≠ b.vis.updated ∨
          (a.vis.updated = 0 ∧ b.vis.updated = 0) := by
        by_cases heq : a.vis.updated = b.vis.updated
        · have h0 := hdisj a.vis.updated (uSet_root_mem a)
            (by rw [heq]; exact uSet_root_mem b)
          exact Or.inr ⟨h0, by omega⟩
        · exact Or.inl heq
      exact scalarVal_swap n.vis a.vis b.vis n.value a.value b.value hdisj2
        (by omega)

/-- Observational adequacy of `R`: trees equivalent under the window's
deletion floor are indistinguishable through `visibleAt` under that
window, at every path. -/
theorem R_visibleAt : ∀ (p : List String) (t1 t2 : Node) (w : Vis),
    R w.deleted t1 t2 → t1.visibleAt w p = t2.visibleAt w p := by
  intro p
  induction p with
  | nil =>
    intro t1 t2 w hR
    unfold R at hR
    obtain ⟨hu, hd, hv, _, _⟩ := hR
    simp only [Node.visibleAt, Node.visAt, Node.valueAt]
    have h1 : w.descend t1.vis =
        ⟨min w.updated t1.vis.updated, max w.deleted t1.vis.deleted⟩ :=
      descend_eq _ _
    have h2 : w.descend t2.vis =
        ⟨min w.updated t2.vis.updated, max w.deleted t2.vis.deleted⟩ :=
      descend_eq _ _
    have hvv : (⟨min w.updated t1.vis.updated,
        max w.deleted t1.vis.deleted⟩ : Vis) =
        ⟨min w.updated t2.vis.updated, max w.deleted t2.vis.deleted⟩ := by
      rw [hu, hd]
    rw [h1, h2, hvv]
    by_cases hvis : (⟨min w.updated t2.vis.updated,
        max w.deleted t2.vis.deleted⟩ : Vis).is_visible = true
    · rw [if_pos hvis, if_pos hvis]
      simp only [Vis.is_visible, decide_eq_true_eq] at hvis
      rw [hv (by omega)]
    · rw [if_neg hvis, if_neg hvis]
  | cons k rest ih =>
    intro t1 t2 w hR
    unfold R at hR
    obtain ⟨hu, hd, hv, hks, hch⟩ := hR
    rw [visibleAt_cons, visibleAt_cons]
    have hs := hks k
    rcases hg1 : listGet k (t1.keys.getD []) with _ | c1 <;>
      rcases hg2 : listGet k (t2.keys.getD []) with _ | c2 <;>
      rw [hg1, hg2] at hs <;>
      simp only [hg1, hg2, Option.isSome_none, Option.isSome_some] at hs ⊢
    · exact Bool.noConfusion hs
    · exact Bool.noConfusion hs
    · have hw1 : w.descend t1.vis =
          ⟨min w.updated t1.vis.updated, max w.deleted t1.vis.deleted⟩ :=
        descend_eq _ _
      have hw2 : w.descend t2.vis =
          ⟨min w.updated t2.vis.updated, max w.deleted t2.vis.deleted⟩ :=
        descend_eq _ _
      have hvv : (⟨min w.updated t1.vis.updated,
          max w.deleted t1.vis.deleted⟩ : Vis) =
          ⟨min w.updated t2.vis.updated, max w.deleted t2.vis.deleted⟩ := by
        rw [hu, hd]
      rw [hw1, hw2, hvv]
      refine ih c1 c2 ⟨min w.updated t2.vis.updated,
        max w.deleted t2.vis.deleted⟩ ?_
      show R (max w.deleted t2.vis.deleted) c1 c2
      rw [← hd]
      exact hch k c1 c2 hg1 hg2

/-- C1 (amended): `NodeTree::merge` is commutative with respect to the
externally observable state on delegation-free trees whose update regions
are disjoint: for every delegation-free stored tree and every two
delegation-free diff trees (with duplicate-free key maps) that share no
non-zero updated timestamp, merging A then B yields the same visible value
at every path, under the stored ancestor window, as merging B then A —
although the stored residues may differ byte-wise (propagated tombstones
and invisible scalar leftovers below the accumulated deletion floor). With
delegation words involved, commutativity genuinely fails
(`c1_commutativity_counterexample`). -/
theorem c1_tree_observable_commutative (n a b : Node) (v0 va vb : Vis)
    (hn : n.delegFree) (ha : a.delegFree) (hb : b.delegFree)
    (han : a.nodupKeys) (hbn : b.nodupKeys)
    (hdisj : ∀ x, x ∈ a.uSet → x ∈ b.uSet → x = 0) (p : List String) :
    (NodeTree.merge (NodeTree.merge ⟨n, v0⟩ ⟨a, va⟩).self
        ⟨b, vb⟩).self.node.visibleAt
      (NodeTree.merge (NodeTree.merge ⟨n, v0⟩ ⟨a, va⟩).self
        ⟨b, vb⟩).self.vis p =
    (NodeTree.merge (NodeTree.merge ⟨n, v0⟩ ⟨b, vb⟩).self
        ⟨a, va⟩).self.node.visibleAt
      (NodeTree.merge (NodeTree.merge ⟨n, v0⟩ ⟨b, vb⟩).self
        ⟨a, va⟩).self.vis p := by
  have hna : (mN n a).delegFree := mN_delegFree hn ha han
  have hnb : (mN n b).delegFree := mN_delegFree hn hb hbn
  have e1 : (NodeTree.merge ⟨n, v0⟩ ⟨a, va⟩).self = ⟨mN n a, va.merge v0⟩ := by
    simp only [NodeTree.merge, Node.merge]
    rw [mN_eq (n.sizeN + a.sizeN) [] n a v0 (va.merge v0) (le_refl _) hn ha
      han]
  have e3 : (NodeTree.merge ⟨n, v0⟩ ⟨b, vb⟩).self = ⟨mN n b, vb.merge v0⟩ := by
    simp only [NodeTree.merge, Node.merge]
    rw [mN_eq (n.sizeN + b.sizeN) [] n b v0 (vb.merge v0) (le_refl _) hn hb
      hbn]
  rw [e1, e3]
  have e2 : (NodeTree.merge ⟨mN n a, va.merge v0⟩ ⟨b, vb⟩).self =
      ⟨mN (mN n a) b, vb.merge (va.merge v0)⟩ := by
    simp only [NodeTree.merge, Node.merge]
    rw [mN_eq ((mN n a).sizeN + b.sizeN) [] (mN n a) b (va.merge v0)
      (vb.merge (va.merge v0)) (le_refl _) hna hb hbn]
  have e4 : (NodeTree.merge ⟨mN n b, vb.merge v0⟩ ⟨a, va⟩).self =
      ⟨mN (mN n b) a, va.merge (vb.merge v0)⟩ := by
    simp only [NodeTree.merge, Node.merge]
    rw [mN_eq ((mN n b).sizeN + a.sizeN) [] (mN n b) a (vb.merge v0)
      (va.merge (vb.merge v0)) (le_refl _) hnb ha han]
  rw [e2, e4, Vis.merge_right_swap va vb v0]
  exact R_visibleAt p (mN (mN n a) b) (mN (mN n b) a)
    (vb.merge (va.merge v0))
    (R_main (n.sizeN + a.sizeN + b.sizeN) n a b (le_refl _) hn ha hb han hbn
      hdisj _)

theorem c1_tree_observable_commutative_witness :
    (NodeTree.merge (NodeTree.merge
        ⟨.mk ⟨1, 0⟩ (.Str "n") (some [("k", .mk ⟨1, 0⟩ (.Str "nk") none 0)]) 0,
          ⟨9, 0⟩⟩
        ⟨.mk ⟨5, 0⟩ (.Str "a") (some [("k", .mk ⟨5, 2⟩ (.Str "ak") none 0)]) 0,
          ⟨9, 0⟩⟩).self
        ⟨.mk ⟨7, 2⟩ (.Str "b") (some [("j", .mk ⟨7, 0⟩ (.Str "bj") none 0)]) 0,
          ⟨9, 0⟩⟩).self.node.visibleAt
      (NodeTree.merge (NodeTree.merge
        ⟨.mk ⟨1, 0⟩ (.Str "n") (some [("k", .mk ⟨1, 0⟩ (.Str "nk") none 0)]) 0,
          ⟨9, 0⟩⟩
        ⟨.mk ⟨5, 0⟩ (.Str "a") (some [("k", .mk ⟨5, 2⟩ (.Str "ak") none 0)]) 0,
          ⟨9, 0⟩⟩).self
        ⟨.mk ⟨7, 2⟩ (.Str "b") (some [("j", .mk ⟨7, 0⟩ (.Str "bj") none 0)]) 0,
          ⟨9, 0⟩⟩).self.vis ["k"] =
    (NodeTree.merge (NodeTree.merge
        ⟨.mk ⟨1, 0⟩ (.Str "n") (some [("k", .mk ⟨1, 0⟩ (.Str "nk") none 0)]) 0,
          ⟨9, 0⟩⟩
        ⟨.mk ⟨7, 2⟩ (.Str "b") (some [("j", .mk ⟨7, 0⟩ (.Str "bj") none 0)]) 0,
          ⟨9, 0⟩⟩).self
        ⟨.mk ⟨5, 0⟩ (.Str "a") (some [("k", .mk ⟨5, 2⟩ (.Str "ak") none 0)]) 0,
          ⟨9, 0⟩⟩).self.node.visibleAt
      (NodeTree.merge (NodeTree.merge
        ⟨.mk ⟨1, 0⟩ (.Str "n") (some [("k", .mk ⟨1, 0⟩ (.Str "nk") none 0)]) 0,
          ⟨9, 0⟩⟩
        ⟨.mk ⟨7, 2⟩ (.Str "b") (some [("j", .mk ⟨7, 0⟩ (.Str "bj") none 0)]) 0,
          ⟨9, 0⟩⟩).self
        ⟨.mk ⟨5, 0⟩ (.Str "a") (some [("k", .mk ⟨5, 2⟩ (.Str "ak") none 0)]) 0,
          ⟨9, 0⟩⟩).self.vis ["k"] :=
  c1_tree_observable_commutative
    (.mk ⟨1, 0⟩ (.Str "n") (some [("k", .mk ⟨1, 0⟩ (.Str "nk") none 0)]) 0)
    (.mk ⟨5, 0⟩ (.Str "a") (some [("k", .mk ⟨5, 2⟩ (.Str "ak") none 0)]) 0)
    (.mk ⟨7, 2⟩ (.Str "b") (some [("j", .mk ⟨7, 0⟩ (.Str "bj") none 0)]) 0)
    ⟨9, 0⟩ ⟨9, 0⟩ ⟨9, 0⟩ ⟨rfl, rfl, trivial⟩ ⟨rfl, rfl, trivial⟩
    ⟨rfl, rfl, trivial⟩ ⟨by simp, trivial, trivial⟩
    ⟨by simp, trivial, trivial⟩
    (by intro x hxa hxb; simp [Node.uSet, uSetL] at hxa hxb; omega) ["k"]
